import Mathlib

set_option maxHeartbeats 1000000

/-!
Shallow embedding of the rust-study repository's core data structures:

* `NaiveFID` (src/bits/fid/naive_fid.rs): a bit vector packed into 64-bit
  blocks with per-block popcount prefix sums;
* the `FID` trait's default `rank0`/`select0`/`select1` (src/bits/fid.rs);
* `U8WaveletMatrix` over `NaiveFID` (src/bits/wavelet_matrix.rs);
* `Heap` (src/collections/heap.rs);
* `NaiveTrie` (src/string/trie/naive_trie.rs).

Machine integers (`u64`, `u8`, `usize`) are modelled as `Nat`; `u64` block
values stay below `2 ^ 64` by construction.  Operations that can panic
(assertions, out-of-bounds indexing, overflowing shifts, underflowing
subtraction) return `Option`, with `none` for the panic.
-/

/-- Rust `u64::count_ones`: number of set bits. -/
def count_ones (n : Nat) : Nat :=
  if h : n = 0 then 0 else count_ones (n / 2) + n % 2
termination_by n
decreasing_by exact Nat.div_lt_self (Nat.pos_of_ne_zero h) Nat.one_lt_two

/-- Value of a little-endian list of bits: bit `i` of the result is entry `i`
of the list.  This is how `from_bool_vec` packs booleans into one block by
or-ing `1 << (i % 64)`. -/
def bitsVal : List Bool → Nat
  | [] => 0
  | b :: bs => (if b then 1 else 0) + 2 * bitsVal bs

/-- The length-64 slice of bits stored in block `k`. -/
def chunkOf (vec : List Bool) (k : Nat) : List Bool := (vec.drop (64 * k)).take 64

structure NaiveFID where
  n : Nat
  blocks : List Nat
  popcount_offset : List Nat
deriving Repr, DecidableEq

/-- Accumulator loop of `NaiveFID::construct_popcount_offset`: pushes the
running popcount before adding the current block's popcount. -/
def construct_popcount_offset_go (acc : Nat) : List Nat → List Nat
  | [] => []
  | b :: bs => acc :: construct_popcount_offset_go (acc + count_ones b) bs

/-- `NaiveFID::construct_popcount_offset`: exclusive prefix sums of the
blocks' popcounts. -/
def construct_popcount_offset (blocks : List Nat) : List Nat :=
  construct_popcount_offset_go 0 blocks

/-- `NaiveFID::from_bool_vec`.  The Rust code fills `n / 64 + 1` zeroed
64-bit blocks, or-ing `1 << (i % 64)` into block `i / 64` for each true bit;
block `k` therefore holds the value of the bit slice `vec[64k .. 64k+64)`. -/
def from_bool_vec (vec : List Bool) : NaiveFID :=
  let n := vec.length
  let blocks := (List.range (n / 64 + 1)).map (fun k => bitsVal (chunkOf vec k))
  { n := n, blocks := blocks, popcount_offset := construct_popcount_offset blocks }

/-- `FID::new` for `NaiveFID`: `n / 64 + 1` zero blocks and zero offsets. -/
def NaiveFID.new (n : Nat) : NaiveFID :=
  { n := n
    blocks := List.replicate (n / 64 + 1) 0
    popcount_offset := List.replicate (n / 64 + 1) 0 }

/-- `NaiveFID::get`: `assert!(i < n)`, then test bit `i % 64` of block
`i / 64` (`bit_idx = i - block_idx * 64 = i % 64`); `none` models the
assertion failure or an out-of-bounds block index. -/
def NaiveFID.get (f : NaiveFID) (i : Nat) : Option Bool :=
  if i < f.n then
    (f.blocks.get? (i / 64)).map (fun b => (b &&& (1 <<< (i % 64))) != 0)
  else none

/-- `NaiveFID::set`: `assert!(i < n)`; if the stored bit differs from `bit`,
flip it (`|= mask` resp. `&= !mask`) and adjust every `popcount_offset`
entry strictly after the edited block by `±1`. -/
def NaiveFID.set (f : NaiveFID) (i : Nat) (bit : Bool) : Option NaiveFID :=
  if i < f.n then
    match f.blocks.get? (i / 64) with
    | none => none
    | some b =>
      let block_idx := i / 64
      let mask := 1 <<< (i % 64)
      let cur_bit := (b &&& mask) != 0
      if cur_bit = bit then some f
      else if bit then
        some { f with
               blocks := f.blocks.set block_idx (b ||| mask),
               popcount_offset :=
                 incFrom (block_idx + 1) f.popcount_offset }
      else
        some { f with
               blocks := f.blocks.set block_idx (b &&& ((2 ^ 64 - 1) ^^^ mask)),
               popcount_offset :=
                 decFrom (block_idx + 1) f.popcount_offset }
  else none
where
  /-- `for i in j .. len { v[i] += 1 }`. -/
  incFrom : Nat → List Nat → List Nat
    | _, [] => []
    | 0, x :: xs => (x + 1) :: incFrom 0 xs
    | j + 1, x :: xs => x :: incFrom j xs
  /-- `for i in j .. len { v[i] -= 1 }`. -/
  decFrom : Nat → List Nat → List Nat
    | _, [] => []
    | 0, x :: xs => (x - 1) :: decFrom 0 xs
    | j + 1, x :: xs => x :: decFrom j xs

/-- `FID::len`. -/
def NaiveFID.len (f : NaiveFID) : Nat := f.n

/-- `NaiveFID::access` is `get`. -/
def NaiveFID.access (f : NaiveFID) (i : Nat) : Option Bool := f.get i

/-- `NaiveFID::rank1`: `assert!(i <= n)`; `popcount_offset[i / 64]` plus the
popcount of the low `i % 64` bits of block `i / 64` (the mask is `0` when
`bit_idx = 0`, else `!0u64 >> (64 - bit_idx)`). -/
def NaiveFID.rank1 (f : NaiveFID) (i : Nat) : Option Nat :=
  if i ≤ f.n then
    match f.blocks.get? (i / 64), f.popcount_offset.get? (i / 64) with
    | some b, some off =>
      let bit_idx := i % 64
      let mask := if bit_idx = 0 then 0 else (2 ^ 64 - 1) >>> (64 - bit_idx)
      some (off + count_ones (b &&& mask))
    | _, _ => none
  else none

/-- `FID::rank0` default implementation: `i - rank1 i`. -/
def NaiveFID.rank0 (f : NaiveFID) (i : Nat) : Option Nat :=
  (f.rank1 i).map (fun r => i - r)

/-- Total version of `rank1` (out-of-range table reads give `0`); used by the
`select` binary search, whose probes always stay in `[0, n]`. -/
def NaiveFID.rank1Raw (f : NaiveFID) (i : Nat) : Nat :=
  let b := f.blocks.getD (i / 64) 0
  let off := f.popcount_offset.getD (i / 64) 0
  let bit_idx := i % 64
  let mask := if bit_idx = 0 then 0 else (2 ^ 64 - 1) >>> (64 - bit_idx)
  off + count_ones (b &&& mask)

/-- Total version of `rank0`. -/
def NaiveFID.rank0Raw (f : NaiveFID) (i : Nat) : Nat := i - f.rank1Raw i

/-- The binary-search loop shared by `FID::select0` / `FID::select1`
(src/bits/fid.rs): narrow `[beg, e)` over the monotone step function `rank`,
returning `beg` once `e - beg ≤ 1`. -/
def select_loop (rank : Nat → Nat) (i : Nat) (beg e : Nat) : Nat :=
  if e ≤ beg + 1 then beg
  else
    let p := (beg + e) / 2
    if i < rank p then select_loop rank i beg p
    else select_loop rank i p e
termination_by e - beg
decreasing_by
  · omega
  · omega

/-- `FID::select1` default implementation: return `len` when fewer than
`i + 1` ones exist, else binary search. -/
def NaiveFID.select1 (f : NaiveFID) (i : Nat) : Nat :=
  if f.rank1Raw f.n ≤ i then f.n
  else select_loop f.rank1Raw i 0 f.n

/-- `FID::select0` default implementation. -/
def NaiveFID.select0 (f : NaiveFID) (i : Nat) : Nat :=
  if f.rank0Raw f.n ≤ i then f.n
  else select_loop f.rank0Raw i 0 f.n

/-- Block loop of `impl Not for NaiveFID`: complement every block, masking
the block holding the last bits with `!0u64 >> (64 - n)` where `n < 64` is
the number of bits not yet covered.  When that remaining count is `0` the
shift amount is `64`, an overflowing shift (a panic in debug builds),
modelled as `none`. -/
def not_blocks : List Nat → Nat → Option (List Nat)
  | [], _ => some []
  | b :: bs, n =>
    if 64 ≤ n then
      (not_blocks bs (n - 64)).map (fun rest => ((2 ^ 64 - 1) ^^^ b) :: rest)
    else if n = 0 then none
    else
      (not_blocks bs n).map
        (fun rest => (((2 ^ 64 - 1) ^^^ b) &&& ((2 ^ 64 - 1) >>> (64 - n))) :: rest)

/-- `impl Not for NaiveFID`. -/
def NaiveFID.not (f : NaiveFID) : Option NaiveFID :=
  (not_blocks f.blocks f.n).map (fun blocks =>
    { n := f.n, blocks := blocks, popcount_offset := construct_popcount_offset blocks })

/-- A `NaiveFID` is well-formed for a logical bit sequence `bv` when it is
exactly the structure that `from_bool_vec bv` builds. -/
def NaiveFID.WF (f : NaiveFID) (bv : List Bool) : Prop := f = from_bool_vec bv

/-! ## Wavelet matrix (src/bits/wavelet_matrix.rs), over `NaiveFID` -/

/-- Bit-plane mask of layer `i`: `!((!0u8) >> 1) >> i`, i.e. `0x80 >> i`. -/
def planeMask (i : Nat) : Nat := 0x80 >>> i

/-- Whether element `v` goes to the ones side at layer `i`:
`(v & mask) != 0`. -/
def planeBit (i : Nat) (v : Nat) : Bool := (v &&& planeMask i) != 0

/-- Working sequence before layer `d` of the construction loop: layer `d`
records these elements' plane-`d` bits, then stably moves the zero-bit
elements (`zeros`) in front of the one-bit elements (`ones`). -/
def wmVec (vec : List Nat) : Nat → List Nat
  | 0 => vec
  | d + 1 =>
    (wmVec vec d).filter (fun v => !planeBit d v) ++
      (wmVec vec d).filter (fun v => planeBit d v)

/-- The boolean vector recorded into layer `d`'s `NaiveFID`. -/
def wmBits (vec : List Nat) (d : Nat) : List Bool :=
  (wmVec vec d).map (fun v => planeBit d v)

structure U8WaveletMatrix where
  n : Nat
  matrix : List NaiveFID
  offset : Nat → Nat

/-- `U8WaveletMatrix::<NaiveFID>::new`: 8 layers of plane bits, and
`offset[v]` = first index of `v` in the final working sequence (`n` when `v`
never occurs; the Rust code initialises the table with `n` and records the
index of each value's first occurrence). -/
def U8WaveletMatrix.new (vec : List Nat) : U8WaveletMatrix :=
  { n := vec.length
    matrix := (List.range 8).map (fun d => from_bool_vec (wmBits vec d))
    offset := fun v => ((wmVec vec 8).indexOf? v).getD vec.length }

/-- Layer loop of `U8WaveletMatrix::access`: read the bit at the current
position, shift it into the result, and move the position to `rank0(i)` or
`rank0(len) + rank1(i)`. -/
def accessGo : List NaiveFID → Nat → Nat → Option Nat
  | [], _, result => some result
  | fid :: rest, i, result =>
    (fid.access i).bind (fun b =>
      let bit := if b then 1 else 0
      let result := (result <<< 1) ||| bit
      if b then
        (fid.rank0 fid.len).bind (fun z =>
          (fid.rank1 i).bind (fun r1 => accessGo rest (z + r1) result))
      else
        (fid.rank0 i).bind (fun r0 => accessGo rest r0 result))

/-- `U8WaveletMatrix::access`. -/
def U8WaveletMatrix.access (w : U8WaveletMatrix) (i : Nat) : Option Nat :=
  accessGo w.matrix i 0

/-- Layer loop of `U8WaveletMatrix::rank`: drive the access position
transform using `v`'s bits, with `mask` starting at `0x80` and shifting
right once per layer. -/
def rankGo : List NaiveFID → Nat → Nat → Nat → Option Nat
  | [], _, _, i => some i
  | fid :: rest, v, mask, i =>
    (if (v &&& mask) == 0 then fid.rank0 i
     else (fid.rank0 fid.len).bind (fun z => (fid.rank1 i).map (fun r => z + r))).bind
      (fun i2 => rankGo rest v (mask >>> 1) i2)

/-- `U8WaveletMatrix::rank`: `0` if `v` is absent (`offset[v] == n`); clamp
`i` to `n`; descend; the result is `p - offset[v]` (a `usize` subtraction,
`none` on underflow). -/
def U8WaveletMatrix.rank (w : U8WaveletMatrix) (v i : Nat) : Option Nat :=
  if w.offset v = w.n then some 0
  else
    let i := if w.n < i then w.n else i
    (rankGo w.matrix v 0x80 i).bind
      (fun p => if w.offset v ≤ p then some (p - w.offset v) else none)

/-- Layer loop of `U8WaveletMatrix::quantile`. -/
def quantileGo : List NaiveFID → Nat → Nat → Nat → Nat → Option Nat
  | [], _, _, _, result => some result
  | fid :: rest, s, e, r, result =>
    (fid.rank0 e).bind (fun r0e =>
    (fid.rank0 s).bind (fun r0s =>
      let nzero := r0e - r0s
      if r < nzero then
        quantileGo rest r0s r0e r (result <<< 1)
      else
        (fid.rank0 fid.len).bind (fun z =>
        (fid.rank1 s).bind (fun r1s =>
        (fid.rank1 e).bind (fun r1e =>
          quantileGo rest (z + r1s) (z + r1e) (r - nzero) ((result <<< 1) ||| 1))))))

/-- `U8WaveletMatrix::quantile`. -/
def U8WaveletMatrix.quantile (w : U8WaveletMatrix) (s e r : Nat) : Option Nat :=
  quantileGo w.matrix s e r 0

/-! ## Binary heap (src/collections/heap.rs) -/

structure Heap (α : Type) where
  heap : List α
  compare : α → α → Ordering

/-- `Heap::with_compare`. -/
def Heap.with_compare {α : Type} (cmp : α → α → Ordering) : Heap α := ⟨[], cmp⟩

/-- `Vec::swap` of two indices. -/
def lswap {α : Type} (l : List α) (i j : Nat) : List α :=
  match l.get? i, l.get? j with
  | some a, some b => (l.set i b).set j a
  | _, _ => l

/-- `Heap::heap_up`. -/
def heap_up {α : Type} (cmp : α → α → Ordering) (l : List α) (i : Nat) : List α :=
  if h : i = 0 then l
  else
    let parent := (i - 1) / 2
    match l.get? i, l.get? parent with
    | some c, some p =>
      if cmp c p = Ordering.lt then heap_up cmp (lswap l i parent) parent else l
    | _, _ => l
termination_by i
decreasing_by omega

/-- Child selection of `Heap::heap_down`: `child = i*2+1`, and `right =
child + 1` is preferred when it exists and compares `Less` than `child`. -/
def heap_down_child {α : Type} (cmp : α → α → Ordering) (l : List α) (child : Nat) : Nat :=
  if child + 1 < l.length then
    match l.get? (child + 1), l.get? child with
    | some r, some c => if cmp r c = Ordering.lt then child + 1 else child
    | _, _ => child
  else child

/-- `Heap::heap_down`. -/
def heap_down {α : Type} (cmp : α → α → Ordering) (l : List α) (i : Nat) : List α :=
  if h : l.length ≤ i * 2 + 1 then l
  else
    match l.get? (heap_down_child cmp l (i * 2 + 1)), l.get? i with
    | some c, some cur =>
      if cmp c cur = Ordering.lt then
        heap_down cmp (lswap l i (heap_down_child cmp l (i * 2 + 1)))
          (heap_down_child cmp l (i * 2 + 1))
      else l
    | _, _ => l
termination_by l.length - i
decreasing_by
  have hlen : ∀ (a b : Nat), (lswap l a b).length = l.length := by
    intro a b
    unfold lswap
    split
    · simp [List.length_set]
    · rfl
  rw [hlen]
  have hc : i * 2 + 1 ≤ heap_down_child cmp l (i * 2 + 1) ∧
      heap_down_child cmp l (i * 2 + 1) ≤ i * 2 + 2 := by
    unfold heap_down_child
    repeat' split
    all_goals omega
  omega

/-- `Heap::push`: append then sift up from the last index. -/
def Heap.push {α : Type} (h : Heap α) (v : α) : Heap α :=
  let l := h.heap ++ [v]
  { h with heap := heap_up h.compare l (l.length - 1) }

/-- `Vec::swap_remove(0)`: remove index 0, moving the last element into its
place. -/
def swap_remove_front {α : Type} : List α → List α
  | [] => []
  | _ :: xs =>
    match xs.getLast? with
    | none => []
    | some last => last :: xs.dropLast

/-- `Heap::pop`: `None` if empty, else `swap_remove(0)` followed by
`heap_down(0)`. -/
def Heap.pop {α : Type} (h : Heap α) : Option (α × Heap α) :=
  match hl : h.heap with
  | [] => none
  | x :: xs =>
    some (x, { h with heap := heap_down h.compare (swap_remove_front (x :: xs)) 0 })

/-- Index of the parent of node `j` in the implicit binary tree. -/
def parentIdx (j : Nat) : Nat := (j - 1) / 2

/-- The binary-heap shape invariant: no node compares `Less` than its parent.
This holds for every heap built through the public API. -/
def HeapInv {α : Type} (cmp : α → α → Ordering) (l : List α) : Prop :=
  ∀ j a b, 0 < j → l.get? j = some a → l.get? (parentIdx j) = some b →
    cmp a b ≠ Ordering.lt

/-- `Heap::is_empty`. -/
def Heap.is_empty {α : Type} (h : Heap α) : Bool := h.heap.isEmpty

/-- `Heap::len`. -/
def Heap.hlen {α : Type} (h : Heap α) : Nat := h.heap.length

/-! ## topk (src/bits/wavelet_matrix.rs) -/

structure TopKItem where
  s : Nat
  e : Nat
  d : Nat
  v : Nat
deriving Repr, DecidableEq

/-- `TopKItem::new`. -/
def TopKItem.new (s e d v : Nat) : TopKItem := ⟨s, e, d, v⟩

/-- The `topk` comparator: more frequent (larger `e - s`) first; ties broken
by smaller accumulated value `v`. -/
def topk_compare (lhs rhs : TopKItem) : Ordering :=
  match compare (rhs.e - rhs.s) (lhs.e - lhs.s), compare lhs.v rhs.v with
  | Ordering.eq, c2 => c2
  | c1, _ => c1

/-- The `while let Some(q) = heap.pop()` loop of `U8WaveletMatrix::topk`.
The Rust loop terminates because the implicit partition tree is finite; the
fuel parameter makes that explicit (`none` = fuel exhausted, proven
unreachable for the fuel used by `topk`). -/
def topkLoop (matrix : List NaiveFID) (k : Nat) :
    Nat → Heap TopKItem → List (Nat × Nat) → Option (List (Nat × Nat))
  | 0, _, _ => none
  | fuel + 1, heap, result =>
    match heap.pop with
    | none => some result
    | some (q, heap) =>
      if k ≤ result.length then some result
      else if matrix.length ≤ q.d then
        topkLoop matrix k fuel heap (result ++ [(q.v, q.e - q.s)])
      else
        match matrix.get? q.d with
        | none => none
        | some fid =>
          (fid.rank0 q.s).bind (fun zs =>
          (fid.rank0 q.e).bind (fun ze =>
            let heap := if zs < ze then heap.push (TopKItem.new zs ze (q.d + 1) (q.v <<< 1)) else heap
            (fid.rank0 fid.len).bind (fun z =>
            (fid.rank1 q.s).bind (fun os1 =>
            (fid.rank1 q.e).bind (fun oe1 =>
              let os := z + os1
              let oe := z + oe1
              let heap := if os < oe then heap.push (TopKItem.new os oe (q.d + 1) ((q.v <<< 1) ||| 1)) else heap
              topkLoop matrix k fuel heap result)))))

/-- `U8WaveletMatrix::topk`: seed the queue with the whole range at depth 0.
`3 ^ 9` fuel steps always suffice (proven below). -/
def U8WaveletMatrix.topk (w : U8WaveletMatrix) (s e k : Nat) :
    Option (List (Nat × Nat)) :=
  topkLoop w.matrix k (3 ^ 9)
    ((Heap.with_compare topk_compare).push (TopKItem.new s e 0 0)) []

/-! ## Naive trie (src/string/trie/naive_trie.rs) -/

inductive NaiveTrie where
  | node : List (Char × NaiveTrie) → Bool → NaiveTrie

/-- The `children` map, modelled as an association list with distinct keys. -/
def NaiveTrie.children : NaiveTrie → List (Char × NaiveTrie)
  | node c _ => c

/-- The `is_leaf` flag. -/
def NaiveTrie.leafFlag : NaiveTrie → Bool
  | node _ b => b

/-- `NaiveTrie::new`. -/
def NaiveTrie.new : NaiveTrie := NaiveTrie.node [] false

/-- `HashMap::get`. -/
def lookupChild (c : Char) : List (Char × NaiveTrie) → Option NaiveTrie
  | [] => none
  | (c0, t0) :: rest => if c0 = c then some t0 else lookupChild c rest

/-- Write back a child under key `c` (insert if absent): the effect of
`entry(c).or_insert(..)` handing out a mutable reference. -/
def updateChild (c : Char) (t : NaiveTrie) :
    List (Char × NaiveTrie) → List (Char × NaiveTrie)
  | [] => [(c, t)]
  | (c0, t0) :: rest =>
    if c0 = c then (c0, t) :: rest else (c0, t0) :: updateChild c t rest

/-- `NaiveTrie::append`: walk/extend the path of `s`, set `is_leaf` at the
end, and return whether the string was new (`!node.is_leaf` before). -/
def NaiveTrie.append : NaiveTrie → List Char → NaiveTrie × Bool
  | NaiveTrie.node children leaf, [] => (NaiveTrie.node children true, !leaf)
  | NaiveTrie.node children leaf, c :: cs =>
    let child := (lookupChild c children).getD NaiveTrie.new
    let res := NaiveTrie.append child cs
    (NaiveTrie.node (updateChild c res.1 children) leaf, res.2)

/-- `Trie::contains` for `NaiveTrie`: follow the path; `false` on a missing
edge, else the final node's `is_leaf`. -/
def NaiveTrie.contains : NaiveTrie → List Char → Bool
  | t, [] => t.leafFlag
  | t, c :: cs =>
    match lookupChild c t.children with
    | some t2 => NaiveTrie.contains t2 cs
    | none => false

/-! ## Spec-side definitions (for theorem statements) -/

/-- The half-open slice `l[s..e)`. -/
def seg {α : Type} (l : List α) (s e : Nat) : List α := (l.drop s).take (e - s)

/-- Number of occurrences of symbol `v` in `V[s..e)`. -/
def symCount (V : List Nat) (s e v : Nat) : Nat := (seg V s e).count v

/-- Spec ordering for topk output pairs: descending count, ties by ascending
symbol value. -/
def topkRel (a b : Nat × Nat) : Prop := b.2 < a.2 ∨ (a.2 = b.2 ∧ a.1 ≤ b.1)

instance : DecidableRel topkRel := fun a b => by
  unfold topkRel; infer_instance

instance : IsTrans (Nat × Nat) topkRel :=
  ⟨by
    intro a b c h1 h2
    unfold topkRel at h1 h2 ⊢
    omega⟩

instance : IsTotal (Nat × Nat) topkRel :=
  ⟨by
    intro a b
    unfold topkRel
    omega⟩

instance : IsAntisymm (Nat × Nat) topkRel :=
  ⟨by
    intro a b h1 h2
    unfold topkRel at h1 h2
    have h3 : a.1 = b.1 ∧ a.2 = b.2 := by omega
    exact Prod.ext_iff.mpr h3⟩

/-- Symbols with nonzero count in `V[s..e)` covered by a queue item: the bytes
whose accumulated prefix matches the item's. -/
def symsOf (V : List Nat) (s e : Nat) (it : TopKItem) : List Nat :=
  (List.range 256).filter
    (fun u => decide (u >>> (8 - it.d) = it.v) && decide (0 < symCount V s e u))

/-- Validity of a queue item: its layer segment consists exactly of the
occurrences (within the base range) of symbols carrying its prefix. -/
def ItemOK (V : List Nat) (s e : Nat) (it : TopKItem) : Prop :=
  it.s ≤ it.e ∧ it.e ≤ V.length ∧ it.d ≤ 8 ∧ (0 < it.d → it.s < it.e) ∧
  seg (wmVec V it.d) it.s it.e =
    (seg V s e).filter (fun x => decide (x >>> (8 - it.d) = it.v))

/-- Modelled from the spec: the expected `topk(s, e, k)` output — one
`(symbol, count)` pair per distinct symbol occurring in `V[s..e)`, sorted by
descending count then ascending symbol, truncated to `k`. -/
def expectedTopk (V : List Nat) (s e k : Nat) : List (Nat × Nat) :=
  (List.insertionSort topkRel
    (((List.range 256).filter (fun v => decide (0 < symCount V s e v))).map
      (fun v => (v, symCount V s e v)))).take k


/-- Apply a sequence of `set(i, bit)` operations to a `NaiveFID`, `none` as
soon as one panics. -/
def applySets (f : NaiveFID) : List (Nat × Bool) → Option NaiveFID
  | [] => some f
  | (i, b) :: ops => (f.set i b).bind (fun f2 => applySets f2 ops)

/-- The same operations applied to the logical list of bits. -/
def applySetsL (bv : List Bool) : List (Nat × Bool) → List Bool
  | [] => bv
  | (i, b) :: ops => applySetsL (bv.set i b) ops

/-- A finite sequence of `append` calls on a trie, keeping the final trie. -/
def appendAll : NaiveTrie → List (List Char) → NaiveTrie
  | t, [] => t
  | t, s :: rest => appendAll (NaiveTrie.append t s).1 rest

/-! # Theorems -/

/-! ## Bit-level basics -/

theorem count_ones_zero : count_ones 0 = 0 := by
  rw [count_ones]
  rfl

theorem count_ones_double_add (c k : Nat) (hc : c ≤ 1) :
    count_ones (c + 2 * k) = c + count_ones k := by
  by_cases h : c + 2 * k = 0
  · have hc0 : c = 0 := by omega
    have hk0 : k = 0 := by omega
    subst hc0
    subst hk0
    simp [count_ones_zero]
  · rw [count_ones, dif_neg h]
    have h1 : (c + 2 * k) / 2 = k := by omega
    have h2 : (c + 2 * k) % 2 = c := by omega
    rw [h1, h2, Nat.add_comm]

theorem count_ones_bitsVal (l : List Bool) : count_ones (bitsVal l) = l.count true := by
  induction l with
  | nil => exact count_ones_zero
  | cons b bs ih =>
    rw [bitsVal, count_ones_double_add _ _ (by cases b <;> simp), ih, List.count_cons]
    cases b <;> simp [Nat.add_comm]

theorem getD_take (l : List Bool) (j i : Nat) :
    (l.take j).getD i false = if i < j then l.getD i false else false := by
  induction l generalizing i j with
  | nil => simp [List.getD]
  | cons b bs ih =>
    cases j with
    | zero => simp [List.getD]
    | succ j =>
      cases i with
      | zero => simp [List.getD]
      | succ i =>
        simp only [List.take_succ_cons, List.getD_cons_succ]
        rw [ih]
        by_cases h : i < j <;> simp [h, Nat.succ_lt_succ_iff]

theorem getD_drop (l : List Bool) (m i : Nat) :
    (l.drop m).getD i false = l.getD (m + i) false := by
  unfold List.getD
  rw [List.get?_eq_getElem?, List.get?_eq_getElem?, List.getElem?_drop]

theorem bitsVal_testBit (l : List Bool) (j : Nat) :
    (bitsVal l).testBit j = l.getD j false := by
  induction l generalizing j with
  | nil => simp [bitsVal, List.getD]
  | cons b bs ih =>
    cases j with
    | zero =>
      rw [bitsVal, Nat.testBit_zero]
      cases b <;> simp [Nat.add_mul_mod_self_left, List.getD]
    | succ j =>
      rw [bitsVal, Nat.testBit_add_one]
      have hdiv : ((if b = true then 1 else 0) + 2 * bitsVal bs) / 2 = bitsVal bs := by
        cases b <;> simp <;> omega
      rw [hdiv, ih, List.getD_cons_succ]

theorem bitsVal_lt (l : List Bool) : bitsVal l < 2 ^ l.length := by
  induction l with
  | nil => simp [bitsVal]
  | cons b bs ih =>
    rw [bitsVal, List.length_cons, pow_succ]
    cases b <;> simp <;> omega

theorem bitsVal_mod_two_pow (l : List Bool) (j : Nat) :
    bitsVal l % 2 ^ j = bitsVal (l.take j) := by
  apply Nat.eq_of_testBit_eq
  intro i
  rw [Nat.testBit_mod_two_pow, bitsVal_testBit, bitsVal_testBit, getD_take]
  by_cases h : i < j <;> simp [h]

theorem two_pow_sub_one_shiftRight (a s : Nat) (h : s ≤ a) :
    (2 ^ a - 1) >>> s = 2 ^ (a - s) - 1 := by
  apply Nat.eq_of_testBit_eq
  intro i
  rw [Nat.testBit_shiftRight, Nat.testBit_two_pow_sub_one, Nat.testBit_two_pow_sub_one]
  by_cases hi : i < a - s <;> simp [hi] <;> omega

theorem and_one_shiftLeft_ne_zero (b j : Nat) :
    ((b &&& (1 <<< j)) != 0) = b.testBit j := by
  have h1 : (1 : Nat) <<< j = 2 ^ j := by
    rw [Nat.shiftLeft_eq, one_mul]
  rw [h1, Nat.and_two_pow]
  cases h : b.testBit j <;> simp [h]

theorem count_false_add_count_true (l : List Bool) :
    l.count false + l.count true = l.length := by
  induction l with
  | nil => rfl
  | cons b bs ih =>
    cases b <;> simp [List.count_cons] <;> omega

/-! ## from_bool_vec correctness -/

theorem from_bool_vec_n (bv : List Bool) : (from_bool_vec bv).n = bv.length := rfl

theorem from_bool_vec_blocks (bv : List Bool) :
    (from_bool_vec bv).blocks =
      (List.range (bv.length / 64 + 1)).map (fun k => bitsVal (chunkOf bv k)) := rfl

theorem from_bool_vec_blocks_length (bv : List Bool) :
    (from_bool_vec bv).blocks.length = bv.length / 64 + 1 := by
  rw [from_bool_vec_blocks, List.length_map, List.length_range]

theorem from_bool_vec_blocks_get (bv : List Bool) (k : Nat) (hk : k < bv.length / 64 + 1) :
    (from_bool_vec bv).blocks.get? k = some (bitsVal (chunkOf bv k)) := by
  rw [from_bool_vec_blocks, List.get?_eq_getElem?, List.getElem?_map, List.getElem?_range hk]
  rfl

theorem cpo_go_length (acc : Nat) (bl : List Nat) :
    (construct_popcount_offset_go acc bl).length = bl.length := by
  induction bl generalizing acc with
  | nil => rfl
  | cons b bs ih => simp [construct_popcount_offset_go, ih]

theorem cpo_length (bl : List Nat) :
    (construct_popcount_offset bl).length = bl.length := cpo_go_length 0 bl

theorem cpo_go_get (bl : List Nat) (acc k : Nat) (hk : k < bl.length) :
    (construct_popcount_offset_go acc bl).get? k =
      some (acc + (((bl.take k).map count_ones).sum)) := by
  induction bl generalizing acc k with
  | nil => simp at hk
  | cons b bs ih =>
    cases k with
    | zero => simp [construct_popcount_offset_go]
    | succ k =>
      rw [construct_popcount_offset_go]
      have hk2 : k < bs.length := by simpa using hk
      simp only [List.get?_cons_succ, ih _ _ hk2, List.take_succ_cons, List.map_cons,
        List.sum_cons]
      rw [Nat.add_assoc]

theorem cpo_get (bl : List Nat) (k : Nat) (hk : k < bl.length) :
    (construct_popcount_offset bl).get? k = some (((bl.take k).map count_ones).sum) := by
  rw [construct_popcount_offset, cpo_go_get bl 0 k hk, Nat.zero_add]

theorem count_take_64 (bv : List Bool) (k : Nat) :
    (bv.take (64 * k)).count true =
      ((List.range k).map (fun j => count_ones (bitsVal (chunkOf bv j)))).sum := by
  induction k with
  | zero => simp
  | succ k ih =>
    have h1 : 64 * (k + 1) = 64 * k + 64 := by ring
    rw [h1, List.take_add, List.count_append, ih, List.range_succ, List.map_append]
    simp [count_ones_bitsVal, chunkOf]

theorem from_bool_vec_cpo_get (bv : List Bool) (k : Nat) (hk : k < bv.length / 64 + 1) :
    (from_bool_vec bv).popcount_offset.get? k = some ((bv.take (64 * k)).count true) := by
  have hlen : (from_bool_vec bv).blocks.length = bv.length / 64 + 1 :=
    from_bool_vec_blocks_length bv
  have : (from_bool_vec bv).popcount_offset =
      construct_popcount_offset ((from_bool_vec bv).blocks) := rfl
  rw [this, cpo_get _ k (by rw [hlen]; exact hk), from_bool_vec_blocks]
  rw [count_take_64, ← List.map_take, List.take_range, Nat.min_eq_left (Nat.le_of_lt hk),
    List.map_map]
  rfl

theorem div64_lt (i n : Nat) (h : i ≤ n) : i / 64 < n / 64 + 1 :=
  Nat.lt_succ_of_le (Nat.div_le_div_right h)

theorem rank1_from_bool_vec (bv : List Bool) (i : Nat) (hi : i ≤ bv.length) :
    (from_bool_vec bv).rank1 i = some ((bv.take i).count true) := by
  have hk : i / 64 < bv.length / 64 + 1 := div64_lt i bv.length hi
  rw [NaiveFID.rank1, if_pos (by rw [from_bool_vec_n]; exact hi),
    from_bool_vec_blocks_get bv _ hk, from_bool_vec_cpo_get bv _ hk]
  dsimp only
  have hsplit : (bv.take i).count true =
      (bv.take (64 * (i / 64))).count true +
        (((bv.drop (64 * (i / 64))).take (i % 64)).count true) := by
    conv_lhs => rw [show i = 64 * (i / 64) + i % 64 by omega]
    rw [List.take_add, List.count_append]
  by_cases h0 : i % 64 = 0
  · rw [h0, if_pos rfl, Nat.and_zero, count_ones_zero, hsplit, h0]
    simp
  · simp only [if_neg h0]
    have hr : 64 - (64 - i % 64) = i % 64 := by omega
    rw [two_pow_sub_one_shiftRight 64 (64 - i % 64) (by omega), hr,
      Nat.and_pow_two_sub_one_eq_mod, bitsVal_mod_two_pow, count_ones_bitsVal]
    rw [hsplit]
    have : (chunkOf bv (i / 64)).take (i % 64) = (bv.drop (64 * (i / 64))).take (i % 64) := by
      rw [chunkOf, List.take_take]
      congr 1
      omega
    rw [this]

theorem rank0_from_bool_vec (bv : List Bool) (i : Nat) (hi : i ≤ bv.length) :
    (from_bool_vec bv).rank0 i = some ((bv.take i).count false) := by
  rw [NaiveFID.rank0, rank1_from_bool_vec bv i hi, Option.map_some']
  have hlen : (bv.take i).length = i := by
    rw [List.length_take]
    omega
  have := count_false_add_count_true (bv.take i)
  rw [hlen] at this
  congr 1
  omega

theorem get_from_bool_vec (bv : List Bool) (i : Nat) (hi : i < bv.length) :
    (from_bool_vec bv).get i = some (bv.getD i false) := by
  have hk : i / 64 < bv.length / 64 + 1 := div64_lt i bv.length (Nat.le_of_lt hi)
  rw [NaiveFID.get, if_pos (by rw [from_bool_vec_n]; exact hi),
    from_bool_vec_blocks_get bv _ hk, Option.map_some']
  rw [and_one_shiftLeft_ne_zero, bitsVal_testBit, chunkOf, getD_take,
    if_pos (by omega : i % 64 < 64), getD_drop]
  have hix : 64 * (i / 64) + i % 64 = i := by omega
  rw [hix]

/-! ## set correctness -/

theorem getD_set_bool (l : List Bool) (n m : Nat) (a : Bool) :
    (l.set n a).getD m false = if n = m ∧ m < l.length then a else l.getD m false := by
  unfold List.getD
  rw [List.get?_eq_getElem?, List.get?_eq_getElem?, List.getElem?_set]
  by_cases h1 : n = m
  · subst h1
    by_cases h2 : n < l.length
    · simp [h2]
    · simp only [h2, if_neg, and_false, if_false]
      rw [List.getElem?_eq_none (by omega)]
      rfl
  · simp [h1]

theorem set_getD_self (l : List Bool) (i : Nat) (hi : i < l.length) :
    l.set i (l.getD i false) = l := by
  apply List.ext_getElem?
  intro m
  rw [List.getElem?_set]
  by_cases h : i = m
  · subst h
    rw [if_pos rfl, if_pos hi]
    unfold List.getD
    rw [List.get?_eq_getElem?]
    cases hx : l[i]? with
    | none => rw [List.getElem?_eq_none_iff] at hx; omega
    | some b => simp
  · simp [h]

theorem count_set_true (l : List Bool) (i : Nat) (hi : i < l.length)
    (h : l.getD i false = false) : (l.set i true).count true = l.count true + 1 := by
  induction l generalizing i with
  | nil => simp at hi
  | cons x xs ih =>
    cases i with
    | zero =>
      have hx : x = false := by simpa [List.getD] using h
      subst hx
      simp [List.count_cons]
    | succ i =>
      have hi2 : i < xs.length := by simpa using hi
      have h2 : xs.getD i false = false := by simpa [List.getD_cons_succ] using h
      simp only [List.set, List.count_cons, ih i hi2 h2]
      omega

theorem count_set_false (l : List Bool) (i : Nat) (hi : i < l.length)
    (h : l.getD i false = true) : (l.set i false).count true + 1 = l.count true := by
  induction l generalizing i with
  | nil => simp at hi
  | cons x xs ih =>
    cases i with
    | zero =>
      have hx : x = true := by simpa [List.getD] using h
      subst hx
      simp [List.count_cons]
    | succ i =>
      have hi2 : i < xs.length := by simpa using hi
      have h2 : xs.getD i false = true := by simpa [List.getD_cons_succ] using h
      simp only [List.set, List.count_cons, ← ih i hi2 h2]
      omega

theorem take_set {α : Type} (l : List α) (i m : Nat) (a : α) :
    (l.set i a).take m = if i < m then (l.take m).set i a else l.take m := by
  induction l generalizing i m with
  | nil => simp
  | cons x xs ih =>
    cases i with
    | zero =>
      cases m with
      | zero => simp
      | succ m => simp
    | succ i =>
      cases m with
      | zero => simp
      | succ m =>
        simp only [List.set, List.take_succ_cons, ih, Nat.succ_lt_succ_iff]
        by_cases h : i < m <;> simp [h]

theorem incFrom_getElem? (j k : Nat) (l : List Nat) :
    (NaiveFID.set.incFrom j l)[k]? =
      l[k]?.map (fun v => if j ≤ k then v + 1 else v) := by
  induction l generalizing j k with
  | nil => simp [NaiveFID.set.incFrom]
  | cons x xs ih =>
    cases j with
    | zero =>
      cases k with
      | zero => simp [NaiveFID.set.incFrom]
      | succ k => simp [NaiveFID.set.incFrom, ih]
    | succ j =>
      cases k with
      | zero => simp [NaiveFID.set.incFrom]
      | succ k => simp [NaiveFID.set.incFrom, ih, Nat.succ_le_succ_iff]

theorem decFrom_getElem? (j k : Nat) (l : List Nat) :
    (NaiveFID.set.decFrom j l)[k]? =
      l[k]?.map (fun v => if j ≤ k then v - 1 else v) := by
  induction l generalizing j k with
  | nil => simp [NaiveFID.set.decFrom]
  | cons x xs ih =>
    cases j with
    | zero =>
      cases k with
      | zero => simp [NaiveFID.set.decFrom]
      | succ k => simp [NaiveFID.set.decFrom, ih]
    | succ j =>
      cases k with
      | zero => simp [NaiveFID.set.decFrom]
      | succ k => simp [NaiveFID.set.decFrom, ih, Nat.succ_le_succ_iff]

theorem chunk_testBit (bv : List Bool) (k t : Nat) :
    (bitsVal (chunkOf bv k)).testBit t =
      if t < 64 then bv.getD (64 * k + t) false else false := by
  rw [bitsVal_testBit, chunkOf, getD_take]
  by_cases h : t < 64 <;> simp [h, getD_drop]

theorem from_bool_vec_cpo_length (bv : List Bool) :
    (from_bool_vec bv).popcount_offset.length = bv.length / 64 + 1 := by
  have : (from_bool_vec bv).popcount_offset =
      construct_popcount_offset ((from_bool_vec bv).blocks) := rfl
  rw [this, cpo_length, from_bool_vec_blocks_length]

theorem incFrom_length (j : Nat) (l : List Nat) :
    (NaiveFID.set.incFrom j l).length = l.length := by
  induction l generalizing j with
  | nil => cases j <;> rfl
  | cons x xs ih =>
    cases j <;> simp [NaiveFID.set.incFrom, ih]

theorem decFrom_length (j : Nat) (l : List Nat) :
    (NaiveFID.set.decFrom j l).length = l.length := by
  induction l generalizing j with
  | nil => cases j <;> rfl
  | cons x xs ih =>
    cases j <;> simp [NaiveFID.set.decFrom, ih]

theorem NaiveFID.ext_fields (x y : NaiveFID) (h1 : x.n = y.n) (h2 : x.blocks = y.blocks)
    (h3 : x.popcount_offset = y.popcount_offset) : x = y := by
  cases x
  cases y
  simp_all

theorem set_from_bool_vec (bv : List Bool) (i : Nat) (bit : Bool) (hi : i < bv.length) :
    (from_bool_vec bv).set i bit = some (from_bool_vec (bv.set i bit)) := by
  have hk : i / 64 < bv.length / 64 + 1 := div64_lt _ _ (Nat.le_of_lt hi)
  have hij : 64 * (i / 64) + i % 64 = i := by omega
  have hget := from_bool_vec_blocks_get bv (i / 64) hk
  have hn : (bv.set i bit).length = bv.length := List.length_set bv i bit
  rw [NaiveFID.set, if_pos (by rw [from_bool_vec_n]; exact hi), hget]
  dsimp only
  have hcur : ((bitsVal (chunkOf bv (i / 64)) &&& (1 <<< (i % 64))) != 0) = bv.getD i false := by
    rw [and_one_shiftLeft_ne_zero, chunk_testBit, if_pos (by omega : i % 64 < 64), hij]
  rw [hcur]
  by_cases hsame : bv.getD i false = bit
  · rw [if_pos hsame, ← hsame, set_getD_self bv i hi]
  · rw [if_neg hsame]
    have hblen : ∀ b : Bool, (bv.set i b).length / 64 + 1 = bv.length / 64 + 1 := by
      intro b
      rw [List.length_set]
    -- pointwise description of the new blocks
    have hbget : ∀ (b : Bool) (k2 : Nat), k2 < bv.length / 64 + 1 →
        (from_bool_vec (bv.set i b)).blocks[k2]? = some (bitsVal (chunkOf (bv.set i b) k2)) := by
      intro b k2 hk2
      rw [← List.get?_eq_getElem?, from_bool_vec_blocks_get]
      rw [hblen]
      exact hk2
    have hbold : ∀ k2 : Nat, k2 < bv.length / 64 + 1 →
        (from_bool_vec bv).blocks[k2]? = some (bitsVal (chunkOf bv k2)) := by
      intro k2 hk2
      rw [← List.get?_eq_getElem?, from_bool_vec_blocks_get bv k2 hk2]
    have hcget : ∀ (b : Bool) (k2 : Nat), k2 < bv.length / 64 + 1 →
        (from_bool_vec (bv.set i b)).popcount_offset[k2]? =
          some (((bv.set i b).take (64 * k2)).count true) := by
      intro b k2 hk2
      rw [← List.get?_eq_getElem?, from_bool_vec_cpo_get]
      rw [hblen]
      exact hk2
    have hcold : ∀ k2 : Nat, k2 < bv.length / 64 + 1 →
        (from_bool_vec bv).popcount_offset[k2]? = some ((bv.take (64 * k2)).count true) := by
      intro k2 hk2
      rw [← List.get?_eq_getElem?, from_bool_vec_cpo_get bv k2 hk2]
    -- unchanged chunks
    have hchunk_ne : ∀ (b : Bool) (k2 : Nat), k2 ≠ i / 64 →
        bitsVal (chunkOf (bv.set i b) k2) = bitsVal (chunkOf bv k2) := by
      intro b k2 hne
      apply Nat.eq_of_testBit_eq
      intro t
      rw [chunk_testBit, chunk_testBit]
      by_cases ht : t < 64
      · rw [if_pos ht, if_pos ht, getD_set_bool]
        have : ¬(i = 64 * k2 + t ∧ 64 * k2 + t < bv.length) := by
          intro hcon
          apply hne
          omega
        rw [if_neg this]
      · rw [if_neg ht, if_neg ht]
    -- the take prefixes used by popcount_offset
    have htake : ∀ (b : Bool) (k2 : Nat),
        ((bv.set i b).take (64 * k2)).count true =
          if i < 64 * k2 then ((bv.take (64 * k2)).set i b).count true
          else (bv.take (64 * k2)).count true := by
      intro b k2
      rw [take_set]
      by_cases hlt : i < 64 * k2 <;> simp [hlt]
    have hgetD_take : ∀ k2 : Nat, i < 64 * k2 →
        (bv.take (64 * k2)).getD i false = bv.getD i false := by
      intro k2 hlt
      rw [getD_take, if_pos hlt]
    have htklen : ∀ k2 : Nat, i < 64 * k2 → i < (bv.take (64 * k2)).length := by
      intro k2 hlt
      rw [List.length_take]
      omega
    cases bit with
    | true =>
      rw [if_pos rfl]
      have hfalse : bv.getD i false = false := by
        cases hx : bv.getD i false
        · rfl
        · rw [hx] at hsame
          exact absurd rfl hsame
      congr 1
      apply NaiveFID.ext_fields
      · rw [from_bool_vec_n, from_bool_vec_n, hn]
      · apply List.ext_getElem?
        intro k2
        rw [List.getElem?_set]
        by_cases hkk : i / 64 = k2
        · subst hkk
          rw [if_pos rfl, if_pos (by rw [from_bool_vec_blocks_length]; exact hk),
            hbget true _ hk]
          congr 1
          apply Nat.eq_of_testBit_eq
          intro t
          rw [Nat.testBit_or, Nat.one_shiftLeft, Nat.testBit_two_pow, chunk_testBit,
            chunk_testBit]
          by_cases ht : t < 64
          · rw [if_pos ht, if_pos ht, getD_set_bool]
            by_cases htj : t = i % 64
            · have hcond : i = 64 * (i / 64) + t ∧ 64 * (i / 64) + t < bv.length := by omega
              rw [if_pos hcond]
              simp [htj]
            · have hcond : ¬(i = 64 * (i / 64) + t ∧ 64 * (i / 64) + t < bv.length) := by
                intro hcon
                omega
              rw [if_neg hcond]
              have hjt : ¬(i % 64 = t) := fun hh => htj hh.symm
              simp [hjt]
          · rw [if_neg ht, if_neg ht]
            have : ¬(i % 64 = t) := by omega
            simp [this]
        · rw [if_neg hkk]
          by_cases hk2 : k2 < bv.length / 64 + 1
          · rw [hbget true _ hk2, hbold _ hk2, hchunk_ne true k2 (fun h => hkk h.symm)]
          · rw [List.getElem?_eq_none, List.getElem?_eq_none]
            · rw [from_bool_vec_blocks_length, hblen]
              omega
            · rw [from_bool_vec_blocks_length]
              omega
      · apply List.ext_getElem?
        intro k2
        rw [incFrom_getElem?]
        by_cases hk2 : k2 < bv.length / 64 + 1
        · rw [hcget true _ hk2, hcold _ hk2, htake]
          dsimp only [Option.map_some']
          congr 1
          by_cases hlt : i < 64 * k2
          · rw [if_pos hlt, if_pos (by omega),
              count_set_true _ i (htklen k2 hlt) (by rw [hgetD_take k2 hlt]; exact hfalse)]
          · rw [if_neg hlt, if_neg (by omega)]
        · rw [List.getElem?_eq_none (by rw [from_bool_vec_cpo_length]; omega)]
          rw [List.getElem?_eq_none (by rw [from_bool_vec_cpo_length, hblen]; omega)]
          rfl
    | false =>
      rw [if_neg (by simp)]
      have htrue : bv.getD i false = true := by
        cases hx : bv.getD i false
        · rw [hx] at hsame
          exact absurd rfl hsame
        · rfl
      congr 1
      apply NaiveFID.ext_fields
      · rw [from_bool_vec_n, from_bool_vec_n, hn]
      · apply List.ext_getElem?
        intro k2
        rw [List.getElem?_set]
        by_cases hkk : i / 64 = k2
        · subst hkk
          rw [if_pos rfl, if_pos (by rw [from_bool_vec_blocks_length]; exact hk),
            hbget false _ hk]
          congr 1
          apply Nat.eq_of_testBit_eq
          intro t
          rw [Nat.testBit_and, Nat.testBit_xor, Nat.one_shiftLeft, Nat.testBit_two_pow,
            Nat.testBit_two_pow_sub_one, chunk_testBit, chunk_testBit]
          by_cases ht : t < 64
          · rw [if_pos ht, if_pos ht, getD_set_bool]
            by_cases htj : t = i % 64
            · have hcond : i = 64 * (i / 64) + t ∧ 64 * (i / 64) + t < bv.length := by omega
              rw [if_pos hcond]
              simp only [htj]
              have hlt64 : i % 64 < 64 := by omega
              simp [hlt64]
            · have hcond : ¬(i = 64 * (i / 64) + t ∧ 64 * (i / 64) + t < bv.length) := by
                intro hcon
                omega
              rw [if_neg hcond]
              have hjt : ¬(i % 64 = t) := fun h => htj h.symm
              simp [hjt, ht]
          · rw [if_neg ht, if_neg ht]
            simp
        · rw [if_neg hkk]
          by_cases hk2 : k2 < bv.length / 64 + 1
          · rw [hbget false _ hk2, hbold _ hk2, hchunk_ne false k2 (fun h => hkk h.symm)]
          · rw [List.getElem?_eq_none, List.getElem?_eq_none]
            · rw [from_bool_vec_blocks_length, hblen]
              omega
            · rw [from_bool_vec_blocks_length]
              omega
      · apply List.ext_getElem?
        intro k2
        rw [decFrom_getElem?]
        by_cases hk2 : k2 < bv.length / 64 + 1
        · rw [hcget false _ hk2, hcold _ hk2, htake]
          dsimp only [Option.map_some']
          congr 1
          by_cases hlt : i < 64 * k2
          · rw [if_pos hlt, if_pos (by omega)]
            have := count_set_false (bv.take (64 * k2)) i (htklen k2 hlt)
              (by rw [hgetD_take k2 hlt]; exact htrue)
            omega
          · rw [if_neg hlt, if_neg (by omega)]
        · rw [List.getElem?_eq_none (by rw [from_bool_vec_cpo_length]; omega)]
          rw [List.getElem?_eq_none (by rw [from_bool_vec_cpo_length, hblen]; omega)]
          rfl

/-! ## Claim C4: set preserves the rank structure -/

theorem applySetsL_length (bv : List Bool) (ops : List (Nat × Bool)) :
    (applySetsL bv ops).length = bv.length := by
  induction ops generalizing bv with
  | nil => rfl
  | cons p ops ih =>
    rw [applySetsL, ih, List.length_set]

theorem applySets_from_bool_vec (bv : List Bool) (ops : List (Nat × Bool))
    (hops : ∀ p ∈ ops, p.1 < bv.length) :
    applySets (from_bool_vec bv) ops = some (from_bool_vec (applySetsL bv ops)) := by
  induction ops generalizing bv with
  | nil => rfl
  | cons p ops ih =>
    obtain ⟨i, b⟩ := p
    rw [applySets, applySetsL,
      set_from_bool_vec bv i b (hops (i, b) (List.mem_cons_self _ _)), Option.some_bind]
    apply ih
    intro q hq
    rw [List.length_set]
    exact hops q (List.mem_cons_of_mem _ hq)

/-- C4: starting from any `from_bool_vec` bit vector, any sequence of
in-bounds `set` operations succeeds and yields exactly the structure built
from the updated bit sequence; in particular `rank1 i` then equals the true
number of set bits in `[0, i)` for every `i ≤ length`, and every
`popcount_offset[k]` equals the total popcount of blocks `0..k`. -/
theorem naive_fid_set_rank1_invariant (bv : List Bool) (ops : List (Nat × Bool))
    (hops : ∀ p ∈ ops, p.1 < bv.length) :
    applySets (from_bool_vec bv) ops = some (from_bool_vec (applySetsL bv ops)) ∧
    (∀ i, i ≤ bv.length →
      (from_bool_vec (applySetsL bv ops)).rank1 i =
        some (((applySetsL bv ops).take i).count true)) ∧
    (∀ k, k < (from_bool_vec (applySetsL bv ops)).blocks.length →
      (from_bool_vec (applySetsL bv ops)).popcount_offset.get? k =
        some ((((from_bool_vec (applySetsL bv ops)).blocks.take k).map count_ones).sum)) := by
  refine ⟨applySets_from_bool_vec bv ops hops, ?_, ?_⟩
  · intro i hi
    exact rank1_from_bool_vec _ i (by rw [applySetsL_length]; exact hi)
  · intro k hk
    exact cpo_get _ k hk

theorem naive_fid_set_rank1_invariant_witness :
    (∀ p ∈ [((1 : Nat), true), ((0 : Nat), false)],
      p.1 < ([true, false, true] : List Bool).length) ∧
    (applySets (from_bool_vec [true, false, true]) [(1, true), (0, false)] =
        some (from_bool_vec (applySetsL [true, false, true] [(1, true), (0, false)])) ∧
      (∀ i, i ≤ ([true, false, true] : List Bool).length →
        (from_bool_vec (applySetsL [true, false, true] [(1, true), (0, false)])).rank1 i =
          some (((applySetsL [true, false, true] [(1, true), (0, false)]).take i).count true)) ∧
      (∀ k, k < (from_bool_vec (applySetsL [true, false, true] [(1, true), (0, false)])).blocks.length →
        (from_bool_vec (applySetsL [true, false, true] [(1, true), (0, false)])).popcount_offset.get? k =
          some ((((from_bool_vec (applySetsL [true, false, true] [(1, true), (0, false)])).blocks.take k).map count_ones).sum))) :=
  ⟨by decide, naive_fid_set_rank1_invariant [true, false, true] [(1, true), (0, false)] (by decide)⟩

/-! ## Claim C8: bounds checks -/

/-- C8: `get`, `set` and `access` succeed exactly on `i ∈ [0, length)` and
`rank1`, `rank0` exactly on `i ∈ [0, length]`; out-of-range indices are
rejected (the assertion fires), never clamped. -/
theorem naive_fid_bounds_checks (bv : List Bool) :
    (∀ i, ((from_bool_vec bv).get i).isSome ↔ i < bv.length) ∧
    (∀ i b, ((from_bool_vec bv).set i b).isSome ↔ i < bv.length) ∧
    (∀ i, ((from_bool_vec bv).access i).isSome ↔ i < bv.length) ∧
    (∀ i, ((from_bool_vec bv).rank1 i).isSome ↔ i ≤ bv.length) ∧
    (∀ i, ((from_bool_vec bv).rank0 i).isSome ↔ i ≤ bv.length) := by
  have hget : ∀ i, ((from_bool_vec bv).get i).isSome ↔ i < bv.length := by
    intro i
    by_cases h : i < bv.length
    · rw [get_from_bool_vec bv i h]
      simp [h]
    · rw [NaiveFID.get, if_neg (by rw [from_bool_vec_n]; exact h)]
      simp [h]
  have hrank1 : ∀ i, ((from_bool_vec bv).rank1 i).isSome ↔ i ≤ bv.length := by
    intro i
    by_cases h : i ≤ bv.length
    · rw [rank1_from_bool_vec bv i h]
      simp [h]
    · rw [NaiveFID.rank1, if_neg (by rw [from_bool_vec_n]; exact h)]
      simp [h]
  refine ⟨hget, ?_, hget, hrank1, ?_⟩
  · intro i b
    by_cases h : i < bv.length
    · rw [set_from_bool_vec bv i b h]
      simp [h]
    · rw [NaiveFID.set, if_neg (by rw [from_bool_vec_n]; exact h)]
      simp [h]
  · intro i
    rw [NaiveFID.rank0]
    rw [show ∀ o : Option Nat, (o.map (fun r => i - r)).isSome = o.isSome from fun o => by
      cases o <;> rfl]
    exact hrank1 i

/-! ## Claim C6: the complement masks a shift overflow at word multiples -/

theorem not_blocks_none (q : Nat) (bs : List Nat) (hlen : bs.length = q + 1) :
    not_blocks bs (64 * q) = none := by
  induction q generalizing bs with
  | zero =>
    cases bs with
    | nil => simp at hlen
    | cons b bs2 =>
      rw [not_blocks]
      norm_num
  | succ q ih =>
    cases bs with
    | nil => simp at hlen
    | cons b bs2 =>
      rw [not_blocks, if_pos (by omega : 64 ≤ 64 * (q + 1))]
      have h1 : 64 * (q + 1) - 64 = 64 * q := by omega
      rw [h1, ih bs2 (by simpa using hlen)]
      rfl

/-- C6 (code divergence): for every bit length that is an exact multiple of
64 (including 0), the logical complement computes `!0u64 >> (64 - 0)` for
the trailing block — an overflowing shift, i.e. a panic — instead of
producing the masked complement the claim describes. -/
theorem naive_fid_not_word_multiple (bv : List Bool) (h : bv.length % 64 = 0) :
    (from_bool_vec bv).not = none := by
  rw [NaiveFID.not]
  have hq : (from_bool_vec bv).blocks.length = bv.length / 64 + 1 :=
    from_bool_vec_blocks_length bv
  rw [show (from_bool_vec bv).n = 64 * (bv.length / 64) from by rw [from_bool_vec_n]; omega]
  rw [not_blocks_none (bv.length / 64) _ hq]
  rfl

theorem naive_fid_not_word_multiple_witness :
    (List.replicate 64 false).length % 64 = 0 ∧
      (from_bool_vec (List.replicate 64 false)).not = none :=
  ⟨by decide, naive_fid_not_word_multiple (List.replicate 64 false) (by decide)⟩

/-! ## Claim C5: select0 / select1 -/

theorem select_loop_congr (rank rank2 : Nat → Nat) (i : Nat) :
    ∀ (n beg e : Nat), e - beg = n → (∀ p, beg ≤ p → p ≤ e → rank p = rank2 p) →
      select_loop rank i beg e = select_loop rank2 i beg e := by
  intro n
  induction n using Nat.strong_induction_on with
  | _ n ih =>
    intro beg e hn hagree
    rw [select_loop, select_loop]
    by_cases hterm : e ≤ beg + 1
    · rw [if_pos hterm, if_pos hterm]
    · rw [if_neg hterm, if_neg hterm]
      dsimp only
      have hp1 : beg < (beg + e) / 2 := by omega
      have hp2 : (beg + e) / 2 < e := by omega
      rw [hagree ((beg + e) / 2) (by omega) (by omega)]
      by_cases hc : i < rank2 ((beg + e) / 2)
      · rw [if_pos hc, if_pos hc]
        exact ih ((beg + e) / 2 - beg) (by omega) beg ((beg + e) / 2) rfl
          (fun p hp hp2a => hagree p hp (by omega))
      · rw [if_neg hc, if_neg hc]
        exact ih (e - (beg + e) / 2) (by omega) ((beg + e) / 2) e rfl
          (fun p hp hp2a => hagree p (by omega) hp2a)

theorem select_loop_spec (rank : Nat → Nat) (i : Nat)
    (hmono : ∀ a b, a ≤ b → rank a ≤ rank b) :
    ∀ (n beg e : Nat), e - beg = n → rank beg ≤ i → i < rank e → beg < e →
      rank (select_loop rank i beg e) ≤ i ∧
        i < rank (select_loop rank i beg e + 1) ∧
        beg ≤ select_loop rank i beg e ∧
        select_loop rank i beg e + 1 ≤ e := by
  intro n
  induction n using Nat.strong_induction_on with
  | _ n ih =>
    intro beg e hn hlo hhi hbe
    rw [select_loop]
    by_cases hterm : e ≤ beg + 1
    · rw [if_pos hterm]
      have he : e = beg + 1 := by omega
      refine ⟨hlo, ?_, Nat.le_refl _, by omega⟩
      rw [← he]
      exact hhi
    · rw [if_neg hterm]
      dsimp only
      have hp1 : beg < (beg + e) / 2 := by omega
      have hp2 : (beg + e) / 2 < e := by omega
      by_cases hc : i < rank ((beg + e) / 2)
      · rw [if_pos hc]
        have := ih ((beg + e) / 2 - beg) (by omega) beg ((beg + e) / 2) rfl hlo hc hp1
        exact ⟨this.1, this.2.1, this.2.2.1, by omega⟩
      · rw [if_neg hc]
        have := ih (e - (beg + e) / 2) (by omega) ((beg + e) / 2) e rfl
          (by omega) hhi hp2
        exact ⟨this.1, this.2.1, by omega, this.2.2.2⟩

theorem countTake_mono (bv : List Bool) (v : Bool) (a b : Nat) (hab : a ≤ b) :
    (bv.take a).count v ≤ (bv.take b).count v := by
  have h1 : bv.take a = (bv.take b).take a := by
    rw [List.take_take, Nat.min_eq_left hab]
  rw [h1]
  exact ((bv.take b).take_sublist a).count_le v

theorem countTake_succ (bv : List Bool) (v : Bool) (j : Nat) :
    (bv.take (j + 1)).count v =
      (bv.take j).count v + if bv.get? j = some v then 1 else 0 := by
  rw [List.take_succ, List.count_append, List.get?_eq_getElem?]
  congr 1
  cases hq : bv[j]? with
  | none => simp
  | some b =>
    by_cases hb : b = v
    · subst hb
      simp
    · simp [List.count_cons, hb]

theorem select_loop_value (bv : List Bool) (v : Bool) (i : Nat) (hi : i < bv.count v) :
    bv.get? (select_loop (fun p => (bv.take p).count v) i 0 bv.length) = some v ∧
      (bv.take (select_loop (fun p => (bv.take p).count v) i 0 bv.length)).count v = i ∧
      select_loop (fun p => (bv.take p).count v) i 0 bv.length < bv.length := by
  have hrn : (bv.take bv.length).count v = bv.count v := by rw [List.take_length]
  have hlen0 : 0 < bv.length := by
    rcases Nat.eq_zero_or_pos bv.length with h | h
    · rw [List.length_eq_zero] at h
      subst h
      simp at hi
    · exact h
  have hspec := select_loop_spec (fun p => (bv.take p).count v) i
    (countTake_mono bv v) (bv.length - 0) 0 bv.length rfl
    (by simp) (by simp only []; rw [hrn]; exact hi) hlen0
  obtain ⟨h1, h2, h3, h4⟩ := hspec
  simp only [] at h1 h2
  have hstep := countTake_succ bv v (select_loop (fun p => (bv.take p).count v) i 0 bv.length)
  by_cases hq : bv.get? (select_loop (fun p => (bv.take p).count v) i 0 bv.length) = some v
  · rw [if_pos hq] at hstep
    refine ⟨hq, by omega, by omega⟩
  · rw [if_neg hq] at hstep
    omega

theorem rank1Raw_eq_of_rank1 (f : NaiveFID) (i r : Nat) (h : f.rank1 i = some r) :
    f.rank1Raw i = r := by
  rw [NaiveFID.rank1] at h
  split at h
  · rename_i hin
    rw [NaiveFID.rank1Raw]
    cases hb : f.blocks.get? (i / 64) with
    | none =>
      rw [hb] at h
      simp at h
    | some b =>
      cases ho : f.popcount_offset.get? (i / 64) with
      | none =>
        rw [hb, ho] at h
        simp at h
      | some off =>
        rw [hb, ho] at h
        dsimp only at h
        have hb2 : f.blocks.getD (i / 64) 0 = b := by
          unfold List.getD
          rw [hb]
          rfl
        have ho2 : f.popcount_offset.getD (i / 64) 0 = off := by
          unfold List.getD
          rw [ho]
          rfl
        rw [hb2, ho2]
        exact Option.some.inj h
  · exact absurd h (by simp)

theorem rank1Raw_from_bool_vec (bv : List Bool) (i : Nat) (hi : i ≤ bv.length) :
    (from_bool_vec bv).rank1Raw i = (bv.take i).count true :=
  rank1Raw_eq_of_rank1 _ i _ (rank1_from_bool_vec bv i hi)

theorem rank0Raw_from_bool_vec (bv : List Bool) (i : Nat) (hi : i ≤ bv.length) :
    (from_bool_vec bv).rank0Raw i = (bv.take i).count false := by
  rw [NaiveFID.rank0Raw, rank1Raw_from_bool_vec bv i hi]
  have hlen : (bv.take i).length = i := by
    rw [List.length_take]
    omega
  have := count_false_add_count_true (bv.take i)
  omega

theorem select1_from_bool_vec_eq_loop (bv : List Bool) (i : Nat) (hi : i < bv.count true) :
    (from_bool_vec bv).select1 i =
      select_loop (fun p => (bv.take p).count true) i 0 bv.length := by
  rw [NaiveFID.select1, from_bool_vec_n,
    rank1Raw_from_bool_vec bv bv.length (Nat.le_refl _), List.take_length,
    if_neg (by omega)]
  exact select_loop_congr _ _ i (bv.length - 0) 0 bv.length rfl
    (fun p hp hp2 => rank1Raw_from_bool_vec bv p hp2)

theorem select0_from_bool_vec_eq_loop (bv : List Bool) (i : Nat) (hi : i < bv.count false) :
    (from_bool_vec bv).select0 i =
      select_loop (fun p => (bv.take p).count false) i 0 bv.length := by
  rw [NaiveFID.select0, from_bool_vec_n,
    rank0Raw_from_bool_vec bv bv.length (Nat.le_refl _), List.take_length,
    if_neg (by omega)]
  exact select_loop_congr _ _ i (bv.length - 0) 0 bv.length rfl
    (fun p hp hp2 => rank0Raw_from_bool_vec bv p hp2)

/-- C5: when at least `i + 1` matching bits exist, `select1 i` (resp.
`select0 i`) returns the position of the `i`-th set (unset) bit — the bit
there reads `true` (`false`) via `access`, and exactly `i` matching bits
precede it — `select1`/`select0` are strictly increasing on that domain, and
when fewer matching bits exist the length is returned as a sentinel. -/
theorem fid_select_correct (bv : List Bool) :
    (∀ i, i < bv.count true →
      bv.get? ((from_bool_vec bv).select1 i) = some true ∧
      (bv.take ((from_bool_vec bv).select1 i)).count true = i ∧
      (from_bool_vec bv).access ((from_bool_vec bv).select1 i) = some true) ∧
    (∀ i j, i < j → j < bv.count true →
      (from_bool_vec bv).select1 i < (from_bool_vec bv).select1 j) ∧
    (∀ i, bv.count true ≤ i → (from_bool_vec bv).select1 i = bv.length) ∧
    (∀ i, i < bv.count false →
      bv.get? ((from_bool_vec bv).select0 i) = some false ∧
      (bv.take ((from_bool_vec bv).select0 i)).count false = i ∧
      (from_bool_vec bv).access ((from_bool_vec bv).select0 i) = some false) ∧
    (∀ i j, i < j → j < bv.count false →
      (from_bool_vec bv).select0 i < (from_bool_vec bv).select0 j) ∧
    (∀ i, bv.count false ≤ i → (from_bool_vec bv).select0 i = bv.length) := by
  have haccess : ∀ p b, bv.get? p = some b → (from_bool_vec bv).access p = some b := by
    intro p b hp
    have hplen : p < bv.length := by
      by_contra hcon
      rw [List.get?_eq_none.mpr (by omega)] at hp
      exact Option.noConfusion hp
    rw [NaiveFID.access, get_from_bool_vec bv p hplen]
    unfold List.getD
    rw [hp]
    rfl
  have hone : ∀ i, i < bv.count true →
      bv.get? ((from_bool_vec bv).select1 i) = some true ∧
      (bv.take ((from_bool_vec bv).select1 i)).count true = i ∧
      (from_bool_vec bv).access ((from_bool_vec bv).select1 i) = some true := by
    intro i hi
    rw [select1_from_bool_vec_eq_loop bv i hi]
    obtain ⟨h1, h2, h3⟩ := select_loop_value bv true i hi
    exact ⟨h1, h2, haccess _ _ h1⟩
  have hzero : ∀ i, i < bv.count false →
      bv.get? ((from_bool_vec bv).select0 i) = some false ∧
      (bv.take ((from_bool_vec bv).select0 i)).count false = i ∧
      (from_bool_vec bv).access ((from_bool_vec bv).select0 i) = some false := by
    intro i hi
    rw [select0_from_bool_vec_eq_loop bv i hi]
    obtain ⟨h1, h2, h3⟩ := select_loop_value bv false i hi
    exact ⟨h1, h2, haccess _ _ h1⟩
  refine ⟨hone, ?_, ?_, hzero, ?_, ?_⟩
  · intro i j hij hj
    obtain ⟨_, hci, _⟩ := hone i (by omega)
    obtain ⟨_, hcj, _⟩ := hone j hj
    by_contra hcon
    have := countTake_mono bv true ((from_bool_vec bv).select1 j)
      ((from_bool_vec bv).select1 i) (by omega)
    omega
  · intro i hi
    rw [NaiveFID.select1, from_bool_vec_n,
      rank1Raw_from_bool_vec bv bv.length (Nat.le_refl _), List.take_length, if_pos hi]
  · intro i j hij hj
    obtain ⟨_, hci, _⟩ := hzero i (by omega)
    obtain ⟨_, hcj, _⟩ := hzero j hj
    by_contra hcon
    have := countTake_mono bv false ((from_bool_vec bv).select0 j)
      ((from_bool_vec bv).select0 i) (by omega)
    omega
  · intro i hi
    rw [NaiveFID.select0, from_bool_vec_n,
      rank0Raw_from_bool_vec bv bv.length (Nat.le_refl _), List.take_length, if_pos hi]

theorem fid_select_correct_witness :
    (1 < ([true, false, true] : List Bool).count true) ∧
      (([true, false, true] : List Bool).get?
          ((from_bool_vec [true, false, true]).select1 1) = some true ∧
        (([true, false, true] : List Bool).take
            ((from_bool_vec [true, false, true]).select1 1)).count true = 1 ∧
        (from_bool_vec [true, false, true]).access
          ((from_bool_vec [true, false, true]).select1 1) = some true) :=
  ⟨by decide, (fid_select_correct [true, false, true]).1 1 (by decide)⟩

/-! ## Stable-partition list lemmas -/

theorem getD_eq_get? {α : Type} (l : List α) (i : Nat) (d : α) (hi : i < l.length) :
    l.get? i = some (l.getD i d) := by
  unfold List.getD
  cases hq : l.get? i with
  | none =>
    rw [List.get?_eq_none] at hq
    omega
  | some a => rfl

theorem filter_get?_countP {α : Type} (p : α → Bool) (l : List α) (i : Nat) (a : α)
    (ha : l.get? i = some a) (hp : p a = true) :
    (l.filter p).get? ((l.take i).countP p) = some a := by
  induction l generalizing i with
  | nil => simp at ha
  | cons x xs ih =>
    cases i with
    | zero =>
      rw [List.get?_cons_zero] at ha
      have hx : x = a := Option.some.inj ha
      subst hx
      simp [List.filter_cons, hp]
    | succ i =>
      rw [List.get?_cons_succ] at ha
      rw [List.take_succ_cons, List.countP_cons, List.filter_cons]
      by_cases hxp : p x = true
      · rw [if_pos hxp, if_pos hxp, List.get?_cons_succ]
        exact ih i ha
      · rw [if_neg hxp, if_neg hxp, Nat.add_zero]
        exact ih i ha

theorem countP_take_le_length_filter {α : Type} (p : α → Bool) (l : List α) (i : Nat) (a : α)
    (ha : l.get? i = some a) (hp : p a = true) :
    (l.take i).countP p < (l.filter p).length := by
  have h := filter_get?_countP p l i a ha hp
  by_contra hcon
  rw [List.get?_eq_none.mpr (by omega)] at h
  exact Option.noConfusion h

theorem filter_take_eq_take_filter {α : Type} (p : α → Bool) (l : List α) (i : Nat) :
    (l.take i).filter p = (l.filter p).take ((l.take i).countP p) := by
  have hsplit : l.filter p = (l.take i).filter p ++ (l.drop i).filter p := by
    rw [← List.filter_append, List.take_append_drop]
  rw [hsplit, List.countP_eq_length_filter, List.take_left]

theorem filter_drop_eq_drop_filter {α : Type} (p : α → Bool) (l : List α) (i : Nat) :
    (l.drop i).filter p = (l.filter p).drop ((l.take i).countP p) := by
  have hsplit : l.filter p = (l.take i).filter p ++ (l.drop i).filter p := by
    rw [← List.filter_append, List.take_append_drop]
  rw [hsplit, List.countP_eq_length_filter, List.drop_left]

theorem countP_seg {α : Type} (p : α → Bool) (l : List α) (s e : Nat) (hse : s ≤ e) :
    (l.take e).countP p = (l.take s).countP p + (seg l s e).countP p := by
  have h : l.take e = l.take s ++ (l.drop s).take (e - s) := by
    rw [← List.take_add]
    congr 1
    omega
  rw [h, List.countP_append, seg]

theorem seg_filter {α : Type} (p : α → Bool) (l : List α) (s e : Nat) (hse : s ≤ e) :
    seg (l.filter p) ((l.take s).countP p) ((l.take e).countP p) = (seg l s e).filter p := by
  have hcs : (l.take e).countP p - (l.take s).countP p = (seg l s e).countP p := by
    rw [countP_seg p l s e hse]
    omega
  rw [seg, ← filter_drop_eq_drop_filter, hcs]
  have hdecomp : l.drop s = seg l s e ++ l.drop e := by
    rw [seg]
    conv_lhs => rw [← List.take_append_drop (e - s) (l.drop s)]
    congr 1
    rw [List.drop_drop]
    congr 1
    omega
  rw [hdecomp, List.filter_append, List.countP_eq_length_filter, List.take_left]

theorem seg_length {α : Type} (l : List α) (s e : Nat) (hse : s ≤ e) (he : e ≤ l.length) :
    (seg l s e).length = e - s := by
  rw [seg, List.length_take, List.length_drop]
  omega

theorem seg_append_left {α : Type} (l1 l2 : List α) (s e : Nat) (hse : s ≤ e)
    (he : e ≤ l1.length) : seg (l1 ++ l2) s e = seg l1 s e := by
  rw [seg, seg, List.drop_append_of_le_length (by omega), List.take_append_of_le_length]
  rw [List.length_drop]
  omega

theorem seg_append_right {α : Type} (l1 l2 : List α) (s e : Nat) :
    seg (l1 ++ l2) (l1.length + s) (l1.length + e) = seg l2 s e := by
  rw [seg, seg]
  have h1 : (l1 ++ l2).drop (l1.length + s) = l2.drop s := by
    rw [← List.drop_drop, List.drop_left]
  rw [h1]
  congr 1
  omega

/-! ## Wavelet matrix layers -/

theorem filter_not_length {α : Type} (p : α → Bool) (l : List α) :
    (l.filter (fun a => !p a)).length + (l.filter p).length = l.length := by
  induction l with
  | nil => rfl
  | cons x xs ih =>
    rw [List.filter_cons, List.filter_cons]
    cases hx : p x <;> simp [hx] <;> omega

theorem wmVec_length (vec : List Nat) (d : Nat) : (wmVec vec d).length = vec.length := by
  induction d with
  | zero => rfl
  | succ d ih =>
    rw [wmVec, List.length_append, filter_not_length, ih]

theorem wmBits_length (vec : List Nat) (d : Nat) : (wmBits vec d).length = vec.length := by
  rw [wmBits, List.length_map, wmVec_length]

theorem planeBit_eq_testBit (d v : Nat) (hd : d ≤ 7) : planeBit d v = v.testBit (7 - d) := by
  rw [planeBit, planeMask]
  have h1 : (0x80 : Nat) >>> d = 2 ^ (7 - d) := by
    rw [Nat.shiftRight_eq_div_pow, show (0x80 : Nat) = 2 ^ 7 from rfl,
      Nat.pow_div hd (by omega)]
  rw [h1, Nat.and_two_pow]
  cases h : v.testBit (7 - d) <;> simp [h]

theorem planeBit_zero (d : Nat) : planeBit d 0 = false := by
  simp [planeBit, Nat.zero_and]

theorem mod_two_pow_succ (x k : Nat) :
    x % 2 ^ (k + 1) = x % 2 ^ k + 2 ^ k * (x.testBit k).toNat := by
  rw [Nat.toNat_testBit, pow_succ, Nat.mod_mul]

theorem two_mul_or_one (r : Nat) : 2 * r ||| 1 = 2 * r + 1 := by
  apply Nat.eq_of_testBit_eq
  intro t
  cases t with
  | zero =>
    rw [Nat.testBit_or, Nat.testBit_zero, Nat.testBit_zero, Nat.testBit_zero]
    have h1 : (2 * r) % 2 = 0 := by omega
    have h2 : (2 * r + 1) % 2 = 1 := by omega
    simp [h1, h2]
  | succ t =>
    rw [Nat.testBit_or, Nat.testBit_add_one, Nat.testBit_add_one, Nat.testBit_add_one]
    have h1 : (2 * r) / 2 = r := by omega
    have h2 : (2 * r + 1) / 2 = r := by omega
    have h3 : (1 : Nat) / 2 = 0 := by omega
    rw [h1, h2, h3, Nat.zero_testBit]
    simp

theorem getD_map_nat (f : Nat → Bool) (l : List Nat) (i : Nat) :
    (l.map f).getD i (f 0) = f (l.getD i 0) := by
  unfold List.getD
  rw [List.get?_eq_getElem?, List.getElem?_map, List.get?_eq_getElem?]
  cases l[i]? <;> rfl

theorem layer_len (vec0 : List Nat) (d : Nat) :
    (from_bool_vec (wmBits vec0 d)).len = vec0.length := by
  rw [NaiveFID.len, from_bool_vec_n, wmBits_length]

theorem layer_access (vec0 : List Nat) (d i : Nat) (hi : i < vec0.length) :
    (from_bool_vec (wmBits vec0 d)).access i =
      some (planeBit d ((wmVec vec0 d).getD i 0)) := by
  rw [NaiveFID.access, get_from_bool_vec _ i (by rw [wmBits_length]; exact hi), wmBits]
  rw [show (false : Bool) = planeBit d 0 from (planeBit_zero d).symm, getD_map_nat]

theorem count_eq_countP_true (l : List Bool) : l.count true = l.countP (fun b => b) := by
  rw [List.count]
  apply List.countP_congr
  intro b _
  cases b <;> simp

theorem count_eq_countP_false (l : List Bool) : l.count false = l.countP (fun b => !b) := by
  rw [List.count]
  apply List.countP_congr
  intro b _
  cases b <;> simp

theorem layer_rank1 (vec0 : List Nat) (d i : Nat) (hi : i ≤ vec0.length) :
    (from_bool_vec (wmBits vec0 d)).rank1 i =
      some (((wmVec vec0 d).take i).countP (fun v => planeBit d v)) := by
  rw [rank1_from_bool_vec _ i (by rw [wmBits_length]; exact hi)]
  congr 1
  rw [wmBits, ← List.map_take, count_eq_countP_true, List.countP_map]
  rfl

theorem layer_rank0 (vec0 : List Nat) (d i : Nat) (hi : i ≤ vec0.length) :
    (from_bool_vec (wmBits vec0 d)).rank0 i =
      some (((wmVec vec0 d).take i).countP (fun v => !planeBit d v)) := by
  rw [rank0_from_bool_vec _ i (by rw [wmBits_length]; exact hi)]
  congr 1
  rw [wmBits, ← List.map_take, count_eq_countP_false, List.countP_map]
  rfl

theorem layer_rank0_full (vec0 : List Nat) (d : Nat) :
    (from_bool_vec (wmBits vec0 d)).rank0 (from_bool_vec (wmBits vec0 d)).len =
      some (((wmVec vec0 d).filter (fun v => !planeBit d v)).length) := by
  rw [layer_len, layer_rank0 vec0 d vec0.length (Nat.le_refl _)]
  congr 1
  rw [List.take_of_length_le (by rw [wmVec_length]), List.countP_eq_length_filter]

/-! ## Claim C1: access round trip -/

theorem accessGo_layers (vec0 : List Nat) :
    ∀ (steps d i result : Nat), d + steps ≤ 8 → i < vec0.length →
      accessGo ((List.range' d steps).map (fun j => from_bool_vec (wmBits vec0 j))) i result =
        some (result * 2 ^ steps +
          ((((wmVec vec0 d).getD i 0) % 2 ^ (8 - d)) >>> (8 - d - steps))) := by
  intro steps
  induction steps with
  | zero =>
    intro d i result _ _
    rw [show List.range' d 0 = [] from rfl, List.map_nil, accessGo]
    have hlt : ((wmVec vec0 d).getD i 0) % 2 ^ (8 - d) < 2 ^ (8 - d) :=
      Nat.mod_lt _ (Nat.pos_pow_of_pos _ (by omega))
    rw [Nat.sub_zero, Nat.shiftRight_eq_div_pow, Nat.div_eq_of_lt hlt]
    rw [pow_zero, Nat.mul_one, Nat.add_zero]
  | succ steps ih =>
    intro d i result hd hi
    have hd7 : d ≤ 7 := by omega
    rw [List.range'_succ, List.map_cons, accessGo, layer_access vec0 d i hi,
      Option.some_bind]
    have hxmem : (wmVec vec0 d).get? i = some ((wmVec vec0 d).getD i 0) :=
      getD_eq_get? _ i 0 (by rw [wmVec_length]; exact hi)
    have hsplit8 : 8 - d = (7 - d) + 1 := by omega
    have hsplitS : 8 - d - (steps + 1) = 7 - d - steps := by omega
    have h8d : 8 - (d + 1) = 7 - d := by omega
    have h8ds : 8 - (d + 1) - steps = 7 - d - steps := by omega
    have hmod := mod_two_pow_succ ((wmVec vec0 d).getD i 0) (7 - d)
    cases hb : planeBit d ((wmVec vec0 d).getD i 0) with
    | false =>
      dsimp only
      rw [if_neg Bool.false_ne_true]
      rw [show (if (false = true) then (1 : Nat) else 0) = 0 from rfl]
      rw [layer_rank0 vec0 d i (Nat.le_of_lt hi), Option.some_bind]
      have hi2 : ((wmVec vec0 d).take i).countP (fun v => !planeBit d v) < vec0.length := by
        have h1 := List.countP_le_length (p := fun v => !planeBit d v)
          (l := (wmVec vec0 d).take i)
        have h2 : ((wmVec vec0 d).take i).length ≤ i := by
          rw [List.length_take]
          omega
        omega
      rw [ih (d + 1) _ ((result <<< 1) ||| 0) (by omega) hi2]
      have hA := filter_get?_countP (fun v => !planeBit d v) (wmVec vec0 d) i
        ((wmVec vec0 d).getD i 0) hxmem
        (by show (!planeBit d ((wmVec vec0 d).getD i 0)) = true; rw [hb]; rfl)
      have hAlt := countP_take_le_length_filter (fun v => !planeBit d v) (wmVec vec0 d) i
        ((wmVec vec0 d).getD i 0) hxmem
        (by show (!planeBit d ((wmVec vec0 d).getD i 0)) = true; rw [hb]; rfl)
      have hx2 : (wmVec vec0 (d + 1)).getD
          (((wmVec vec0 d).take i).countP (fun v => !planeBit d v)) 0 =
          (wmVec vec0 d).getD i 0 := by
        rw [wmVec]
        unfold List.getD
        rw [List.get?_append hAlt, hA]
        rfl
      rw [hx2]
      have hor0 : (result <<< 1) ||| 0 = 2 * result := by
        rw [Nat.or_zero, Nat.shiftLeft_eq, pow_one, Nat.mul_comm]
      have hb2 : ((wmVec vec0 d).getD i 0).testBit (7 - d) = false := by
        rw [← planeBit_eq_testBit d _ hd7]
        exact hb
      rw [hor0, h8d, hsplitS, hsplit8, hmod, hb2, Bool.toNat_false,
        Nat.mul_zero, Nat.add_zero]
      congr 1
      rw [pow_succ]
      ring
    | true =>
      dsimp only
      rw [if_pos rfl]
      rw [show (if (true = true) then (1 : Nat) else 0) = 1 from rfl]
      rw [layer_rank0_full vec0 d, Option.some_bind,
        layer_rank1 vec0 d i (Nat.le_of_lt hi), Option.some_bind]
      have hB := filter_get?_countP (fun v => planeBit d v) (wmVec vec0 d) i
        ((wmVec vec0 d).getD i 0) hxmem hb
      have hBlt := countP_take_le_length_filter (fun v => planeBit d v) (wmVec vec0 d) i
        ((wmVec vec0 d).getD i 0) hxmem hb
      have hlen := filter_not_length (fun v => planeBit d v) (wmVec vec0 d)
      have hi2 : ((wmVec vec0 d).filter (fun v => !planeBit d v)).length +
          ((wmVec vec0 d).take i).countP (fun v => planeBit d v) < vec0.length := by
        rw [wmVec_length] at hlen
        omega
      rw [ih (d + 1) _ ((result <<< 1) ||| 1) (by omega) hi2]
      have hx2 : (wmVec vec0 (d + 1)).getD
          (((wmVec vec0 d).filter (fun v => !planeBit d v)).length +
            ((wmVec vec0 d).take i).countP (fun v => planeBit d v)) 0 =
          (wmVec vec0 d).getD i 0 := by
        rw [wmVec]
        unfold List.getD
        rw [List.get?_append_right (by omega), Nat.add_sub_cancel_left, hB]
        rfl
      rw [hx2]
      have hor1 : (result <<< 1) ||| 1 = 2 * result + 1 := by
        rw [Nat.shiftLeft_eq, pow_one, Nat.mul_comm, two_mul_or_one]
      have hpow : (2 : Nat) ^ (7 - d) = 2 ^ (7 - d - steps) * 2 ^ steps := by
        rw [← pow_add]
        congr 1
        omega
      have hshift : ((wmVec vec0 d).getD i 0 % 2 ^ (7 - d) + 2 ^ (7 - d)) >>> (7 - d - steps) =
          ((wmVec vec0 d).getD i 0 % 2 ^ (7 - d)) >>> (7 - d - steps) + 2 ^ steps := by
        rw [Nat.shiftRight_eq_div_pow, Nat.shiftRight_eq_div_pow, hpow,
          Nat.add_mul_div_left _ _ (Nat.pos_pow_of_pos _ (by omega))]
      have hb2 : ((wmVec vec0 d).getD i 0).testBit (7 - d) = true := by
        rw [← planeBit_eq_testBit d _ hd7]
        exact hb
      rw [hor1, h8d, hsplitS, hsplit8, hmod, hb2, Bool.toNat_true,
        Nat.mul_one, hshift]
      congr 1
      rw [pow_succ]
      ring

/-- C1: building a wavelet matrix from a byte sequence and reading back
`access(i)` reproduces the input exactly, for every index. -/
theorem wavelet_access_roundtrip (V : List Nat) (hbytes : ∀ x ∈ V, x < 256) (i : Nat)
    (hi : i < V.length) : (U8WaveletMatrix.new V).access i = some (V.getD i 0) := by
  rw [U8WaveletMatrix.access, U8WaveletMatrix.new]
  dsimp only
  rw [List.range_eq_range', accessGo_layers V 8 0 i 0 (by omega) hi]
  have hmem : V.getD i 0 ∈ V := List.get?_mem (getD_eq_get? V i 0 hi)
  have hxlt : (wmVec V 0).getD i 0 < 2 ^ (8 - 0) := by
    rw [show wmVec V 0 = V from rfl]
    exact Nat.lt_of_lt_of_le (hbytes _ hmem) (by norm_num)
  rw [Nat.mod_eq_of_lt hxlt, show 8 - 0 - 8 = 0 from rfl, Nat.shiftRight_zero,
    Nat.zero_mul, Nat.zero_add]
  rfl

theorem wavelet_access_roundtrip_witness :
    (∀ x ∈ [4, 2, 1, 5, 7, 4, 5, 0], x < 256) ∧
      (U8WaveletMatrix.new [4, 2, 1, 5, 7, 4, 5, 0]).access 2 = some 1 :=
  ⟨by decide, wavelet_access_roundtrip [4, 2, 1, 5, 7, 4, 5, 0] (by decide) 2 (by decide)⟩

/-! ## Claim C7: rank -/

theorem countP_take_mono {α : Type} (p : α → Bool) (l : List α) (a b : Nat) (hab : a ≤ b) :
    (l.take a).countP p ≤ (l.take b).countP p := by
  have h1 : l.take a = (l.take b).take a := by
    rw [List.take_take, Nat.min_eq_left hab]
  rw [h1, List.countP_eq_length_filter, List.countP_eq_length_filter]
  exact List.Sublist.length_le (((l.take b).take_sublist a).filter p)

theorem mem_take_get? {α : Type} (l : List α) (m : Nat) (a : α) (ha : a ∈ l.take m) :
    ∃ q, q < m ∧ l.get? q = some a := by
  obtain ⟨q, hq⟩ := List.get_of_mem ha
  have hq2 : (l.take m).get? q.1 = some a := by
    rw [List.get?_eq_get q.2, hq]
  have hqm : q.1 < m := by
    have h3 : (List.take m l).length ≤ m := by
      rw [List.length_take]
      omega
    have h4 := q.2
    omega
  refine ⟨q.1, hqm, ?_⟩
  rw [← List.get?_take hqm]
  exact hq2

theorem mem_seg_get? {α : Type} (l : List α) (s e : Nat) (a : α) (ha : a ∈ seg l s e) :
    ∃ q, s ≤ q ∧ q < e ∧ l.get? q = some a := by
  rw [seg] at ha
  obtain ⟨q, hq, hget⟩ := mem_take_get? _ _ _ ha
  rw [List.get?_eq_getElem?, List.getElem?_drop, ← List.get?_eq_getElem?] at hget
  exact ⟨s + q, by omega, by omega, hget⟩

theorem split_char {α : Type} (M : α → Prop) (l1 l2 l3 : List α)
    (h1 : ∀ x ∈ l1, ¬M x) (h2 : ∀ x ∈ l2, M x) (h3 : ∀ x ∈ l3, ¬M x) :
    ∀ q a, (l1 ++ (l2 ++ l3)).get? q = some a →
      (M a ↔ (l1.length ≤ q ∧ q < l1.length + l2.length)) := by
  intro q a hq
  by_cases hq1 : q < l1.length
  · rw [List.get?_append hq1] at hq
    have := h1 a (List.get?_mem hq)
    constructor
    · intro hM
      exact absurd hM this
    · intro hc
      omega
  · rw [List.get?_append_right (by omega)] at hq
    by_cases hq2 : q - l1.length < l2.length
    · rw [List.get?_append hq2] at hq
      have := h2 a (List.get?_mem hq)
      constructor
      · intro _
        omega
      · intro _
        exact this
    · rw [List.get?_append_right (by omega)] at hq
      have := h3 a (List.get?_mem hq)
      constructor
      · intro hM
        exact absurd hM this
      · intro hc
        omega

theorem count_of_group (l : List Nat) (v : Nat) (g e i : Nat) (hgi : g ≤ i) (hie : i ≤ e)
    (hil : i ≤ l.length)
    (hchar : ∀ q a, l.get? q = some a → ((a = v) ↔ (g ≤ q ∧ q < e))) :
    (l.take i).count v = i - g := by
  have hdecomp : l.take i = l.take g ++ seg l g i := by
    rw [seg, ← List.take_add]
    congr 1
    omega
  rw [hdecomp, List.count_append]
  have hc1 : (l.take g).count v = 0 := by
    rw [List.count_eq_zero]
    intro hmem
    obtain ⟨q, hq, hget⟩ := mem_take_get? l g v hmem
    have := (hchar q v hget).mp rfl
    omega
  have hc2 : (seg l g i).count v = (seg l g i).length := by
    rw [List.count_eq_length]
    intro b hb
    obtain ⟨q, hq1, hq2, hget⟩ := mem_seg_get? l g i b hb
    exact ((hchar q b hget).mpr ⟨hq1, by omega⟩).symm
  rw [hc1, hc2, seg_length l g i hgi hil]
  omega

theorem shiftRight_succ_bit (x k : Nat) :
    x >>> k = 2 * (x >>> (k + 1)) + (x.testBit k).toNat := by
  rw [Nat.shiftRight_eq_div_pow, Nat.shiftRight_eq_div_pow, Nat.toNat_testBit, pow_succ,
    ← Nat.div_div_eq_div_mul]
  omega

theorem match_step (d x v : Nat) (hd : d ≤ 7) :
    (x >>> (7 - d) = v >>> (7 - d)) ↔
      ((x >>> (8 - d) = v >>> (8 - d)) ∧ planeBit d x = planeBit d v) := by
  have h8 : 8 - d = (7 - d) + 1 := by omega
  have hx := shiftRight_succ_bit x (7 - d)
  have hv := shiftRight_succ_bit v (7 - d)
  rw [h8, planeBit_eq_testBit d x hd, planeBit_eq_testBit d v hd]
  constructor
  · intro h
    have hb : (x.testBit (7 - d)).toNat = (v.testBit (7 - d)).toNat := by
      cases hxb : x.testBit (7 - d) <;> cases hvb : v.testBit (7 - d) <;>
        rw [hxb] at hx <;> rw [hvb] at hv <;>
        simp only [Bool.toNat_false, Bool.toNat_true] at hx hv ⊢ <;> omega
    constructor
    · omega
    · cases hxb : x.testBit (7 - d) <;> cases hvb : v.testBit (7 - d) <;>
        rw [hxb, hvb] at hb
      all_goals first
        | rfl
        | exact absurd hb (by decide)
  · intro hc
    obtain ⟨h1, h2⟩ := hc
    rw [hx, hv, h1, h2]

theorem wmVec_perm (V : List Nat) (d : Nat) : List.Perm (wmVec V d) V := by
  induction d with
  | zero => exact List.Perm.refl V
  | succ d ih =>
    rw [wmVec]
    refine List.Perm.trans ?_ ih
    have h1 : (wmVec V d).filter (fun v => planeBit d v) =
        (wmVec V d).filter (fun v => !(!planeBit d v)) := by
      apply List.filter_congr
      intro x _
      simp
    rw [h1]
    exact List.filter_append_perm _ _

theorem indexOf?_spec (l : List Nat) (v : Nat) (j : Nat) (hj : l.get? j = some v)
    (hlt : ∀ q, q < j → l.get? q ≠ some v) : l.indexOf? v = some j := by
  induction l generalizing j with
  | nil => simp at hj
  | cons x xs ih =>
    cases j with
    | zero =>
      rw [List.get?_cons_zero] at hj
      have hx : x = v := Option.some.inj hj
      subst hx
      show List.findIdx? (fun y => y == x) (x :: xs) 0 = some 0
      rw [List.findIdx?_cons, if_pos (by simp)]
    | succ j =>
      rw [List.get?_cons_succ] at hj
      have hx : (x == v) = false := by
        have := hlt 0 (by omega)
        rw [List.get?_cons_zero] at this
        simp only [beq_eq_false_iff_ne]
        intro hxv
        exact this (by rw [hxv])
      have ih2 := ih j hj (fun q hq => by
        have h := hlt (q + 1) (by omega)
        rw [List.get?_cons_succ] at h
        exact h)
      show List.findIdx? (fun y => y == v) (x :: xs) 0 = some (j + 1)
      rw [List.findIdx?_cons, if_neg (by rw [hx]; simp), List.findIdx?_succ]
      rw [show List.findIdx? (fun y => y == v) xs 0 = xs.indexOf? v from rfl, ih2]
      rfl

theorem take_append_exact {α : Type} (l1 l2 : List α) (n : Nat) :
    (l1 ++ l2).take (l1.length + n) = l1 ++ l2.take n := by
  rw [List.take_add, List.take_left, List.drop_left]

theorem take_seg_drop {α : Type} (l : List α) (g e : Nat) (hge : g ≤ e) :
    l = l.take g ++ (seg l g e ++ l.drop e) := by
  conv_lhs => rw [← List.take_append_drop g l]
  congr 1
  rw [seg]
  conv_lhs => rw [← List.take_append_drop (e - g) (l.drop g)]
  congr 1
  rw [List.drop_drop]
  congr 1
  omega

theorem mem_drop_get? {α : Type} (l : List α) (m : Nat) (a : α) (ha : a ∈ l.drop m) :
    ∃ q, m ≤ q ∧ l.get? q = some a := by
  obtain ⟨q, hq⟩ := List.get_of_mem ha
  have hq2 : (l.drop m).get? q.1 = some a := by
    rw [List.get?_eq_get q.2, hq]
  rw [List.get?_eq_getElem?, List.getElem?_drop, ← List.get?_eq_getElem?] at hq2
  exact ⟨m + q.1, by omega, hq2⟩

theorem rankGo_layers (V : List Nat) (v : Nat) :
    ∀ (steps d g e i : Nat), d + steps = 8 → g ≤ i → i ≤ e → e ≤ V.length →
      (∀ q a, (wmVec V d).get? q = some a →
        ((a >>> (8 - d) = v >>> (8 - d)) ↔ (g ≤ q ∧ q < e))) →
      ∃ g8 e8, g8 ≤ e8 ∧ e8 ≤ V.length ∧
        (∀ q a, (wmVec V 8).get? q = some a → ((a = v) ↔ (g8 ≤ q ∧ q < e8))) ∧
        rankGo ((List.range' d steps).map (fun j => from_bool_vec (wmBits V j))) v
          (0x80 >>> d) i = some (g8 + ((wmVec V d).take i).count v) := by
  intro steps
  induction steps with
  | zero =>
    intro d g e i hd hgi hie hen hchar
    have hd8 : d = 8 := by omega
    subst hd8
    refine ⟨g, e, by omega, hen, ?_, ?_⟩
    · intro q a hq
      have := hchar q a hq
      rw [show (8 : Nat) - 8 = 0 from rfl, Nat.shiftRight_zero, Nat.shiftRight_zero] at this
      exact this
    · rw [show List.range' 8 0 = [] from rfl, List.map_nil, rankGo]
      have hcnt : ((wmVec V 8).take i).count v = i - g := by
        apply count_of_group _ v g e i hgi hie (by rw [wmVec_length]; omega)
        intro q a hq
        have := hchar q a hq
        rw [show (8 : Nat) - 8 = 0 from rfl, Nat.shiftRight_zero, Nat.shiftRight_zero] at this
        exact this
      rw [hcnt]
      congr 1
      omega
  | succ steps ih =>
    intro d g e i hd hgi hie hen hchar
    have hd7 : d ≤ 7 := by omega
    have h8d : 8 - (d + 1) = 7 - d := by omega
    have hveclen : (wmVec V d).length = V.length := wmVec_length V d
    rw [List.range'_succ, List.map_cons, rankGo]
    -- positions of elements of the three slices
    have hslice1 : ∀ a, a ∈ (wmVec V d).take g → ¬(a >>> (8 - d) = v >>> (8 - d)) := by
      intro a ha
      obtain ⟨q, hq, hget⟩ := mem_take_get? _ g a ha
      intro hM
      have := (hchar q a hget).mp hM
      omega
    have hslice2 : ∀ a, a ∈ seg (wmVec V d) g e → (a >>> (8 - d) = v >>> (8 - d)) := by
      intro a ha
      obtain ⟨q, hq1, hq2, hget⟩ := mem_seg_get? _ g e a ha
      exact (hchar q a hget).mpr ⟨hq1, hq2⟩
    have hslice3 : ∀ a, a ∈ (wmVec V d).drop e → ¬(a >>> (8 - d) = v >>> (8 - d)) := by
      intro a ha
      obtain ⟨q, hq, hget⟩ := mem_drop_get? _ e a ha
      intro hM
      have := (hchar q a hget).mp hM
      omega
    cases hbv : planeBit d v with
    | false =>
      have hcond : ((v &&& (0x80 >>> d)) == 0) = true := by
        have h2 := hbv
        rw [planeBit, planeMask] at h2
        simpa using h2
      rw [hcond, if_pos rfl, layer_rank0 V d i (by omega), Option.some_bind,
        ← Nat.shiftRight_add]
      have hA : ∀ x ∈ (wmVec V d).filter (fun x => !planeBit d x), planeBit d x = false := by
        intro x hx
        have := List.of_mem_filter hx
        simpa using this
      have hB : ∀ x ∈ (wmVec V d).filter (fun x => planeBit d x), planeBit d x = true := by
        intro x hx
        exact List.of_mem_filter hx
      -- new group characterisation
      have hchar2 : ∀ q a, (wmVec V (d + 1)).get? q = some a →
          ((a >>> (8 - (d + 1)) = v >>> (8 - (d + 1))) ↔
            ((((wmVec V d).take g).countP (fun x => !planeBit d x)) ≤ q ∧
              q < (((wmVec V d).take e).countP (fun x => !planeBit d x)))) := by
        have hdecompA : (wmVec V d).filter (fun x => !planeBit d x) =
            ((wmVec V d).take g).filter (fun x => !planeBit d x) ++
              ((seg (wmVec V d) g e).filter (fun x => !planeBit d x) ++
                ((wmVec V d).drop e).filter (fun x => !planeBit d x)) := by
          conv_lhs => rw [take_seg_drop (wmVec V d) g e (by omega)]
          rw [List.filter_append, List.filter_append]
        have hdecomp : wmVec V (d + 1) =
            ((wmVec V d).take g).filter (fun x => !planeBit d x) ++
              (((seg (wmVec V d) g e).filter (fun x => !planeBit d x)) ++
                (((wmVec V d).drop e).filter (fun x => !planeBit d x) ++
                  (wmVec V d).filter (fun x => planeBit d x))) := by
          rw [wmVec, hdecompA]
          simp only [List.append_assoc]
        intro q a hq
        rw [hdecomp] at hq
        have hsplit := split_char (fun a => a >>> (8 - (d + 1)) = v >>> (8 - (d + 1)))
          (((wmVec V d).take g).filter (fun x => !planeBit d x))
          ((seg (wmVec V d) g e).filter (fun x => !planeBit d x))
          (((wmVec V d).drop e).filter (fun x => !planeBit d x) ++
            (wmVec V d).filter (fun x => planeBit d x))
          ?_ ?_ ?_ q a hq
        · simp only [] at hsplit
          rw [hsplit]
          have e1 : (((wmVec V d).take g).filter (fun x => !planeBit d x)).length =
              ((wmVec V d).take g).countP (fun x => !planeBit d x) := by
            rw [List.countP_eq_length_filter]
          have e2 : ((seg (wmVec V d) g e).filter (fun x => !planeBit d x)).length =
              (seg (wmVec V d) g e).countP (fun x => !planeBit d x) := by
            rw [List.countP_eq_length_filter]
          have e3 := countP_seg (fun x => !planeBit d x) (wmVec V d) g e (by omega)
          omega
        · intro x hx
          have hxM := hslice1 x (List.mem_of_mem_filter hx)
          rw [h8d]
          intro hM
          exact hxM ((match_step d x v hd7).mp hM).1
        · intro x hx
          have hxb : planeBit d x = false := by
            have := List.of_mem_filter hx
            simpa using this
          have hxM := hslice2 x (List.mem_of_mem_filter hx)
          rw [h8d]
          exact (match_step d x v hd7).mpr ⟨hxM, by rw [hxb, hbv]⟩
        · intro x hx
          rw [List.mem_append] at hx
          rw [h8d]
          intro hM
          rcases hx with hx | hx
          · exact hslice3 x (List.mem_of_mem_filter hx) ((match_step d x v hd7).mp hM).1
          · have hxb : planeBit d x = true := hB x hx
            have := ((match_step d x v hd7).mp hM).2
            rw [hxb, hbv] at this
            exact Bool.noConfusion this
      have hmono1 := countP_take_mono (fun x => !planeBit d x) (wmVec V d) g i hgi
      have hmono2 := countP_take_mono (fun x => !planeBit d x) (wmVec V d) i e hie
      have hle : (((wmVec V d).take e).countP (fun x => !planeBit d x)) ≤ V.length := by
        have h1 := List.countP_le_length (p := fun x => !planeBit d x) (l := (wmVec V d).take e)
        have h2 : ((wmVec V d).take e).length ≤ e := by
          rw [List.length_take]
          omega
        omega
      obtain ⟨g8, e8, hg8e8, he8, hchar8, hrank⟩ :=
        ih (d + 1) (((wmVec V d).take g).countP (fun x => !planeBit d x))
          (((wmVec V d).take e).countP (fun x => !planeBit d x))
          (((wmVec V d).take i).countP (fun x => !planeBit d x))
          (by omega) hmono1 hmono2 hle hchar2
      refine ⟨g8, e8, hg8e8, he8, hchar8, ?_⟩
      rw [hrank]
      congr 2
      -- count preservation
      have hiA : (((wmVec V d).take i).countP (fun x => !planeBit d x)) ≤
          ((wmVec V d).filter (fun x => !planeBit d x)).length := by
        rw [← List.countP_eq_length_filter]
        have := countP_take_mono (fun x => !planeBit d x) (wmVec V d) i (wmVec V d).length
          (by omega)
        rw [List.take_length] at this
        exact this
      rw [wmVec, List.take_append_of_le_length hiA, ← filter_take_eq_take_filter,
        List.count_filter (by show (!planeBit d v) = true; rw [hbv]; rfl)]
    | true =>
      have hcond : ((v &&& (0x80 >>> d)) == 0) = false := by
        have h2 := hbv
        rw [planeBit, planeMask] at h2
        simpa using h2
      rw [hcond, if_neg (by simp), layer_rank0_full V d, Option.some_bind,
        layer_rank1 V d i (by omega), Option.map_some', Option.some_bind,
        ← Nat.shiftRight_add]
      have hB : ∀ x ∈ (wmVec V d).filter (fun x => planeBit d x), planeBit d x = true := by
        intro x hx
        exact List.of_mem_filter hx
      have hA : ∀ x ∈ (wmVec V d).filter (fun x => !planeBit d x), planeBit d x = false := by
        intro x hx
        have := List.of_mem_filter hx
        simpa using this
      have hlenA : ∀ m : Nat, ((wmVec V d).filter (fun x => !planeBit d x)).length + m =
          ((wmVec V d).filter (fun x => !planeBit d x)).length + m := fun _ => rfl
      have hchar2 : ∀ q a, (wmVec V (d + 1)).get? q = some a →
          ((a >>> (8 - (d + 1)) = v >>> (8 - (d + 1))) ↔
            ((((wmVec V d).filter (fun x => !planeBit d x)).length +
              ((wmVec V d).take g).countP (fun x => planeBit d x)) ≤ q ∧
              q < (((wmVec V d).filter (fun x => !planeBit d x)).length +
                ((wmVec V d).take e).countP (fun x => planeBit d x)))) := by
        have hdecompB : (wmVec V d).filter (fun x => planeBit d x) =
            ((wmVec V d).take g).filter (fun x => planeBit d x) ++
              ((seg (wmVec V d) g e).filter (fun x => planeBit d x) ++
                ((wmVec V d).drop e).filter (fun x => planeBit d x)) := by
          conv_lhs => rw [take_seg_drop (wmVec V d) g e (by omega)]
          rw [List.filter_append, List.filter_append]
        have hdecomp : wmVec V (d + 1) =
            ((wmVec V d).filter (fun x => !planeBit d x) ++
              ((wmVec V d).take g).filter (fun x => planeBit d x)) ++
              (((seg (wmVec V d) g e).filter (fun x => planeBit d x)) ++
                ((wmVec V d).drop e).filter (fun x => planeBit d x)) := by
          rw [wmVec]
          conv_lhs => rw [hdecompB]
          simp only [List.append_assoc]
        intro q a hq
        rw [hdecomp] at hq
        have hsplit := split_char (fun a => a >>> (8 - (d + 1)) = v >>> (8 - (d + 1)))
          ((wmVec V d).filter (fun x => !planeBit d x) ++
            ((wmVec V d).take g).filter (fun x => planeBit d x))
          ((seg (wmVec V d) g e).filter (fun x => planeBit d x))
          (((wmVec V d).drop e).filter (fun x => planeBit d x))
          ?_ ?_ ?_ q a hq
        · simp only [] at hsplit
          rw [hsplit, List.length_append]
          have e1 : (((wmVec V d).take g).filter (fun x => planeBit d x)).length =
              ((wmVec V d).take g).countP (fun x => planeBit d x) := by
            rw [List.countP_eq_length_filter]
          have e2 : ((seg (wmVec V d) g e).filter (fun x => planeBit d x)).length =
              (seg (wmVec V d) g e).countP (fun x => planeBit d x) := by
            rw [List.countP_eq_length_filter]
          have e3 := countP_seg (fun x => planeBit d x) (wmVec V d) g e (by omega)
          omega
        · intro x hx
          rw [List.mem_append] at hx
          rw [h8d]
          intro hM
          rcases hx with hx | hx
          · have hxb : planeBit d x = false := hA x hx
            have := ((match_step d x v hd7).mp hM).2
            rw [hxb, hbv] at this
            exact Bool.noConfusion this
          · exact hslice1 x (List.mem_of_mem_filter hx) ((match_step d x v hd7).mp hM).1
        · intro x hx
          have hxb : planeBit d x = true := hB x (by
            rw [hdecompB, List.mem_append]
            right
            rw [List.mem_append]
            left
            exact hx)
          have hxM := hslice2 x (List.mem_of_mem_filter hx)
          rw [h8d]
          exact (match_step d x v hd7).mpr ⟨hxM, by rw [hxb, hbv]⟩
        · intro x hx
          rw [h8d]
          intro hM
          exact hslice3 x (List.mem_of_mem_filter hx) ((match_step d x v hd7).mp hM).1
      have hmono1 := countP_take_mono (fun x => planeBit d x) (wmVec V d) g i hgi
      have hmono2 := countP_take_mono (fun x => planeBit d x) (wmVec V d) i e hie
      have hlen := filter_not_length (fun x => planeBit d x) (wmVec V d)
      have hle : ((wmVec V d).filter (fun x => !planeBit d x)).length +
          (((wmVec V d).take e).countP (fun x => planeBit d x)) ≤ V.length := by
        have h1 : (((wmVec V d).take e).countP (fun x => planeBit d x)) ≤
            ((wmVec V d).filter (fun x => planeBit d x)).length := by
          rw [← List.countP_eq_length_filter]
          have := countP_take_mono (fun x => planeBit d x) (wmVec V d) e (wmVec V d).length
            (by omega)
          rw [List.take_length] at this
          exact this
        omega
      obtain ⟨g8, e8, hg8e8, he8, hchar8, hrank⟩ :=
        ih (d + 1)
          (((wmVec V d).filter (fun x => !planeBit d x)).length +
            ((wmVec V d).take g).countP (fun x => planeBit d x))
          (((wmVec V d).filter (fun x => !planeBit d x)).length +
            ((wmVec V d).take e).countP (fun x => planeBit d x))
          (((wmVec V d).filter (fun x => !planeBit d x)).length +
            ((wmVec V d).take i).countP (fun x => planeBit d x))
          (by omega) (by omega) (by omega) hle hchar2
      refine ⟨g8, e8, hg8e8, he8, hchar8, ?_⟩
      rw [hrank]
      congr 2
      -- count preservation through the ones side
      rw [wmVec, take_append_exact, List.count_append]
      have hcA : ((wmVec V d).filter (fun x => !planeBit d x)).count v = 0 := by
        rw [List.count_eq_zero]
        intro hmem
        have := hA v hmem
        rw [hbv] at this
        exact Bool.noConfusion this
      rw [hcA, Nat.zero_add, ← filter_take_eq_take_filter,
        List.count_filter (by show planeBit d v = true; exact hbv)]

theorem indexOf?_none_of_not_mem (l : List Nat) (v : Nat) (hm : v ∉ l) :
    l.indexOf? v = none := by
  induction l with
  | nil => rfl
  | cons x xs ih =>
    have hx : (x == v) = false := by
      simp only [beq_eq_false_iff_ne]
      intro h
      exact hm (h ▸ List.mem_cons_self x xs)
    show List.findIdx? (fun y => y == v) (x :: xs) 0 = none
    rw [List.findIdx?_cons, if_neg (by rw [hx]; simp), List.findIdx?_succ]
    rw [show List.findIdx? (fun y => y == v) xs 0 = xs.indexOf? v from rfl,
      ih (fun hc => hm (List.mem_cons_of_mem x hc))]
    rfl

theorem indexOf?_some_of_mem (l : List Nat) (v : Nat) (hm : v ∈ l) :
    ∃ j, j < l.length ∧ l.indexOf? v = some j := by
  induction l with
  | nil => cases hm
  | cons x xs ih =>
    by_cases hx : x = v
    · refine ⟨0, by simp, ?_⟩
      show List.findIdx? (fun y => y == v) (x :: xs) 0 = some 0
      rw [List.findIdx?_cons, if_pos (by rw [hx]; simp)]
    · have hm2 : v ∈ xs := by
        cases hm with
        | head => exact absurd rfl hx
        | tail _ h => exact h
      obtain ⟨j, hj, hidx⟩ := ih hm2
      refine ⟨j + 1, by simp only [List.length_cons]; omega, ?_⟩
      show List.findIdx? (fun y => y == v) (x :: xs) 0 = some (j + 1)
      rw [List.findIdx?_cons, if_neg (by simp only [beq_iff_eq]; exact hx),
        List.findIdx?_succ]
      rw [show List.findIdx? (fun y => y == v) xs 0 = xs.indexOf? v from rfl, hidx]
      rfl

/-- C7: for a wavelet matrix over bytes, `rank(v, i)` returns the number of
occurrences of `v` in `V[0..min(i, length))`: 0 when `v` is absent (the offset
table stores `n`), and otherwise the prefix count of `v`, with `i` clamped to
the length. -/
theorem wavelet_rank_correct (V : List Nat) (hV : ∀ x ∈ V, x < 256) (v : Nat)
    (hv : v < 256) (i : Nat) :
    (U8WaveletMatrix.new V).rank v i = some ((V.take i).count v) := by
  rw [U8WaveletMatrix.rank, U8WaveletMatrix.new]
  dsimp only
  by_cases habs : ((wmVec V 8).indexOf? v).getD V.length = V.length
  · rw [if_pos habs]
    have hnot : v ∉ V := by
      intro hvV
      have hvwm : v ∈ wmVec V 8 := ((wmVec_perm V 8).mem_iff).mpr hvV
      obtain ⟨j, hj, hidx⟩ := indexOf?_some_of_mem (wmVec V 8) v hvwm
      rw [hidx, Option.getD_some] at habs
      rw [wmVec_length] at hj
      omega
    have hz : (V.take i).count v = 0 := by
      rw [List.count_eq_zero]
      intro hmem
      exact hnot (List.mem_of_mem_take hmem)
    rw [hz]
  · rw [if_neg habs]
    have hvV : v ∈ V := by
      by_contra hnId
      exact habs (by
        rw [indexOf?_none_of_not_mem (wmVec V 8) v
          (fun hc => hnId (((wmVec_perm V 8).mem_iff).mp hc))]
        rfl)
    have hi0 : (if V.length < i then V.length else i) ≤ V.length := by
      split <;> omega
    have htake : V.take (if V.length < i then V.length else i) = V.take i := by
      split
      · rename_i h
        rw [List.take_length]
        exact (List.take_of_length_le (by omega)).symm
      · rfl
    have hchar0 : ∀ q a, (wmVec V 0).get? q = some a →
        ((a >>> (8 - 0) = v >>> (8 - 0)) ↔ (0 ≤ q ∧ q < V.length)) := by
      intro q a hq
      obtain ⟨hqlt, _⟩ := List.get?_eq_some.mp hq
      have hqlt' : q < V.length := by
        rw [wmVec_length] at hqlt
        exact hqlt
      have haV : a ∈ V := by
        have hmem : a ∈ wmVec V 0 := List.get?_mem hq
        rw [show wmVec V 0 = V from rfl] at hmem
        exact hmem
      have ha8 : a >>> 8 = 0 := by
        rw [Nat.shiftRight_eq_div_pow]
        exact Nat.div_eq_of_lt (lt_of_lt_of_le (hV a haV) (by norm_num))
      have hv8 : v >>> 8 = 0 := by
        rw [Nat.shiftRight_eq_div_pow]
        exact Nat.div_eq_of_lt (lt_of_lt_of_le hv (by norm_num))
      constructor
      · intro _
        exact ⟨Nat.zero_le q, hqlt'⟩
      · intro _
        rw [show (8 : Nat) - 0 = 8 from rfl, ha8, hv8]
    obtain ⟨g8, e8, hg8e8, he8n, hchar8, hrank⟩ :=
      rankGo_layers V v 8 0 0 V.length (if V.length < i then V.length else i)
        rfl (Nat.zero_le _) hi0 (le_refl _) hchar0
    have hvwm : v ∈ wmVec V 8 := ((wmVec_perm V 8).mem_iff).mpr hvV
    obtain ⟨jv, hjv⟩ := List.get_of_mem hvwm
    have hjget : (wmVec V 8).get? jv.1 = some v := by
      rw [List.get?_eq_get jv.2, hjv]
    have hjrange := (hchar8 jv.1 v hjget).mp rfl
    have hg8lt : g8 < (wmVec V 8).length := by
      rw [wmVec_length]
      omega
    have hgd := getD_eq_get? (wmVec V 8) g8 0 hg8lt
    have hval : (wmVec V 8).getD g8 0 = v :=
      (hchar8 g8 _ hgd).mpr ⟨le_refl g8, by omega⟩
    have hg8get : (wmVec V 8).get? g8 = some v := by rw [hgd, hval]
    have hidx : (wmVec V 8).indexOf? v = some g8 := by
      apply indexOf?_spec (wmVec V 8) v g8 hg8get
      intro q hq hcq
      have := (hchar8 q v hcq).mp rfl
      omega
    rw [Nat.shiftRight_zero, show wmVec V 0 = V from rfl, htake] at hrank
    rw [hidx, Option.getD_some, List.range_eq_range', hrank, Option.some_bind,
      if_pos (Nat.le_add_right g8 ((V.take i).count v))]
    exact congrArg some (by omega)

theorem wavelet_rank_correct_witness :
    (∀ x ∈ ([3, 3, 3, 3] : List Nat), x < 256) ∧ (3 : Nat) < 256 ∧
      (U8WaveletMatrix.new ([3, 3, 3, 3] : List Nat)).rank 3 2 = some 2 :=
  ⟨by decide, by decide,
    by
      rw [wavelet_rank_correct ([3, 3, 3, 3] : List Nat) (by decide) 3 (by decide) 2]
      decide⟩

theorem shiftRight_lt_of_lt (x y k : Nat) (h : x >>> k < y >>> k) : x < y := by
  rw [Nat.shiftRight_eq_div_pow, Nat.shiftRight_eq_div_pow] at h
  by_contra hc
  have : y / 2 ^ k ≤ x / 2 ^ k := Nat.div_le_div_right (by omega)
  omega

theorem sorted_split_le (l : List Nat) (p : Nat → Bool)
    (h : ∀ x ∈ l, ∀ y ∈ l, p x = true → p y = false → x ≤ y) :
    List.insertionSort (fun a b => a ≤ b) l =
      List.insertionSort (fun a b => a ≤ b) (l.filter p) ++
        List.insertionSort (fun a b => a ≤ b) (l.filter (fun a => !p a)) := by
  apply List.eq_of_perm_of_sorted ?_ (List.sorted_insertionSort _ l) ?_
  · exact ((List.perm_insertionSort _ l).trans (List.filter_append_perm p l).symm).trans
      (List.Perm.append (List.perm_insertionSort _ _).symm (List.perm_insertionSort _ _).symm)
  · rw [List.Sorted, List.pairwise_append]
    refine ⟨List.sorted_insertionSort _ _, List.sorted_insertionSort _ _, ?_⟩
    intro a ha b hb
    have haf : a ∈ l.filter p := (List.perm_insertionSort _ _).mem_iff.mp ha
    have hbf : b ∈ l.filter (fun a => !p a) := (List.perm_insertionSort _ _).mem_iff.mp hb
    exact h a (List.mem_of_mem_filter haf) b (List.mem_of_mem_filter hbf)
      (List.of_mem_filter haf) (by have := List.of_mem_filter hbf; simpa using this)

theorem quantileGo_layers (V : List Nat) :
    ∀ (steps d s e r acc : Nat), d + steps = 8 → s ≤ e → e ≤ V.length → r < e - s →
      (∀ x ∈ seg (wmVec V d) s e, x >>> (8 - d) = acc) →
      quantileGo ((List.range' d steps).map (fun j => from_bool_vec (wmBits V j))) s e r acc =
        some ((List.insertionSort (fun a b => a ≤ b) (seg (wmVec V d) s e)).getD r 0) := by
  intro steps
  induction steps with
  | zero =>
    intro d s e r acc hd hse hen hr hacc
    have hd8 : d = 8 := by omega
    subst hd8
    rw [show (List.range' 8 0).map (fun j => from_bool_vec (wmBits V j)) = [] from rfl,
      quantileGo]
    have hlen : (seg (wmVec V 8) s e).length = e - s :=
      seg_length _ s e hse (by rw [wmVec_length]; exact hen)
    have hslen : (List.insertionSort (fun a b => a ≤ b) (seg (wmVec V 8) s e)).length =
        e - s := by
      rw [List.length_insertionSort, hlen]
    have hget := getD_eq_get?
      (List.insertionSort (fun a b => a ≤ b) (seg (wmVec V 8) s e)) r 0 (by omega)
    have hmem : (List.insertionSort (fun a b => a ≤ b) (seg (wmVec V 8) s e)).getD r 0
        ∈ seg (wmVec V 8) s e :=
      (List.perm_insertionSort _ _).mem_iff.mp (List.get?_mem hget)
    have hx := hacc _ hmem
    rw [Nat.sub_self, Nat.shiftRight_zero] at hx
    rw [hx]
  | succ steps ih =>
    intro d s e r acc hd hse hen hr hacc
    have hd7 : d ≤ 7 := by omega
    have h8d : 8 - (d + 1) = 7 - d := by omega
    have hveclen : (wmVec V d).length = V.length := wmVec_length V d
    have hsl : acc <<< 1 = 2 * acc := by
      rw [Nat.shiftLeft_eq, pow_one]
      omega
    have hcs0e0 := countP_seg (fun x => !planeBit d x) (wmVec V d) s e hse
    have hcs1e1 := countP_seg (fun x => planeBit d x) (wmVec V d) s e hse
    have hseglen : (seg (wmVec V d) s e).length = e - s :=
      seg_length _ s e hse (by omega)
    have hsegsum : (seg (wmVec V d) s e).countP (fun x => !planeBit d x) +
        (seg (wmVec V d) s e).countP (fun x => planeBit d x) = e - s := by
      have hf := filter_not_length (fun x => planeBit d x) (seg (wmVec V d) s e)
      simp only [] at hf
      rw [List.countP_eq_length_filter, List.countP_eq_length_filter]
      omega
    have hsplit := sorted_split_le (seg (wmVec V d) s e) (fun x => !planeBit d x)
      (fun x hx y hy hpx hpy => by
        have hxb : planeBit d x = false := by simpa using hpx
        have hyb : planeBit d y = true := by simpa using hpy
        have hx8 := hacc x hx
        have hy8 := hacc y hy
        have hxs := shiftRight_succ_bit x (7 - d)
        have hys := shiftRight_succ_bit y (7 - d)
        rw [show 7 - d + 1 = 8 - d from by omega, hx8, ← planeBit_eq_testBit d x hd7,
          hxb] at hxs
        rw [show 7 - d + 1 = 8 - d from by omega, hy8, ← planeBit_eq_testBit d y hd7,
          hyb] at hys
        simp only [Bool.toNat_false, Bool.toNat_true] at hxs hys
        exact Nat.le_of_lt (shiftRight_lt_of_lt x y (7 - d) (by omega)))
    simp only [Bool.not_not] at hsplit
    rw [List.range'_succ, List.map_cons, quantileGo]
    rw [layer_rank0 V d e hen, Option.some_bind, layer_rank0 V d s (by omega),
      Option.some_bind]
    simp only []
    by_cases hbr : r < ((wmVec V d).take e).countP (fun v => !planeBit d v) -
        ((wmVec V d).take s).countP (fun v => !planeBit d v)
    · rw [if_pos hbr]
      have hle0 : ((wmVec V d).take e).countP (fun v => !planeBit d v) ≤
          ((wmVec V d).filter (fun v => !planeBit d v)).length := by
        rw [← List.countP_eq_length_filter]
        have := countP_take_mono (fun v => !planeBit d v) (wmVec V d) e
          (wmVec V d).length (by omega)
        rw [List.take_length] at this
        exact this
      have hnext : seg (wmVec V (d + 1))
          (((wmVec V d).take s).countP (fun v => !planeBit d v))
          (((wmVec V d).take e).countP (fun v => !planeBit d v)) =
          (seg (wmVec V d) s e).filter (fun v => !planeBit d v) := by
        rw [wmVec, seg_append_left _ _ _ _ (countP_take_mono _ _ s e hse) hle0,
          seg_filter _ (wmVec V d) s e hse]
      have hacc2 : ∀ x ∈ seg (wmVec V (d + 1))
          (((wmVec V d).take s).countP (fun v => !planeBit d v))
          (((wmVec V d).take e).countP (fun v => !planeBit d v)),
          x >>> (8 - (d + 1)) = acc <<< 1 := by
        intro x hx
        rw [hnext] at hx
        have hxseg := List.mem_of_mem_filter hx
        have hxb : planeBit d x = false := by
          have := List.of_mem_filter hx
          simpa using this
        have hx8 := hacc x hxseg
        have hxs := shiftRight_succ_bit x (7 - d)
        rw [show 7 - d + 1 = 8 - d from by omega, hx8, ← planeBit_eq_testBit d x hd7,
          hxb] at hxs
        rw [h8d, hxs, hsl]
        simp only [Bool.toNat_false]
        omega
      have hce0e : ((wmVec V d).take e).countP (fun v => !planeBit d v) ≤ e := by
        have h1 : ((wmVec V d).take e).countP (fun v => !planeBit d v) ≤
            ((wmVec V d).take e).length := List.countP_le_length _
        rw [List.length_take, hveclen] at h1
        omega
      have hihyp := ih (d + 1)
        (((wmVec V d).take s).countP (fun v => !planeBit d v))
        (((wmVec V d).take e).countP (fun v => !planeBit d v))
        r (acc <<< 1) (by omega) (countP_take_mono _ _ s e hse) (by omega) hbr hacc2
      rw [hihyp, hnext, hsplit]
      rw [List.getD_append _ _ 0 r (by
        rw [List.length_insertionSort, ← List.countP_eq_length_filter]
        omega)]
    · rw [if_neg hbr]
      rw [layer_rank0_full V d, Option.some_bind, layer_rank1 V d s (by omega),
        Option.some_bind, layer_rank1 V d e hen, Option.some_bind]
      have hle1 : ((wmVec V d).take e).countP (fun v => planeBit d v) ≤
          ((wmVec V d).filter (fun v => planeBit d v)).length := by
        rw [← List.countP_eq_length_filter]
        have := countP_take_mono (fun v => planeBit d v) (wmVec V d) e
          (wmVec V d).length (by omega)
        rw [List.take_length] at this
        exact this
      have hnext1 : seg (wmVec V (d + 1))
          (((wmVec V d).filter (fun v => !planeBit d v)).length +
            ((wmVec V d).take s).countP (fun v => planeBit d v))
          (((wmVec V d).filter (fun v => !planeBit d v)).length +
            ((wmVec V d).take e).countP (fun v => planeBit d v)) =
          (seg (wmVec V d) s e).filter (fun v => planeBit d v) := by
        rw [wmVec, seg_append_right, seg_filter _ (wmVec V d) s e hse]
      have hacc1 : ∀ x ∈ seg (wmVec V (d + 1))
          (((wmVec V d).filter (fun v => !planeBit d v)).length +
            ((wmVec V d).take s).countP (fun v => planeBit d v))
          (((wmVec V d).filter (fun v => !planeBit d v)).length +
            ((wmVec V d).take e).countP (fun v => planeBit d v)),
          x >>> (8 - (d + 1)) = acc <<< 1 ||| 1 := by
        intro x hx
        rw [hnext1] at hx
        have hxseg := List.mem_of_mem_filter hx
        have hxb : planeBit d x = true := List.of_mem_filter hx
        have hx8 := hacc x hxseg
        have hxs := shiftRight_succ_bit x (7 - d)
        rw [show 7 - d + 1 = 8 - d from by omega, hx8, ← planeBit_eq_testBit d x hd7,
          hxb] at hxs
        rw [h8d, hxs, hsl, two_mul_or_one]
        simp only [Bool.toNat_true]
      have hflen := filter_not_length (fun v => planeBit d v) (wmVec V d)
      simp only [] at hflen
      have hihyp := ih (d + 1)
        (((wmVec V d).filter (fun v => !planeBit d v)).length +
          ((wmVec V d).take s).countP (fun v => planeBit d v))
        (((wmVec V d).filter (fun v => !planeBit d v)).length +
          ((wmVec V d).take e).countP (fun v => planeBit d v))
        (r - (((wmVec V d).take e).countP (fun v => !planeBit d v) -
          ((wmVec V d).take s).countP (fun v => !planeBit d v)))
        (acc <<< 1 ||| 1) (by omega)
        (Nat.add_le_add_left (countP_take_mono _ _ s e hse) _)
        (by omega) (by omega) hacc1
      rw [hihyp, hnext1, hsplit]
      have hlen0 : (List.insertionSort (fun a b => a ≤ b)
          ((seg (wmVec V d) s e).filter (fun v => !planeBit d v))).length =
          ((wmVec V d).take e).countP (fun v => !planeBit d v) -
            ((wmVec V d).take s).countP (fun v => !planeBit d v) := by
        rw [List.length_insertionSort, ← List.countP_eq_length_filter]
        omega
      rw [List.getD_append_right _ _ 0 r (by rw [hlen0]; omega), hlen0]

/-- C2: `quantile(s, e, r)` returns the r-th smallest symbol (0-based) of
`V[s..e)`; consequently the sequence over `r = 0..(e-s)` is the ascending sort
of that segment. -/
theorem wavelet_quantile_correct (V : List Nat) (hV : ∀ x ∈ V, x < 256) (s e r : Nat)
    (hse : s ≤ e) (hen : e ≤ V.length) (hr : r < e - s) :
    (U8WaveletMatrix.new V).quantile s e r =
      some ((List.insertionSort (fun a b => a ≤ b) (seg V s e)).getD r 0) := by
  rw [U8WaveletMatrix.quantile, U8WaveletMatrix.new]
  dsimp only
  rw [List.range_eq_range']
  have h0 : ∀ x ∈ seg (wmVec V 0) s e, x >>> (8 - 0) = 0 := by
    intro x hx
    have hxV : x ∈ V := by
      have h1 : x ∈ (wmVec V 0).drop s := List.mem_of_mem_take hx
      exact List.mem_of_mem_drop h1
    rw [show (8 : Nat) - 0 = 8 from rfl, Nat.shiftRight_eq_div_pow]
    exact Nat.div_eq_of_lt (lt_of_lt_of_le (hV x hxV) (by norm_num))
  exact quantileGo_layers V 8 0 s e r 0 rfl hse hen hr h0

theorem wavelet_quantile_correct_witness :
    (∀ x ∈ ([4, 2, 1, 5, 7, 4, 5, 0] : List Nat), x < 256) ∧ (2 : Nat) ≤ 6 ∧
      (6 : Nat) ≤ ([4, 2, 1, 5, 7, 4, 5, 0] : List Nat).length ∧ (1 : Nat) < 6 - 2 ∧
      (U8WaveletMatrix.new ([4, 2, 1, 5, 7, 4, 5, 0] : List Nat)).quantile 2 6 1 = some 4 :=
  ⟨by decide, by decide, by decide, by decide,
    by
      rw [wavelet_quantile_correct ([4, 2, 1, 5, 7, 4, 5, 0] : List Nat) (by decide) 2 6 1
        (by decide) (by decide) (by decide)]
      decide⟩

theorem lookupChild_update_self (c : Char) (t : NaiveTrie) (l : List (Char × NaiveTrie)) :
    lookupChild c (updateChild c t l) = some t := by
  induction l with
  | nil => rw [updateChild, lookupChild, if_pos rfl]
  | cons ht rest ih =>
    obtain ⟨c0, t0⟩ := ht
    by_cases hc : c0 = c
    · rw [updateChild, if_pos hc, lookupChild, if_pos hc]
    · rw [updateChild, if_neg hc, lookupChild, if_neg hc, ih]

theorem lookupChild_update_other (c a : Char) (hca : c ≠ a) (t : NaiveTrie)
    (l : List (Char × NaiveTrie)) :
    lookupChild c (updateChild a t l) = lookupChild c l := by
  induction l with
  | nil =>
    rw [updateChild]
    show (if a = c then some t else lookupChild c []) = lookupChild c []
    rw [if_neg (fun h => hca h.symm)]
  | cons ht rest ih =>
    obtain ⟨c0, t0⟩ := ht
    by_cases hc : c0 = a
    · subst hc
      rw [updateChild, if_pos rfl, lookupChild, lookupChild,
        if_neg (fun h => hca h.symm), if_neg (fun h => hca h.symm)]
    · rw [updateChild, if_neg hc, lookupChild, lookupChild, ih]

theorem new_contains_false (u : List Char) : NaiveTrie.new.contains u = false := by
  cases u with
  | nil => rfl
  | cons c cs => rfl

theorem trie_contains_append (s : List Char) : ∀ (t : NaiveTrie) (u : List Char),
    ((t.append s).1.contains u = true) ↔ (t.contains u = true ∨ u = s) := by
  induction s with
  | nil =>
    intro t u
    cases t with
    | node children leaf =>
      cases u with
      | nil => simp [NaiveTrie.append, NaiveTrie.contains, NaiveTrie.leafFlag]
      | cons c cs =>
        simp [NaiveTrie.append, NaiveTrie.contains, NaiveTrie.children]
  | cons a as ih =>
    intro t u
    cases t with
    | node children leaf =>
      cases u with
      | nil =>
        rw [NaiveTrie.append]
        simp [NaiveTrie.contains, NaiveTrie.leafFlag]
      | cons c cs =>
        rw [NaiveTrie.append]
        simp only [NaiveTrie.contains, NaiveTrie.children]
        by_cases hca : c = a
        · subst hca
          rw [lookupChild_update_self]
          cases hlk : lookupChild c children with
          | some t2 =>
            simp only [Option.getD_some]
            rw [ih t2 cs]
            simp [List.cons.injEq]
          | none =>
            simp only [Option.getD_none]
            rw [ih NaiveTrie.new cs, new_contains_false]
            simp [List.cons.injEq]
        · rw [lookupChild_update_other c a hca]
          have hne : ¬(c :: cs = a :: as) := by
            intro h
            injection h with h1 h2
            exact hca h1
          simp [hne]

theorem trie_append_snd (s : List Char) : ∀ t : NaiveTrie,
    (t.append s).2 = !t.contains s := by
  induction s with
  | nil =>
    intro t
    cases t with
    | node children leaf => rfl
  | cons c cs ih =>
    intro t
    cases t with
    | node children leaf =>
      rw [NaiveTrie.append]
      simp only [NaiveTrie.contains, NaiveTrie.children]
      cases hlk : lookupChild c children with
      | some t2 =>
        simp only [Option.getD_some]
        exact ih t2
      | none =>
        simp only [Option.getD_none]
        rw [ih NaiveTrie.new, new_contains_false]

theorem appendAll_contains (S : List (List Char)) : ∀ (t : NaiveTrie) (u : List Char),
    ((appendAll t S).contains u = true) ↔ (t.contains u = true ∨ u ∈ S) := by
  induction S with
  | nil =>
    intro t u
    rw [appendAll]
    simp
  | cons s rest ih =>
    intro t u
    rw [appendAll, ih ((t.append s).1) u, trie_contains_append s t u, List.mem_cons]
    exact or_assoc

/-- C10: after any finite sequence of `append` calls starting from `new()`,
`contains(t)` holds exactly when `t` is one of the appended strings, and the
`i`-th `append` returned `true` exactly when its string had not been appended
before. -/
theorem naive_trie_append_contains (S : List (List Char)) :
    (∀ u : List Char, ((appendAll NaiveTrie.new S).contains u = true) ↔ u ∈ S) ∧
    (∀ i, i < S.length →
      ((((appendAll NaiveTrie.new (S.take i)).append (S.getD i [])).2 = true) ↔
        S.getD i [] ∉ S.take i)) := by
  constructor
  · intro u
    rw [appendAll_contains S NaiveTrie.new u, new_contains_false]
    simp
  · intro i hi
    rw [trie_append_snd, Bool.not_eq_true']
    constructor
    · intro hfalse hmem
      have h := (appendAll_contains (S.take i) NaiveTrie.new (S.getD i [])).mpr (Or.inr hmem)
      rw [hfalse] at h
      exact Bool.noConfusion h
    · intro hnot
      cases hb : (appendAll NaiveTrie.new (S.take i)).contains (S.getD i []) with
      | false => rfl
      | true =>
        have h := (appendAll_contains (S.take i) NaiveTrie.new (S.getD i [])).mp hb
        rw [new_contains_false] at h
        cases h with
        | inl h1 => exact Bool.noConfusion h1
        | inr h2 => exact absurd h2 hnot

theorem naive_trie_append_contains_witness :
    (((appendAll NaiveTrie.new [['a'], ['a', 'b'], ['a']]).contains ['a'] = true) ↔
      (['a'] ∈ ([['a'], ['a', 'b'], ['a']] : List (List Char)))) ∧
    ((2 : Nat) < ([['a'], ['a', 'b'], ['a']] : List (List Char)).length) ∧
    ((((appendAll NaiveTrie.new ([['a'], ['a', 'b'], ['a']].take 2)).append
        ([['a'], ['a', 'b'], ['a']].getD 2 [])).2 = true) ↔
      ([['a'], ['a', 'b'], ['a']].getD 2 [] ∉ [['a'], ['a', 'b'], ['a']].take 2)) :=
  ⟨(naive_trie_append_contains [['a'], ['a', 'b'], ['a']]).1 ['a'], by decide,
    (naive_trie_append_contains [['a'], ['a', 'b'], ['a']]).2 2 (by decide)⟩

theorem set_set_perm {α : Type} : ∀ (xs : List α) (k : Nat) (b x : α),
    xs.get? k = some b → List.Perm (b :: xs.set k x) (x :: xs) := by
  intro xs
  induction xs with
  | nil =>
    intro k b x h
    exact Option.noConfusion h
  | cons y ys ih =>
    intro k b x h
    cases k with
    | zero =>
      rw [List.get?_cons_zero] at h
      cases h
      exact List.Perm.swap x y ys
    | succ m =>
      rw [List.get?_cons_succ] at h
      rw [List.set_cons_succ]
      exact (List.Perm.swap y b (ys.set m x)).trans
        ((List.Perm.cons y (ih m b x h)).trans (List.Perm.swap x y ys))

theorem set_swap_perm {α : Type} : ∀ (l : List α) (i j : Nat) (a b : α),
    l.get? i = some a → l.get? j = some b → List.Perm ((l.set i b).set j a) l := by
  intro l
  induction l with
  | nil =>
    intro i j a b hi hj
    exact Option.noConfusion hi
  | cons x xs ih =>
    intro i j a b hi hj
    cases i with
    | zero =>
      rw [List.get?_cons_zero] at hi
      cases hi
      cases j with
      | zero =>
        rw [List.get?_cons_zero] at hj
        cases hj
        simp only [List.set_cons_zero]
        exact List.Perm.refl _
      | succ m =>
        rw [List.get?_cons_succ] at hj
        rw [List.set_cons_zero, List.set_cons_succ]
        exact set_set_perm xs m b x hj
    | succ k =>
      rw [List.get?_cons_succ] at hi
      cases j with
      | zero =>
        rw [List.get?_cons_zero] at hj
        cases hj
        rw [List.set_cons_succ, List.set_cons_zero]
        exact set_set_perm xs k a x hi
      | succ m =>
        rw [List.get?_cons_succ] at hj
        rw [List.set_cons_succ, List.set_cons_succ]
        exact List.Perm.cons x (ih k m a b hi hj)

theorem lswap_perm {α : Type} (l : List α) (i j : Nat) : List.Perm (lswap l i j) l := by
  unfold lswap
  cases ha : l.get? i with
  | none => exact List.Perm.refl l
  | some a =>
    cases hb : l.get? j with
    | none => exact List.Perm.refl l
    | some b => exact set_swap_perm l i j a b ha hb

theorem lswap_len {α : Type} (l : List α) (i j : Nat) :
    (lswap l i j).length = l.length := by
  unfold lswap
  split
  · simp [List.length_set]
  · rfl

theorem lswap_get?_at_j {α : Type} (l : List α) (i j : Nat) (hi : i < l.length)
    (hj : j < l.length) : (lswap l i j).get? j = l.get? i := by
  unfold lswap
  obtain ⟨a, ha⟩ : ∃ a, l.get? i = some a := ⟨l.get ⟨i, hi⟩, List.get?_eq_get hi⟩
  obtain ⟨b, hb⟩ : ∃ b, l.get? j = some b := ⟨l.get ⟨j, hj⟩, List.get?_eq_get hj⟩
  simp only [ha, hb]
  rw [List.get?_eq_getElem?,
    List.getElem?_set_self (by rw [List.length_set]; exact hj)]

theorem lswap_get?_at_i {α : Type} (l : List α) (i j : Nat) (hij : i ≠ j)
    (hi : i < l.length) (hj : j < l.length) : (lswap l i j).get? i = l.get? j := by
  unfold lswap
  obtain ⟨a, ha⟩ : ∃ a, l.get? i = some a := ⟨l.get ⟨i, hi⟩, List.get?_eq_get hi⟩
  obtain ⟨b, hb⟩ : ∃ b, l.get? j = some b := ⟨l.get ⟨j, hj⟩, List.get?_eq_get hj⟩
  simp only [ha, hb]
  rw [List.get?_eq_getElem?, List.getElem?_set_ne (fun h => hij h.symm),
    List.getElem?_set_self hi]

theorem lswap_get?_other {α : Type} (l : List α) (i j k : Nat) (hki : k ≠ i)
    (hkj : k ≠ j) : (lswap l i j).get? k = l.get? k := by
  unfold lswap
  cases ha : l.get? i with
  | none => rfl
  | some a =>
    cases hb : l.get? j with
    | none => rfl
    | some b =>
      rw [List.get?_eq_getElem?, List.getElem?_set_ne (fun h => hkj h.symm),
        List.getElem?_set_ne (fun h => hki h.symm), ← List.get?_eq_getElem?]

theorem heap_down_child_cases {α : Type} (cmp : α → α → Ordering) (l : List α) (c : Nat) :
    (heap_down_child cmp l c = c ∧
      (∀ r cc, c + 1 < l.length → l.get? (c + 1) = some r → l.get? c = some cc →
        cmp r cc ≠ Ordering.lt)) ∨
    (heap_down_child cmp l c = c + 1 ∧ c + 1 < l.length ∧
      (∀ r cc, l.get? (c + 1) = some r → l.get? c = some cc →
        cmp r cc = Ordering.lt)) := by
  unfold heap_down_child
  by_cases h1 : c + 1 < l.length
  · rw [if_pos h1]
    cases hr : l.get? (c + 1) with
    | none =>
      refine Or.inl ⟨rfl, ?_⟩
      intro r cc hlt hr2 hcc2
      exact Option.noConfusion hr2
    | some r =>
      cases hcc : l.get? c with
      | none =>
        refine Or.inl ⟨rfl, ?_⟩
        intro r2 cc2 hlt hr2 hcc2
        exact Option.noConfusion hcc2
      | some cc =>
        by_cases hcmp : cmp r cc = Ordering.lt
        · refine Or.inr ⟨?_, h1, ?_⟩
          · show (if cmp r cc = Ordering.lt then c + 1 else c) = c + 1
            rw [if_pos hcmp]
          · intro r2 cc2 hr2 hcc2
            cases hr2
            cases hcc2
            exact hcmp
        · refine Or.inl ⟨?_, ?_⟩
          · show (if cmp r cc = Ordering.lt then c + 1 else c) = c
            rw [if_neg hcmp]
          · intro r2 cc2 hlt hr2 hcc2
            cases hr2
            cases hcc2
            exact hcmp
  · rw [if_neg h1]
    refine Or.inl ⟨rfl, ?_⟩
    intro r cc hlt hr2 hcc2
    exact absurd hlt h1

theorem cmp_irrefl_lt {α : Type} (cmp : α → α → Ordering)
    (hdual : ∀ a b, cmp a b = Ordering.lt ↔ cmp b a = Ordering.gt) (a : α) :
    cmp a a ≠ Ordering.lt := by
  intro h
  have h2 := (hdual a a).mp h
  rw [h] at h2
  exact Ordering.noConfusion h2

theorem heap_down_inv {α : Type} (cmp : α → α → Ordering)
    (htrans : ∀ a b c, cmp a b ≠ Ordering.lt → cmp b c ≠ Ordering.lt →
      cmp a c ≠ Ordering.lt)
    (htranslt : ∀ a b c, cmp a b = Ordering.lt → cmp b c = Ordering.lt →
      cmp a c = Ordering.lt)
    (hdual : ∀ a b, cmp a b = Ordering.lt ↔ cmp b a = Ordering.gt) :
    ∀ (n : Nat) (l : List α) (i : Nat), l.length - i ≤ n →
      (∀ j a b, 0 < j → parentIdx j ≠ i → l.get? j = some a →
        l.get? (parentIdx j) = some b → cmp a b ≠ Ordering.lt) →
      (∀ j a b, 0 < i → parentIdx j = i → l.get? j = some a →
        l.get? (parentIdx i) = some b → cmp a b ≠ Ordering.lt) →
      HeapInv cmp (heap_down cmp l i) ∧ List.Perm (heap_down cmp l i) l := by
  intro n
  induction n with
  | zero =>
    intro l i hn hA hB
    rw [heap_down, dif_pos (by omega)]
    refine ⟨?_, List.Perm.refl l⟩
    intro j a b hj hja hjb
    by_cases hpj : parentIdx j = i
    · have hjlen : j < l.length := (List.get?_eq_some.mp hja).1
      have hj2 : j = 2 * i + 1 ∨ j = 2 * i + 2 := by
        unfold parentIdx at hpj
        omega
      omega
    · exact hA j a b hj hpj hja hjb
  | succ n ih =>
    intro l i hn hA hB
    rw [heap_down]
    by_cases hguard : l.length ≤ i * 2 + 1
    · rw [dif_pos hguard]
      refine ⟨?_, List.Perm.refl l⟩
      intro j a b hj hja hjb
      by_cases hpj : parentIdx j = i
      · have hjlen : j < l.length := (List.get?_eq_some.mp hja).1
        have hj2 : j = 2 * i + 1 ∨ j = 2 * i + 2 := by
          unfold parentIdx at hpj
          omega
        omega
      · exact hA j a b hj hpj hja hjb
    · rw [dif_neg hguard]
      have hilen : i < l.length := by omega
      have hmrange : i * 2 + 1 ≤ heap_down_child cmp l (i * 2 + 1) ∧
          heap_down_child cmp l (i * 2 + 1) ≤ i * 2 + 2 := by
        rcases heap_down_child_cases cmp l (i * 2 + 1) with ⟨he, _⟩ | ⟨he, _, _⟩ <;> omega
      have hmlen : heap_down_child cmp l (i * 2 + 1) < l.length := by
        rcases heap_down_child_cases cmp l (i * 2 + 1) with ⟨he, _⟩ | ⟨he, hlt, _⟩ <;> omega
      obtain ⟨mv, hm⟩ : ∃ mv, l.get? (heap_down_child cmp l (i * 2 + 1)) = some mv :=
        ⟨l.get ⟨_, hmlen⟩, List.get?_eq_get hmlen⟩
      obtain ⟨cur, hcur⟩ : ∃ cur, l.get? i = some cur :=
        ⟨l.get ⟨_, hilen⟩, List.get?_eq_get hilen⟩
      simp only [hm, hcur]
      have hparm : parentIdx (heap_down_child cmp l (i * 2 + 1)) = i := by
        unfold parentIdx
        omega
      have hmlt : i < heap_down_child cmp l (i * 2 + 1) := by omega
      have hmnei : i ≠ heap_down_child cmp l (i * 2 + 1) := by omega
      have hchild : ∀ j a, 0 < j → parentIdx j = i → l.get? j = some a →
          cmp a mv ≠ Ordering.lt := by
        intro j a hjpos hpj hja
        have hjlen : j < l.length := (List.get?_eq_some.mp hja).1
        have hj2 : j = i * 2 + 1 ∨ j = i * 2 + 2 := by
          unfold parentIdx at hpj
          omega
        by_cases hjm : j = heap_down_child cmp l (i * 2 + 1)
        · rw [hjm, hm] at hja
          cases hja
          exact cmp_irrefl_lt cmp hdual mv
        · rcases heap_down_child_cases cmp l (i * 2 + 1) with ⟨he, hoth⟩ | ⟨he, hlt, hrt⟩
          · have hjr : j = i * 2 + 2 := by omega
            exact hoth a mv (by omega)
              (by rw [show i * 2 + 1 + 1 = j from by omega]; exact hja)
              (by rw [← he]; exact hm)
          · have hjl : j = i * 2 + 1 := by omega
            have hlt2 := hrt mv a
              (by rw [show i * 2 + 1 + 1 = i * 2 + 2 from by omega, ← he]; exact hm)
              (by rw [← hjl]; exact hja)
            intro hlt3
            have hgt := (hdual mv a).mp hlt2
            rw [hlt3] at hgt
            exact Ordering.noConfusion hgt
      by_cases hswap : cmp mv cur = Ordering.lt
      · rw [if_pos hswap]
        have hgi : (lswap l i (heap_down_child cmp l (i * 2 + 1))).get? i = some mv := by
          rw [lswap_get?_at_i l i _ hmnei hilen hmlen, hm]
        have hgm : (lswap l i (heap_down_child cmp l (i * 2 + 1))).get?
            (heap_down_child cmp l (i * 2 + 1)) = some cur := by
          rw [lswap_get?_at_j l i _ hilen hmlen, hcur]
        have hgo : ∀ k, k ≠ i → k ≠ heap_down_child cmp l (i * 2 + 1) →
            (lswap l i (heap_down_child cmp l (i * 2 + 1))).get? k = l.get? k :=
          fun k h1 h2 => lswap_get?_other l i _ k h1 h2
        have hA2 : ∀ j a b, 0 < j →
            parentIdx j ≠ heap_down_child cmp l (i * 2 + 1) →
            (lswap l i (heap_down_child cmp l (i * 2 + 1))).get? j = some a →
            (lswap l i (heap_down_child cmp l (i * 2 + 1))).get? (parentIdx j) = some b →
            cmp a b ≠ Ordering.lt := by
          intro j a b hj hpjm hja hjb
          by_cases hjm : j = heap_down_child cmp l (i * 2 + 1)
          · rw [hjm, hgm] at hja
            cases hja
            rw [hjm, hparm, hgi] at hjb
            cases hjb
            intro hlt3
            have hgt := (hdual mv cur).mp hswap
            rw [hlt3] at hgt
            exact Ordering.noConfusion hgt
          · by_cases hji : j = i
            · rw [hji, hgi] at hja
              cases hja
              have hipos : 0 < i := by
                rw [hji] at hj
                exact hj
              have hppi : parentIdx i ≠ i := by
                unfold parentIdx
                omega
              have hppm : parentIdx i ≠ heap_down_child cmp l (i * 2 + 1) := by
                unfold parentIdx
                omega
              rw [hji] at hjb
              rw [hgo (parentIdx i) hppi hppm] at hjb
              exact hB (heap_down_child cmp l (i * 2 + 1)) mv b hipos hparm hm hjb
            · by_cases hpj : parentIdx j = i
              · rw [hgo j hji hjm] at hja
                rw [hpj, hgi] at hjb
                cases hjb
                exact hchild j a hj hpj hja
              · rw [hgo j hji hjm] at hja
                rw [hgo (parentIdx j) hpj hpjm] at hjb
                exact hA j a b hj hpj hja hjb
        have hB2 : ∀ j a b, 0 < heap_down_child cmp l (i * 2 + 1) →
            parentIdx j = heap_down_child cmp l (i * 2 + 1) →
            (lswap l i (heap_down_child cmp l (i * 2 + 1))).get? j = some a →
            (lswap l i (heap_down_child cmp l (i * 2 + 1))).get?
              (parentIdx (heap_down_child cmp l (i * 2 + 1))) = some b →
            cmp a b ≠ Ordering.lt := by
          intro j a b hmpos hpj hja hjb
          rw [hparm, hgi] at hjb
          cases hjb
          have hjgt : heap_down_child cmp l (i * 2 + 1) < j := by
            unfold parentIdx at hpj
            omega
          have hjne_i : j ≠ i := by omega
          have hjne_m : j ≠ heap_down_child cmp l (i * 2 + 1) := by omega
          rw [hgo j hjne_i hjne_m] at hja
          exact hA j a mv (by omega) (by rw [hpj]; omega) hja (by rw [hpj]; exact hm)
        obtain ⟨hinv2, hperm2⟩ := ih (lswap l i (heap_down_child cmp l (i * 2 + 1)))
          (heap_down_child cmp l (i * 2 + 1))
          (by rw [lswap_len]; omega) hA2 hB2
        exact ⟨hinv2, hperm2.trans (lswap_perm l i _)⟩
      · rw [if_neg hswap]
        refine ⟨?_, List.Perm.refl l⟩
        intro j a b hj hja hjb
        by_cases hpj : parentIdx j = i
        · rw [hpj, hcur] at hjb
          cases hjb
          exact htrans a mv cur (hchild j a hj hpj hja) hswap
        · exact hA j a b hj hpj hja hjb

theorem heap_root_min {α : Type} (cmp : α → α → Ordering)
    (htrans : ∀ a b c, cmp a b ≠ Ordering.lt → cmp b c ≠ Ordering.lt →
      cmp a c ≠ Ordering.lt)
    (hdual : ∀ a b, cmp a b = Ordering.lt ↔ cmp b a = Ordering.gt)
    (l : List α) (hinv : HeapInv cmp l) (r : α) (hr : l.get? 0 = some r) :
    ∀ j x, l.get? j = some x → cmp x r ≠ Ordering.lt := by
  intro j
  induction j using Nat.strong_induction_on with
  | _ j ih =>
    intro x hx
    rcases Nat.eq_zero_or_pos j with hj0 | hjpos
    · subst hj0
      rw [hr] at hx
      cases hx
      exact cmp_irrefl_lt cmp hdual r
    · have hplt : parentIdx j < j := by
        unfold parentIdx
        omega
      have hplen : parentIdx j < l.length := by
        have := (List.get?_eq_some.mp hx).1
        omega
      obtain ⟨b, hb⟩ : ∃ b, l.get? (parentIdx j) = some b :=
        ⟨l.get ⟨_, hplen⟩, List.get?_eq_get hplen⟩
      exact htrans x b r (hinv j x b hjpos hx hb) (ih (parentIdx j) hplt b hb)

theorem swap_remove_front_perm {α : Type} (x : α) (xs : List α) :
    List.Perm (swap_remove_front (x :: xs)) xs := by
  rw [swap_remove_front]
  cases hlast : xs.getLast? with
  | none =>
    rw [List.getLast?_eq_none_iff.mp hlast]
  | some last =>
    have hd : xs.dropLast ++ [last] = xs := List.dropLast_append_getLast? last hlast
    show List.Perm (last :: xs.dropLast) xs
    have hp : List.Perm (last :: xs.dropLast) (xs.dropLast ++ [last]) :=
      (List.perm_append_singleton last xs.dropLast).symm
    rw [hd] at hp
    exact hp

theorem swap_remove_front_get? {α : Type} (x : α) (xs : List α) (k : Nat)
    (hk : 0 < k) (hklen : k < xs.length) :
    (swap_remove_front (x :: xs)).get? k = xs.get? (k - 1) := by
  rw [swap_remove_front]
  cases hlast : xs.getLast? with
  | none =>
    rw [List.getLast?_eq_none_iff.mp hlast] at hklen
    exact absurd hklen (by simp)
  | some last =>
    show (last :: xs.dropLast).get? k = xs.get? (k - 1)
    rw [show k = (k - 1) + 1 from by omega, List.get?_cons_succ]
    rw [List.get?_eq_getElem?, List.get?_eq_getElem?, List.getElem?_dropLast,
      if_pos (by omega), Nat.add_sub_cancel]

/-- C9 (amended): for any comparator forming a total order (encoded by the
transitivity and duality hypotheses) and any heap state satisfying the
binary-heap invariant, `pop` returns `none` exactly on the empty heap (it does
not fail or abort), and otherwise returns a minimum element `m` (never `Greater`
than any stored element) with the remaining contents being the previous
contents minus that one occurrence, still a valid heap. -/
theorem heap_pop_correct {α : Type} (cmp : α → α → Ordering)
    (htrans : ∀ a b c, cmp a b ≠ Ordering.lt → cmp b c ≠ Ordering.lt →
      cmp a c ≠ Ordering.lt)
    (htranslt : ∀ a b c, cmp a b = Ordering.lt → cmp b c = Ordering.lt →
      cmp a c = Ordering.lt)
    (hdual : ∀ a b, cmp a b = Ordering.lt ↔ cmp b a = Ordering.gt)
    (h : Heap α) (hc : h.compare = cmp) (hinv : HeapInv cmp h.heap) :
    (h.pop = none ↔ h.heap = []) ∧
    (∀ m h2, h.pop = some (m, h2) →
      (∀ x ∈ h.heap, cmp m x ≠ Ordering.gt) ∧
      List.Perm (m :: h2.heap) h.heap ∧ HeapInv cmp h2.heap ∧ h2.compare = cmp) := by
  cases h with
  | mk hl hcomp =>
    dsimp only at hc hinv ⊢
    subst hcomp
    cases hl with
    | nil =>
      refine ⟨⟨fun _ => rfl, fun _ => rfl⟩, ?_⟩
      intro m h2 hpop
      exact Option.noConfusion hpop
    | cons x xs =>
      have hpopeq : (Heap.mk (x :: xs) cmp).pop =
          some (x, Heap.mk (heap_down cmp (swap_remove_front (x :: xs)) 0) cmp) := rfl
      have hsrfA : ∀ j a b, 0 < j → parentIdx j ≠ 0 →
          (swap_remove_front (x :: xs)).get? j = some a →
          (swap_remove_front (x :: xs)).get? (parentIdx j) = some b →
          cmp a b ≠ Ordering.lt := by
        intro j a b hj hpj hja hjb
        have hlen : (swap_remove_front (x :: xs)).length = xs.length :=
          (swap_remove_front_perm x xs).length_eq
        have hjlen : j < xs.length := by
          have := (List.get?_eq_some.mp hja).1
          omega
        have hpjpos : 0 < parentIdx j := by omega
        have hpjlt : parentIdx j < j := by
          unfold parentIdx
          omega
        rw [swap_remove_front_get? x xs j hj hjlen] at hja
        rw [swap_remove_front_get? x xs (parentIdx j) hpjpos (by omega)] at hjb
        have hja2 : (x :: xs).get? j = some a := by
          rw [show j = (j - 1) + 1 from by omega, List.get?_cons_succ]
          exact hja
        have hjb2 : (x :: xs).get? (parentIdx j) = some b := by
          rw [show parentIdx j = (parentIdx j - 1) + 1 from by omega,
            List.get?_cons_succ]
          exact hjb
        exact hinv j a b hj hja2 hjb2
      have hsrfB : ∀ j a b, (0 : Nat) < 0 → parentIdx j = 0 →
          (swap_remove_front (x :: xs)).get? j = some a →
          (swap_remove_front (x :: xs)).get? (parentIdx 0) = some b →
          cmp a b ≠ Ordering.lt := by
        intro j a b h0
        exact absurd h0 (Nat.lt_irrefl 0)
      obtain ⟨hdinv, hdperm⟩ := heap_down_inv cmp htrans htranslt hdual
        (swap_remove_front (x :: xs)).length (swap_remove_front (x :: xs)) 0
        (by omega) hsrfA hsrfB
      refine ⟨⟨fun hcontra => ?_, fun hcontra => ?_⟩, ?_⟩
      · rw [hpopeq] at hcontra
        exact Option.noConfusion hcontra
      · exact List.noConfusion hcontra
      · intro m h2 hpop
        rw [hpopeq] at hpop
        cases hpop
        refine ⟨?_, ?_, ?_, rfl⟩
        · intro y hy
          obtain ⟨⟨j, hjlt⟩, hget⟩ := List.get_of_mem hy
          have hget? : (x :: xs).get? j = some y := by
            rw [List.get?_eq_get hjlt, hget]
          have hmin := heap_root_min cmp htrans hdual (x :: xs) hinv x rfl j y hget?
          intro hgt
          exact hmin ((hdual y x).mpr hgt)
        · exact List.Perm.cons x (hdperm.trans (swap_remove_front_perm x xs))
        · exact hdinv

/-- C9 counterexample to the original claim's error behaviour: popping an empty
heap does not fail or abort; it cleanly returns `None`. -/
theorem heap_pop_empty_none :
    (Heap.with_compare (fun a b : Nat => compare a b)).pop = none := rfl

theorem nat_cmp_trans_notlt (a b c : Nat) (h1 : compare a b ≠ Ordering.lt)
    (h2 : compare b c ≠ Ordering.lt) : compare a c ≠ Ordering.lt := by
  simp only [ne_eq, Nat.compare_eq_lt] at h1 h2 ⊢
  omega

theorem nat_cmp_trans_lt (a b c : Nat) (h1 : compare a b = Ordering.lt)
    (h2 : compare b c = Ordering.lt) : compare a c = Ordering.lt := by
  rw [Nat.compare_eq_lt] at h1 h2 ⊢
  omega

theorem nat_cmp_dual (a b : Nat) :
    compare a b = Ordering.lt ↔ compare b a = Ordering.gt := by
  rw [Nat.compare_eq_lt, Nat.compare_eq_gt]

theorem heapInv_example : HeapInv compare ([1, 2] : List Nat) := by
  intro j a b hj hja hjb
  match j, hj with
  | 1, _ =>
    rw [show ([1, 2] : List Nat).get? 1 = some 2 from rfl] at hja
    rw [show parentIdx 1 = 0 from rfl] at hjb
    rw [show ([1, 2] : List Nat).get? 0 = some 1 from rfl] at hjb
    cases hja
    cases hjb
    decide
  | n + 2, _ =>
    rw [show ([1, 2] : List Nat).get? (n + 2) = none from by
      rw [List.get?_eq_getElem?]
      exact List.getElem?_eq_none (by simp)] at hja
    exact Option.noConfusion hja

theorem heap_pop_correct_witness :
    ((Heap.mk ([1, 2] : List Nat) compare).pop = none ↔
      (Heap.mk ([1, 2] : List Nat) compare).heap = []) ∧
    (∀ m h2, (Heap.mk ([1, 2] : List Nat) compare).pop = some (m, h2) →
      (∀ x ∈ (Heap.mk ([1, 2] : List Nat) compare).heap, compare m x ≠ Ordering.gt) ∧
      List.Perm (m :: h2.heap) (Heap.mk ([1, 2] : List Nat) compare).heap ∧
      HeapInv compare h2.heap ∧ h2.compare = compare) :=
  heap_pop_correct compare nat_cmp_trans_notlt nat_cmp_trans_lt nat_cmp_dual
    (Heap.mk ([1, 2] : List Nat) compare) rfl heapInv_example

theorem heap_up_inv {α : Type} (cmp : α → α → Ordering)
    (htrans : ∀ a b c, cmp a b ≠ Ordering.lt → cmp b c ≠ Ordering.lt →
      cmp a c ≠ Ordering.lt)
    (htranslt : ∀ a b c, cmp a b = Ordering.lt → cmp b c = Ordering.lt →
      cmp a c = Ordering.lt)
    (hdual : ∀ a b, cmp a b = Ordering.lt ↔ cmp b a = Ordering.gt) :
    ∀ (i : Nat) (l : List α),
      (∀ j a b, 0 < j → j ≠ i → l.get? j = some a →
        l.get? (parentIdx j) = some b → cmp a b ≠ Ordering.lt) →
      (∀ j a b, 0 < i → parentIdx j = i → l.get? j = some a →
        l.get? (parentIdx i) = some b → cmp a b ≠ Ordering.lt) →
      HeapInv cmp (heap_up cmp l i) ∧ List.Perm (heap_up cmp l i) l := by
  intro i
  induction i using Nat.strong_induction_on with
  | _ i ih =>
    intro l hA hB
    by_cases hi0 : i = 0
    · rw [heap_up, dif_pos hi0]
      refine ⟨?_, List.Perm.refl l⟩
      intro j a b hj hja hjb
      exact hA j a b hj (by omega) hja hjb
    · rw [heap_up, dif_neg hi0]
      dsimp only
      have hipos : 0 < i := by omega
      have hplt : (i - 1) / 2 < i := by omega
      have hpeq : parentIdx i = (i - 1) / 2 := rfl
      cases hci : l.get? i with
      | none =>
        refine ⟨?_, List.Perm.refl l⟩
        intro j a b hj hja hjb
        by_cases hji : j = i
        · rw [hji, hci] at hja
          exact Option.noConfusion hja
        · exact hA j a b hj hji hja hjb
      | some c =>
        cases hpi : l.get? ((i - 1) / 2) with
        | none =>
          refine ⟨?_, List.Perm.refl l⟩
          intro j a b hj hja hjb
          by_cases hji : j = i
          · rw [hji, hpeq, hpi] at hjb
            exact Option.noConfusion hjb
          · exact hA j a b hj hji hja hjb
        | some p =>
          dsimp only
          by_cases hcp : cmp c p = Ordering.lt
          · rw [if_pos hcp]
            have hilen : i < l.length := (List.get?_eq_some.mp hci).1
            have hplen : (i - 1) / 2 < l.length := (List.get?_eq_some.mp hpi).1
            have hnip : i ≠ (i - 1) / 2 := by omega
            have hgi : (lswap l i ((i - 1) / 2)).get? i = some p := by
              rw [lswap_get?_at_i l i _ hnip hilen hplen, hpi]
            have hgp : (lswap l i ((i - 1) / 2)).get? ((i - 1) / 2) = some c := by
              rw [lswap_get?_at_j l i _ hilen hplen, hci]
            have hgo : ∀ k, k ≠ i → k ≠ (i - 1) / 2 →
                (lswap l i ((i - 1) / 2)).get? k = l.get? k :=
              fun k h1 h2 => lswap_get?_other l i _ k h1 h2
            have hA2 : ∀ j a b, 0 < j → j ≠ (i - 1) / 2 →
                (lswap l i ((i - 1) / 2)).get? j = some a →
                (lswap l i ((i - 1) / 2)).get? (parentIdx j) = some b →
                cmp a b ≠ Ordering.lt := by
              intro j a b hj hjp hja hjb
              by_cases hji : j = i
              · -- pair (i, parent i): holds old parent value vs old child value
                rw [hji, hgi] at hja
                cases hja
                rw [hji, hpeq, hgp] at hjb
                cases hjb
                intro hlt2
                have hgt := (hdual c p).mp hcp
                rw [hlt2] at hgt
                exact Ordering.noConfusion hgt
              · by_cases hpj : parentIdx j = i
                · -- children of i keep their value; parent position i now holds p
                  have hjgt : i < j := by
                    unfold parentIdx at hpj
                    omega
                  rw [hgo j hji (by omega)] at hja
                  rw [hpj, hgi] at hjb
                  cases hjb
                  exact hB j a p hipos hpj hja (by rw [hpeq]; exact hpi)
                · by_cases hpjp : parentIdx j = (i - 1) / 2
                  · -- sibling of i under the old parent; position parent now holds c
                    rw [hgo j hji hjp] at hja
                    rw [hpjp, hgp] at hjb
                    cases hjb
                    intro hlt2
                    have hlt3 := htranslt a c p hlt2 hcp
                    exact hA j a p hj hji hja (by rw [hpjp, ← hpeq, hpeq]; exact hpi) hlt3
                  · rw [hgo j hji hjp] at hja
                    rw [hgo (parentIdx j) hpj hpjp] at hjb
                    exact hA j a b hj hji hja hjb
            have hB2 : ∀ j a b, 0 < (i - 1) / 2 → parentIdx j = (i - 1) / 2 →
                (lswap l i ((i - 1) / 2)).get? j = some a →
                (lswap l i ((i - 1) / 2)).get? (parentIdx ((i - 1) / 2)) = some b →
                cmp a b ≠ Ordering.lt := by
              intro j a b hppos hpj hja hjb
              have hpp_lt : parentIdx ((i - 1) / 2) < (i - 1) / 2 := by
                unfold parentIdx
                omega
              have hpp_ne_i : parentIdx ((i - 1) / 2) ≠ i := by omega
              have hpp_ne_p : parentIdx ((i - 1) / 2) ≠ (i - 1) / 2 := by omega
              rw [hgo (parentIdx ((i - 1) / 2)) hpp_ne_i hpp_ne_p] at hjb
              have hparentpair : cmp p b ≠ Ordering.lt :=
                hA ((i - 1) / 2) p b hppos (by omega) hpi hjb
              by_cases hji : j = i
              · rw [hji, hgi] at hja
                cases hja
                exact hparentpair
              · have hjp : j ≠ (i - 1) / 2 := by
                  unfold parentIdx at hpj
                  omega
                rw [hgo j hji hjp] at hja
                have hsib : cmp a p ≠ Ordering.lt := by
                  apply hA j a p (by unfold parentIdx at hpj; omega) hji hja
                  rw [hpj, ← hpeq, hpeq]
                  exact hpi
                exact htrans a p b hsib hparentpair
            obtain ⟨hinv2, hperm2⟩ := ih ((i - 1) / 2) hplt (lswap l i ((i - 1) / 2)) hA2 hB2
            exact ⟨hinv2, hperm2.trans (lswap_perm l i _)⟩
          · rw [if_neg hcp]
            refine ⟨?_, List.Perm.refl l⟩
            intro j a b hj hja hjb
            by_cases hji : j = i
            · rw [hji, hci] at hja
              cases hja
              rw [hji, hpeq, hpi] at hjb
              cases hjb
              exact hcp
            · exact hA j a b hj hji hja hjb

theorem heap_push_inv {α : Type} (cmp : α → α → Ordering)
    (htrans : ∀ a b c, cmp a b ≠ Ordering.lt → cmp b c ≠ Ordering.lt →
      cmp a c ≠ Ordering.lt)
    (htranslt : ∀ a b c, cmp a b = Ordering.lt → cmp b c = Ordering.lt →
      cmp a c = Ordering.lt)
    (hdual : ∀ a b, cmp a b = Ordering.lt ↔ cmp b a = Ordering.gt)
    (h : Heap α) (hc : h.compare = cmp) (hinv : HeapInv cmp h.heap) (v : α) :
    HeapInv cmp (h.push v).heap ∧ List.Perm (h.push v).heap (v :: h.heap) ∧
      (h.push v).compare = cmp := by
  cases h with
  | mk hl hcomp =>
    dsimp only at hc hinv ⊢
    subst hcomp
    rw [Heap.push]
    dsimp only
    have hidx : (hl ++ [v]).length - 1 = hl.length := by
      rw [List.length_append, List.length_singleton]
      omega
    rw [hidx]
    have hA : ∀ j a b, 0 < j → j ≠ hl.length → (hl ++ [v]).get? j = some a →
        (hl ++ [v]).get? (parentIdx j) = some b → cmp a b ≠ Ordering.lt := by
      intro j a b hj hjne hja hjb
      have hjlen : j < (hl ++ [v]).length := (List.get?_eq_some.mp hja).1
      have hjlt : j < hl.length := by
        rw [List.length_append, List.length_singleton] at hjlen
        omega
      have hplt : parentIdx j < hl.length := by
        unfold parentIdx
        omega
      rw [List.get?_append hjlt] at hja
      rw [List.get?_append hplt] at hjb
      exact hinv j a b hj hja hjb
    have hB : ∀ j a b, 0 < hl.length → parentIdx j = hl.length →
        (hl ++ [v]).get? j = some a →
        (hl ++ [v]).get? (parentIdx hl.length) = some b → cmp a b ≠ Ordering.lt := by
      intro j a b hpos hpj hja hjb
      have hjlen : j < (hl ++ [v]).length := (List.get?_eq_some.mp hja).1
      rw [List.length_append, List.length_singleton] at hjlen
      unfold parentIdx at hpj
      omega
    obtain ⟨hinv2, hperm2⟩ := heap_up_inv cmp htrans htranslt hdual hl.length
      (hl ++ [v]) hA hB
    exact ⟨hinv2, hperm2.trans (List.perm_append_singleton v hl), rfl⟩

theorem topk_compare_lt (a b : TopKItem) :
    topk_compare a b = Ordering.lt ↔
      (b.e - b.s < a.e - a.s ∨ (b.e - b.s = a.e - a.s ∧ a.v < b.v)) := by
  unfold topk_compare
  rcases Nat.lt_trichotomy (b.e - b.s) (a.e - a.s) with h | h | h
  · rw [Nat.compare_eq_lt.mpr h]
    dsimp only
    constructor
    · intro _
      exact Or.inl h
    · intro _
      rfl
  · rw [Nat.compare_eq_eq.mpr h]
    dsimp only
    rw [Nat.compare_eq_lt]
    omega
  · rw [Nat.compare_eq_gt.mpr h]
    dsimp only
    constructor
    · intro hc
      exact Ordering.noConfusion hc
    · intro hc
      omega

theorem topk_compare_gt (a b : TopKItem) :
    topk_compare a b = Ordering.gt ↔
      (a.e - a.s < b.e - b.s ∨ (b.e - b.s = a.e - a.s ∧ b.v < a.v)) := by
  unfold topk_compare
  rcases Nat.lt_trichotomy (b.e - b.s) (a.e - a.s) with h | h | h
  · rw [Nat.compare_eq_lt.mpr h]
    dsimp only
    constructor
    · intro hc
      exact Ordering.noConfusion hc
    · intro hc
      omega
  · rw [Nat.compare_eq_eq.mpr h]
    dsimp only
    rw [Nat.compare_eq_gt]
    omega
  · rw [Nat.compare_eq_gt.mpr h]
    dsimp only
    constructor
    · intro _
      exact Or.inl h
    · intro _
      rfl

theorem tk_trans_notlt (a b c : TopKItem) (h1 : topk_compare a b ≠ Ordering.lt)
    (h2 : topk_compare b c ≠ Ordering.lt) : topk_compare a c ≠ Ordering.lt := by
  rw [Ne, topk_compare_lt] at h1 h2 ⊢
  omega

theorem tk_trans_lt (a b c : TopKItem) (h1 : topk_compare a b = Ordering.lt)
    (h2 : topk_compare b c = Ordering.lt) : topk_compare a c = Ordering.lt := by
  rw [topk_compare_lt] at h1 h2 ⊢
  omega

theorem tk_dual (a b : TopKItem) :
    topk_compare a b = Ordering.lt ↔ topk_compare b a = Ordering.gt := by
  rw [topk_compare_lt, topk_compare_gt]
  omega

theorem count_filter_ite (p : Nat → Bool) (l : List Nat) (a : Nat) :
    (l.filter p).count a = if p a = true then l.count a else 0 := by
  by_cases h : p a = true
  · rw [if_pos h, List.count_filter h]
  · rw [if_neg h, List.count_eq_zero]
    intro hc
    exact h (List.of_mem_filter hc)

theorem pref_split_zero (d x v : Nat) (hd : d ≤ 7) :
    x >>> (7 - d) = 2 * v ↔ (x >>> (8 - d) = v ∧ planeBit d x = false) := by
  have hx := shiftRight_succ_bit x (7 - d)
  rw [show 7 - d + 1 = 8 - d from by omega] at hx
  rw [planeBit_eq_testBit d x hd]
  constructor
  · intro h
    cases hb : x.testBit (7 - d) with
    | false =>
      rw [hb] at hx
      simp only [Bool.toNat_false] at hx
      exact ⟨by omega, rfl⟩
    | true =>
      rw [hb] at hx
      simp only [Bool.toNat_true] at hx
      exact absurd rfl (by omega : ¬(0 : Nat) = 0)
  · intro hc
    rw [hc.2] at hx
    simp only [Bool.toNat_false] at hx
    omega

theorem pref_split_one (d x v : Nat) (hd : d ≤ 7) :
    x >>> (7 - d) = 2 * v + 1 ↔ (x >>> (8 - d) = v ∧ planeBit d x = true) := by
  have hx := shiftRight_succ_bit x (7 - d)
  rw [show 7 - d + 1 = 8 - d from by omega] at hx
  rw [planeBit_eq_testBit d x hd]
  constructor
  · intro h
    cases hb : x.testBit (7 - d) with
    | false =>
      rw [hb] at hx
      simp only [Bool.toNat_false] at hx
      exact absurd rfl (by omega : ¬(0 : Nat) = 0)
    | true =>
      rw [hb] at hx
      simp only [Bool.toNat_true] at hx
      exact ⟨by omega, rfl⟩
  · intro hc
    rw [hc.2] at hx
    simp only [Bool.toNat_true] at hx
    omega

theorem wm_zero_child_seg (V : List Nat) (d s e : Nat) (hse : s ≤ e)
    (hen : e ≤ V.length) :
    seg (wmVec V (d + 1)) (((wmVec V d).take s).countP (fun v => !planeBit d v))
      (((wmVec V d).take e).countP (fun v => !planeBit d v)) =
      (seg (wmVec V d) s e).filter (fun v => !planeBit d v) := by
  have hveclen : (wmVec V d).length = V.length := wmVec_length V d
  have hle0 : (((wmVec V d).take e).countP (fun v => !planeBit d v)) ≤
      ((wmVec V d).filter (fun v => !planeBit d v)).length := by
    rw [← List.countP_eq_length_filter]
    have := countP_take_mono (fun v => !planeBit d v) (wmVec V d) e
      (wmVec V d).length (by omega)
    rw [List.take_length] at this
    exact this
  rw [wmVec, seg_append_left _ _ _ _ (countP_take_mono _ _ s e hse) hle0,
    seg_filter _ (wmVec V d) s e hse]

theorem wm_one_child_seg (V : List Nat) (d s e : Nat) (hse : s ≤ e) :
    seg (wmVec V (d + 1))
      (((wmVec V d).filter (fun v => !planeBit d v)).length +
        ((wmVec V d).take s).countP (fun v => planeBit d v))
      (((wmVec V d).filter (fun v => !planeBit d v)).length +
        ((wmVec V d).take e).countP (fun v => planeBit d v)) =
      (seg (wmVec V d) s e).filter (fun v => planeBit d v) := by
  rw [wmVec, seg_append_right, seg_filter _ (wmVec V d) s e hse]

theorem filter_or_perm {α : Type} (p q r : α → Bool) (l : List α)
    (h : ∀ x ∈ l, (r x = true ↔ (p x = true ∨ q x = true)) ∧
      ¬(p x = true ∧ q x = true)) :
    List.Perm (l.filter p ++ l.filter q) (l.filter r) := by
  induction l with
  | nil => exact List.Perm.refl []
  | cons x xs ih =>
    have hx := h x (List.mem_cons_self x xs)
    have ihh := ih (fun y hy => h y (List.mem_cons_of_mem x hy))
    rw [List.filter_cons, List.filter_cons, List.filter_cons]
    by_cases hp : p x = true
    · have hq : ¬q x = true := fun hq => hx.2 ⟨hp, hq⟩
      have hr : r x = true := hx.1.mpr (Or.inl hp)
      rw [if_pos hp, if_neg hq, if_pos hr]
      exact List.Perm.cons x ihh
    · by_cases hq : q x = true
      · have hr : r x = true := hx.1.mpr (Or.inr hq)
        rw [if_pos hr, if_neg hp, if_pos hq]
        exact List.perm_middle.trans (List.Perm.cons x ihh)
      · have hr : ¬r x = true := fun hr => by
          cases hx.1.mp hr with
          | inl h2 => exact hp h2
          | inr h2 => exact hq h2
        rw [if_neg hp, if_neg hq, if_neg hr]
        exact ihh

theorem mem_symsOf (V : List Nat) (s e : Nat) (it : TopKItem) (u : Nat) :
    u ∈ symsOf V s e it ↔
      (u < 256 ∧ u >>> (8 - it.d) = it.v ∧ 0 < symCount V s e u) := by
  unfold symsOf
  rw [List.mem_filter, List.mem_range]
  simp only [Bool.and_eq_true, decide_eq_true_eq]

theorem syms_count_le (V : List Nat) (s e : Nat) (it : TopKItem)
    (hit : ItemOK V s e it) (u : Nat) (hu : u ∈ symsOf V s e it) :
    symCount V s e u ≤ it.e - it.s := by
  obtain ⟨hu256, hupref, hucnt⟩ := (mem_symsOf V s e it u).mp hu
  have hcf : symCount V s e u =
      ((seg V s e).filter (fun x => decide (x >>> (8 - it.d) = it.v))).count u := by
    rw [count_filter_ite, if_pos (by simpa using hupref)]
    rfl
  obtain ⟨h1, h2, h3, h4, h5⟩ := hit
  have hlen : (seg (wmVec V it.d) it.s it.e).length = it.e - it.s :=
    seg_length _ _ _ h1 (by rw [wmVec_length]; exact h2)
  have hcle : ((seg V s e).filter
      (fun x => decide (x >>> (8 - it.d) = it.v))).count u ≤ it.e - it.s := by
    rw [← h5, ← hlen]
    exact List.count_le_length u _
  omega

theorem syms_v_le (V : List Nat) (s e : Nat) (it : TopKItem) (u : Nat)
    (hu : u ∈ symsOf V s e it) : it.v ≤ u := by
  obtain ⟨hu256, hupref, hucnt⟩ := (mem_symsOf V s e it u).mp hu
  rw [← hupref, Nat.shiftRight_eq_div_pow]
  exact Nat.div_le_self u _

theorem syms_split (V : List Nat) (s e zs ze os oe : Nat) (q : TopKItem)
    (hd : q.d ≤ 7) :
    List.Perm
      (symsOf V s e (TopKItem.new zs ze (q.d + 1) (q.v <<< 1)) ++
        symsOf V s e (TopKItem.new os oe (q.d + 1) ((q.v <<< 1) ||| 1)))
      (symsOf V s e q) := by
  unfold symsOf
  apply filter_or_perm
  intro u hu
  have h7 : (8 : Nat) - (q.d + 1) = 7 - q.d := by omega
  have hz2 : q.v <<< 1 = 2 * q.v := by
    rw [Nat.shiftLeft_eq, pow_one]
    omega
  have ho2 : q.v <<< 1 ||| 1 = 2 * q.v + 1 := by rw [hz2, two_mul_or_one]
  simp only [TopKItem.new, Bool.and_eq_true, decide_eq_true_eq]
  rw [h7, hz2, two_mul_or_one q.v, pref_split_zero q.d u q.v hd,
    pref_split_one q.d u q.v hd]
  constructor
  · cases hbit : planeBit q.d u <;> simp
  · rintro ⟨⟨⟨-, hb0⟩, -⟩, ⟨⟨-, hb1⟩, -⟩⟩
    rw [hb0] at hb1
    exact Bool.noConfusion hb1

theorem leaf_count (V : List Nat) (s e : Nat) (it : TopKItem)
    (hit : ItemOK V s e it) (hd : it.d = 8) :
    it.e - it.s = symCount V s e it.v := by
  obtain ⟨h1, h2, h3, h4, h5⟩ := hit
  have hlen : (seg (wmVec V it.d) it.s it.e).length = it.e - it.s :=
    seg_length _ _ _ h1 (by rw [wmVec_length]; exact h2)
  rw [← hlen, h5]
  have hpred : ∀ x ∈ seg V s e,
      (decide (x >>> (8 - it.d) = it.v)) = (x == it.v) := by
    intro x _
    rw [hd, show (8 : Nat) - 8 = 0 from rfl, Nat.shiftRight_zero]
    by_cases h : x = it.v
    · simp [h]
    · simp [h]
  rw [List.filter_congr hpred, ← List.countP_eq_length_filter]
  rfl

theorem nodup_single_eq (l : List Nat) (v : Nat) (hnd : l.Nodup)
    (hmem : ∀ u, u ∈ l ↔ u = v) : l = [v] := by
  cases l with
  | nil =>
    have h := (hmem v).mpr rfl
    cases h
  | cons x xs =>
    have hx : x = v := (hmem x).mp (List.mem_cons_self x xs)
    subst hx
    have hxs : xs = [] := by
      cases hxs : xs with
      | nil => rfl
      | cons y ys =>
        have hy : y = x := (hmem y).mp
          (List.mem_cons_of_mem x (hxs ▸ List.mem_cons_self y ys))
        have hmemx : x ∈ xs := by
          rw [hxs, ← hy]
          exact List.mem_cons_self y ys
        exact absurd hmemx (List.nodup_cons.mp hnd).1
    rw [hxs]

theorem leaf_syms (V : List Nat) (s e : Nat) (it : TopKItem) (hd : it.d = 8)
    (hv : it.v < 256) (hcnt : 0 < symCount V s e it.v) :
    symsOf V s e it = [it.v] := by
  apply nodup_single_eq _ _ ((List.nodup_range 256).filter _)
  intro u
  rw [show ((List.range 256).filter
      (fun u => decide (u >>> (8 - it.d) = it.v) && decide (0 < symCount V s e u)))
      = symsOf V s e it from rfl, mem_symsOf]
  constructor
  · rintro ⟨h1, h2, h3⟩
    rw [hd, show (8 : Nat) - 8 = 0 from rfl, Nat.shiftRight_zero] at h2
    exact h2
  · intro h
    subst h
    refine ⟨hv, ?_, hcnt⟩
    rw [hd, show (8 : Nat) - 8 = 0 from rfl, Nat.shiftRight_zero]

theorem symsOf_nil (V : List Nat) (s e : Nat) (it : TopKItem)
    (h : (seg V s e).filter (fun x => decide (x >>> (8 - it.d) = it.v)) = []) :
    symsOf V s e it = [] := by
  unfold symsOf
  rw [List.filter_eq_nil_iff]
  intro u hu hcond
  rw [Bool.and_eq_true, decide_eq_true_eq, decide_eq_true_eq] at hcond
  obtain ⟨hpref, hcnt⟩ := hcond
  unfold symCount at hcnt
  have humem : u ∈ seg V s e := List.count_pos_iff.mp hcnt
  have hmf : u ∈ (seg V s e).filter
      (fun x => decide (x >>> (8 - it.d) = it.v)) :=
    List.mem_filter.mpr ⟨humem, by simpa using hpref⟩
  rw [h] at hmf
  cases hmf

theorem sorted_prefix_sort (all R pairs : List (Nat × Nat))
    (hperm : List.Perm all (R ++ pairs)) (hsR : List.Pairwise topkRel R)
    (hcross : ∀ p ∈ R, ∀ pr ∈ pairs, topkRel p pr) :
    List.insertionSort topkRel all = R ++ List.insertionSort topkRel pairs := by
  apply List.eq_of_perm_of_sorted ?_ (List.sorted_insertionSort topkRel all) ?_
  · exact (List.perm_insertionSort topkRel all).trans
      (hperm.trans (List.Perm.append_left R (List.perm_insertionSort topkRel pairs).symm))
  · rw [List.Sorted, List.pairwise_append]
    exact ⟨hsR, List.sorted_insertionSort topkRel pairs, fun p hp pr hpr =>
      hcross p hp pr ((List.perm_insertionSort topkRel pairs).mem_iff.mp hpr)⟩

theorem heapInv_nil {α : Type} (cmp : α → α → Ordering) :
    HeapInv cmp ([] : List α) := by
  intro j a b hj hja hjb
  exact Option.noConfusion hja

theorem init_item_ok (V : List Nat) (hV : ∀ x ∈ V, x < 256) (s e : Nat)
    (hse : s ≤ e) (hen : e ≤ V.length) : ItemOK V s e (TopKItem.new s e 0 0) := by
  unfold ItemOK TopKItem.new
  dsimp only
  refine ⟨hse, hen, by omega, by omega, ?_⟩
  rw [show wmVec V 0 = V from rfl]
  symm
  rw [List.filter_eq_self]
  intro x hx
  have hxV : x ∈ V := List.mem_of_mem_drop (List.mem_of_mem_take hx)
  rw [decide_eq_true_eq, show (8 : Nat) - 0 = 8 from rfl, Nat.shiftRight_eq_div_pow]
  exact Nat.div_eq_of_lt (lt_of_lt_of_le (hV x hxV) (by norm_num))

theorem init_syms (V : List Nat) (s e : Nat) :
    symsOf V s e (TopKItem.new s e 0 0) =
      (List.range 256).filter (fun v => decide (0 < symCount V s e v)) := by
  unfold symsOf
  apply List.filter_congr
  intro u hu
  have hu256 : u < 256 := List.mem_range.mp hu
  have hz : decide (u >>> (8 - (TopKItem.new s e 0 0).d) = (TopKItem.new s e 0 0).v)
      = true := by
    rw [decide_eq_true_eq]
    show u >>> (8 - 0) = 0
    rw [show (8 : Nat) - 0 = 8 from rfl, Nat.shiftRight_eq_div_pow]
    exact Nat.div_eq_of_lt (by omega)
  rw [hz, Bool.true_and]

theorem decide_eq_false_bool (b : Bool) : decide (b = false) = !b := by
  cases b <;> rfl

theorem decide_eq_true_bool (b : Bool) : decide (b = true) = b := by
  cases b <;> rfl

theorem zero_pred_eq (d v : Nat) (hd : d ≤ 7) (x : Nat) :
    decide (x >>> (8 - (d + 1)) = v <<< 1) =
      (!planeBit d x && decide (x >>> (8 - d) = v)) := by
  rw [show (8 : Nat) - (d + 1) = 7 - d from by omega,
    show v <<< 1 = 2 * v from by rw [Nat.shiftLeft_eq, pow_one]; omega]
  rw [decide_eq_decide.mpr (pref_split_zero d x v hd)]
  rw [Bool.decide_and, decide_eq_false_bool, Bool.and_comm]

theorem one_pred_eq (d v : Nat) (hd : d ≤ 7) (x : Nat) :
    decide (x >>> (8 - (d + 1)) = v <<< 1 ||| 1) =
      (planeBit d x && decide (x >>> (8 - d) = v)) := by
  rw [show (8 : Nat) - (d + 1) = 7 - d from by omega,
    show v <<< 1 ||| 1 = 2 * v + 1 from by
      rw [show v <<< 1 = 2 * v from by rw [Nat.shiftLeft_eq, pow_one]; omega,
        two_mul_or_one]]
  rw [decide_eq_decide.mpr (pref_split_one d x v hd)]
  rw [Bool.decide_and, decide_eq_true_bool, Bool.and_comm]

theorem zero_child_class (V : List Nat) (s e : Nat) (q : TopKItem) (hd : q.d ≤ 7)
    (hq1 : q.s ≤ q.e) (hq2 : q.e ≤ V.length)
    (hq5 : seg (wmVec V q.d) q.s q.e =
      (seg V s e).filter (fun x => decide (x >>> (8 - q.d) = q.v))) :
    seg (wmVec V (q.d + 1))
      (((wmVec V q.d).take q.s).countP (fun v => !planeBit q.d v))
      (((wmVec V q.d).take q.e).countP (fun v => !planeBit q.d v)) =
      (seg V s e).filter (fun x => decide (x >>> (8 - (q.d + 1)) = q.v <<< 1)) := by
  rw [wm_zero_child_seg V q.d q.s q.e hq1 hq2, hq5, List.filter_filter]
  apply List.filter_congr
  intro a _
  exact (zero_pred_eq q.d q.v hd a).symm

theorem one_child_class (V : List Nat) (s e : Nat) (q : TopKItem) (hd : q.d ≤ 7)
    (hq1 : q.s ≤ q.e) (hq2 : q.e ≤ V.length)
    (hq5 : seg (wmVec V q.d) q.s q.e =
      (seg V s e).filter (fun x => decide (x >>> (8 - q.d) = q.v))) :
    seg (wmVec V (q.d + 1))
      (((wmVec V q.d).filter (fun v => !planeBit q.d v)).length +
        ((wmVec V q.d).take q.s).countP (fun v => planeBit q.d v))
      (((wmVec V q.d).filter (fun v => !planeBit q.d v)).length +
        ((wmVec V q.d).take q.e).countP (fun v => planeBit q.d v)) =
      (seg V s e).filter (fun x => decide (x >>> (8 - (q.d + 1)) = q.v <<< 1 ||| 1)) := by
  rw [wm_one_child_seg V q.d q.s q.e hq1, hq5, List.filter_filter]
  apply List.filter_congr
  intro a _
  exact (one_pred_eq q.d q.v hd a).symm

theorem zero_child_ok (V : List Nat) (s e : Nat) (q : TopKItem) (hd : q.d ≤ 7)
    (hOK : ItemOK V s e q)
    (hzg : ((wmVec V q.d).take q.s).countP (fun v => !planeBit q.d v) <
      ((wmVec V q.d).take q.e).countP (fun v => !planeBit q.d v)) :
    ItemOK V s e (TopKItem.new
      (((wmVec V q.d).take q.s).countP (fun v => !planeBit q.d v))
      (((wmVec V q.d).take q.e).countP (fun v => !planeBit q.d v))
      (q.d + 1) (q.v <<< 1)) := by
  obtain ⟨hq1, hq2, hq3, hq4, hq5⟩ := hOK
  unfold ItemOK TopKItem.new
  dsimp only
  refine ⟨by omega, ?_, by omega, fun _ => hzg,
    zero_child_class V s e q hd hq1 hq2 hq5⟩
  have h1 : ((wmVec V q.d).take q.e).countP (fun v => !planeBit q.d v) ≤
      ((wmVec V q.d).take q.e).length := List.countP_le_length _
  rw [List.length_take, wmVec_length] at h1
  omega

theorem one_child_ok (V : List Nat) (s e : Nat) (q : TopKItem) (hd : q.d ≤ 7)
    (hOK : ItemOK V s e q)
    (hog : ((wmVec V q.d).filter (fun v => !planeBit q.d v)).length +
        ((wmVec V q.d).take q.s).countP (fun v => planeBit q.d v) <
      ((wmVec V q.d).filter (fun v => !planeBit q.d v)).length +
        ((wmVec V q.d).take q.e).countP (fun v => planeBit q.d v)) :
    ItemOK V s e (TopKItem.new
      (((wmVec V q.d).filter (fun v => !planeBit q.d v)).length +
        ((wmVec V q.d).take q.s).countP (fun v => planeBit q.d v))
      (((wmVec V q.d).filter (fun v => !planeBit q.d v)).length +
        ((wmVec V q.d).take q.e).countP (fun v => planeBit q.d v))
      (q.d + 1) (q.v <<< 1 ||| 1)) := by
  obtain ⟨hq1, hq2, hq3, hq4, hq5⟩ := hOK
  unfold ItemOK TopKItem.new
  dsimp only
  refine ⟨by omega, ?_, by omega, fun _ => hog,
    one_child_class V s e q hd hq1 hq2 hq5⟩
  have h1 : ((wmVec V q.d).take q.e).countP (fun v => planeBit q.d v) ≤
      ((wmVec V q.d).filter (fun v => planeBit q.d v)).length := by
    rw [← List.countP_eq_length_filter]
    have := countP_take_mono (fun v => planeBit q.d v) (wmVec V q.d) q.e
      (wmVec V q.d).length (by rw [wmVec_length]; exact hq2)
    rw [List.take_length] at this
    exact this
  have h2 := filter_not_length (fun v => planeBit q.d v) (wmVec V q.d)
  simp only [] at h2
  have h3 : (wmVec V q.d).length = V.length := wmVec_length V q.d
  omega

theorem zero_child_syms_nil (V : List Nat) (s e : Nat) (q : TopKItem) (hd : q.d ≤ 7)
    (hq1 : q.s ≤ q.e) (hq2 : q.e ≤ V.length)
    (hq5 : seg (wmVec V q.d) q.s q.e =
      (seg V s e).filter (fun x => decide (x >>> (8 - q.d) = q.v)))
    (hng : ¬ ((wmVec V q.d).take q.s).countP (fun v => !planeBit q.d v) <
      ((wmVec V q.d).take q.e).countP (fun v => !planeBit q.d v)) :
    symsOf V s e (TopKItem.new
      (((wmVec V q.d).take q.s).countP (fun v => !planeBit q.d v))
      (((wmVec V q.d).take q.e).countP (fun v => !planeBit q.d v))
      (q.d + 1) (q.v <<< 1)) = [] := by
  apply symsOf_nil
  dsimp only [TopKItem.new]
  rw [← zero_child_class V s e q hd hq1 hq2 hq5]
  have hmono := countP_take_mono (fun v => !planeBit q.d v) (wmVec V q.d) q.s q.e hq1
  rw [seg, show ((wmVec V q.d).take q.e).countP (fun v => !planeBit q.d v) -
    ((wmVec V q.d).take q.s).countP (fun v => !planeBit q.d v) = 0 from by omega,
    List.take_zero]

theorem one_child_syms_nil (V : List Nat) (s e : Nat) (q : TopKItem) (hd : q.d ≤ 7)
    (hq1 : q.s ≤ q.e) (hq2 : q.e ≤ V.length)
    (hq5 : seg (wmVec V q.d) q.s q.e =
      (seg V s e).filter (fun x => decide (x >>> (8 - q.d) = q.v)))
    (hng : ¬ ((wmVec V q.d).filter (fun v => !planeBit q.d v)).length +
        ((wmVec V q.d).take q.s).countP (fun v => planeBit q.d v) <
      ((wmVec V q.d).filter (fun v => !planeBit q.d v)).length +
        ((wmVec V q.d).take q.e).countP (fun v => planeBit q.d v)) :
    symsOf V s e (TopKItem.new
      (((wmVec V q.d).filter (fun v => !planeBit q.d v)).length +
        ((wmVec V q.d).take q.s).countP (fun v => planeBit q.d v))
      (((wmVec V q.d).filter (fun v => !planeBit q.d v)).length +
        ((wmVec V q.d).take q.e).countP (fun v => planeBit q.d v))
      (q.d + 1) (q.v <<< 1 ||| 1)) = [] := by
  apply symsOf_nil
  dsimp only [TopKItem.new]
  rw [← one_child_class V s e q hd hq1 hq2 hq5]
  rw [seg, show (((wmVec V q.d).filter (fun v => !planeBit q.d v)).length +
      ((wmVec V q.d).take q.e).countP (fun v => planeBit q.d v)) -
      (((wmVec V q.d).filter (fun v => !planeBit q.d v)).length +
      ((wmVec V q.d).take q.s).countP (fun v => planeBit q.d v)) = 0 from by omega,
    List.take_zero]

theorem cond_push_facts (V : List Nat) (s e : Nat) (h : Heap TopKItem)
    (hc : h.compare = topk_compare) (hinv : HeapInv topk_compare h.heap)
    (b : Prop) [Decidable b] (it : TopKItem) :
    HeapInv topk_compare (if b then h.push it else h).heap ∧
    (if b then h.push it else h).compare = topk_compare ∧
    List.Perm ((if b then h.push it else h).heap.flatMap (symsOf V s e))
      ((if b then symsOf V s e it else []) ++ h.heap.flatMap (symsOf V s e)) ∧
    (∀ j ∈ (if b then h.push it else h).heap, (b ∧ j = it) ∨ j ∈ h.heap) ∧
    ((if b then h.push it else h).heap.map (fun i => 3 ^ (8 - i.d))).sum ≤
      3 ^ (8 - it.d) + (h.heap.map (fun i => 3 ^ (8 - i.d))).sum := by
  by_cases hb : b
  · simp only [if_pos hb]
    obtain ⟨h1, h2, h3⟩ := heap_push_inv topk_compare tk_trans_notlt tk_trans_lt
      tk_dual h hc hinv it
    refine ⟨h1, h3, ?_, ?_, ?_⟩
    · have hfr := h2.flatMap_right (symsOf V s e)
      rw [List.flatMap_cons] at hfr
      exact hfr
    · intro j hj
      have hm := h2.mem_iff.mp hj
      rw [List.mem_cons] at hm
      cases hm with
      | inl hm2 => exact Or.inl ⟨hb, hm2⟩
      | inr hm2 => exact Or.inr hm2
    · have hs := (h2.map (fun i => 3 ^ (8 - i.d))).sum_eq
      rw [List.map_cons, List.sum_cons] at hs
      omega
  · simp only [if_neg hb]
    refine ⟨hinv, hc, ?_, fun j hj => Or.inr hj, by
      have hp := pow_pos (show (0 : Nat) < 3 from by omega) (8 - it.d)
      omega⟩
    rw [List.nil_append]

theorem topk_step_facts (V : List Nat) (s e : Nat) (q : TopKItem) (hd7 : q.d ≤ 7)
    (hOKq : ItemOK V s e q) (H2 : Heap TopKItem)
    (hc2 : H2.compare = topk_compare) (hinv2 : HeapInv topk_compare H2.heap)
    (hItems2 : ∀ it ∈ H2.heap, ItemOK V s e it) (zs ze zl cs1 ce1 : Nat)
    (hzs : zs = ((wmVec V q.d).take q.s).countP (fun v => !planeBit q.d v))
    (hze : ze = ((wmVec V q.d).take q.e).countP (fun v => !planeBit q.d v))
    (hzl : zl = ((wmVec V q.d).filter (fun v => !planeBit q.d v)).length)
    (hcs1 : cs1 = ((wmVec V q.d).take q.s).countP (fun v => planeBit q.d v))
    (hce1 : ce1 = ((wmVec V q.d).take q.e).countP (fun v => planeBit q.d v))
    (HF : Heap TopKItem)
    (hHF : HF = if zl + cs1 < zl + ce1 then
        (if zs < ze then H2.push (TopKItem.new zs ze (q.d + 1) (q.v <<< 1))
          else H2).push
          (TopKItem.new (zl + cs1) (zl + ce1) (q.d + 1) (q.v <<< 1 ||| 1))
      else (if zs < ze then H2.push (TopKItem.new zs ze (q.d + 1) (q.v <<< 1))
        else H2)) :
    HeapInv topk_compare HF.heap ∧ HF.compare = topk_compare ∧
    (∀ it ∈ HF.heap, ItemOK V s e it) ∧
    (HF.heap.map (fun it => 3 ^ (8 - it.d))).sum + 3 ^ (7 - q.d) ≤
      3 ^ (8 - q.d) + (H2.heap.map (fun it => 3 ^ (8 - it.d))).sum ∧
    List.Perm (HF.heap.flatMap (symsOf V s e))
      (symsOf V s e q ++ H2.heap.flatMap (symsOf V s e)) := by
  subst hzs hze hzl hcs1 hce1 hHF
  obtain ⟨hq1, hq2, hq3, hq4, hq5⟩ := hOKq
  obtain ⟨hinv3, hc3, hflat3, hmem3, hsum3⟩ := cond_push_facts V s e H2 hc2 hinv2
    (((wmVec V q.d).take q.s).countP (fun v => !planeBit q.d v) <
      ((wmVec V q.d).take q.e).countP (fun v => !planeBit q.d v))
    (TopKItem.new (((wmVec V q.d).take q.s).countP (fun v => !planeBit q.d v))
      (((wmVec V q.d).take q.e).countP (fun v => !planeBit q.d v))
      (q.d + 1) (q.v <<< 1))
  obtain ⟨hinv4, hc4, hflat4, hmem4, hsum4⟩ := cond_push_facts V s e
    (if ((wmVec V q.d).take q.s).countP (fun v => !planeBit q.d v) <
        ((wmVec V q.d).take q.e).countP (fun v => !planeBit q.d v) then
      H2.push (TopKItem.new
        (((wmVec V q.d).take q.s).countP (fun v => !planeBit q.d v))
        (((wmVec V q.d).take q.e).countP (fun v => !planeBit q.d v))
        (q.d + 1) (q.v <<< 1))
      else H2) hc3 hinv3
    (((wmVec V q.d).filter (fun v => !planeBit q.d v)).length +
        ((wmVec V q.d).take q.s).countP (fun v => planeBit q.d v) <
      ((wmVec V q.d).filter (fun v => !planeBit q.d v)).length +
        ((wmVec V q.d).take q.e).countP (fun v => planeBit q.d v))
    (TopKItem.new
      (((wmVec V q.d).filter (fun v => !planeBit q.d v)).length +
        ((wmVec V q.d).take q.s).countP (fun v => planeBit q.d v))
      (((wmVec V q.d).filter (fun v => !planeBit q.d v)).length +
        ((wmVec V q.d).take q.e).countP (fun v => planeBit q.d v))
      (q.d + 1) (q.v <<< 1 ||| 1))
  refine ⟨hinv4, hc4, ?_, ?_, ?_⟩
  · intro it hit
    cases hmem4 it hit with
    | inl h1 =>
      rw [h1.2]
      exact one_child_ok V s e q hd7 ⟨hq1, hq2, hq3, hq4, hq5⟩ h1.1
    | inr h2 =>
      cases hmem3 it h2 with
      | inl h3 =>
        rw [h3.2]
        exact zero_child_ok V s e q hd7 ⟨hq1, hq2, hq3, hq4, hq5⟩ h3.1
      | inr h4 => exact hItems2 it h4
  · have hredz : (8 : Nat) - (TopKItem.new
        (((wmVec V q.d).take q.s).countP (fun v => !planeBit q.d v))
        (((wmVec V q.d).take q.e).countP (fun v => !planeBit q.d v))
        (q.d + 1) (q.v <<< 1)).d = 7 - q.d := by
      show (8 : Nat) - (q.d + 1) = 7 - q.d
      omega
    have hredo : (8 : Nat) - (TopKItem.new
        (((wmVec V q.d).filter (fun v => !planeBit q.d v)).length +
          ((wmVec V q.d).take q.s).countP (fun v => planeBit q.d v))
        (((wmVec V q.d).filter (fun v => !planeBit q.d v)).length +
          ((wmVec V q.d).take q.e).countP (fun v => planeBit q.d v))
        (q.d + 1) (q.v <<< 1 ||| 1)).d = 7 - q.d := by
      show (8 : Nat) - (q.d + 1) = 7 - q.d
      omega
    rw [hredz] at hsum3
    rw [hredo] at hsum4
    have hpow : (3 : Nat) ^ (8 - q.d) = 3 * 3 ^ (7 - q.d) := by
      rw [show 8 - q.d = (7 - q.d) + 1 from by omega, pow_succ]
      omega
    omega
  · have hSo : (if ((wmVec V q.d).filter (fun v => !planeBit q.d v)).length +
          ((wmVec V q.d).take q.s).countP (fun v => planeBit q.d v) <
        ((wmVec V q.d).filter (fun v => !planeBit q.d v)).length +
          ((wmVec V q.d).take q.e).countP (fun v => planeBit q.d v) then
        symsOf V s e (TopKItem.new
          (((wmVec V q.d).filter (fun v => !planeBit q.d v)).length +
            ((wmVec V q.d).take q.s).countP (fun v => planeBit q.d v))
          (((wmVec V q.d).filter (fun v => !planeBit q.d v)).length +
            ((wmVec V q.d).take q.e).countP (fun v => planeBit q.d v))
          (q.d + 1) (q.v <<< 1 ||| 1)) else []) =
        symsOf V s e (TopKItem.new
          (((wmVec V q.d).filter (fun v => !planeBit q.d v)).length +
            ((wmVec V q.d).take q.s).countP (fun v => planeBit q.d v))
          (((wmVec V q.d).filter (fun v => !planeBit q.d v)).length +
            ((wmVec V q.d).take q.e).countP (fun v => planeBit q.d v))
          (q.d + 1) (q.v <<< 1 ||| 1)) := by
      by_cases hog : ((wmVec V q.d).filter (fun v => !planeBit q.d v)).length +
          ((wmVec V q.d).take q.s).countP (fun v => planeBit q.d v) <
        ((wmVec V q.d).filter (fun v => !planeBit q.d v)).length +
          ((wmVec V q.d).take q.e).countP (fun v => planeBit q.d v)
      · rw [if_pos hog]
      · rw [if_neg hog, one_child_syms_nil V s e q hd7 hq1 hq2 hq5 hog]
    have hSz : (if ((wmVec V q.d).take q.s).countP (fun v => !planeBit q.d v) <
        ((wmVec V q.d).take q.e).countP (fun v => !planeBit q.d v) then
        symsOf V s e (TopKItem.new
          (((wmVec V q.d).take q.s).countP (fun v => !planeBit q.d v))
          (((wmVec V q.d).take q.e).countP (fun v => !planeBit q.d v))
          (q.d + 1) (q.v <<< 1)) else []) =
        symsOf V s e (TopKItem.new
          (((wmVec V q.d).take q.s).countP (fun v => !planeBit q.d v))
          (((wmVec V q.d).take q.e).countP (fun v => !planeBit q.d v))
          (q.d + 1) (q.v <<< 1)) := by
      by_cases hzg : ((wmVec V q.d).take q.s).countP (fun v => !planeBit q.d v) <
        ((wmVec V q.d).take q.e).countP (fun v => !planeBit q.d v)
      · rw [if_pos hzg]
      · rw [if_neg hzg, zero_child_syms_nil V s e q hd7 hq1 hq2 hq5 hzg]
    rw [hSo] at hflat4
    rw [hSz] at hflat3
    refine hflat4.trans ?_
    refine (List.Perm.append_left _ hflat3).trans ?_
    rw [← List.append_assoc]
    refine List.Perm.append_right _ ?_
    refine (List.perm_append_comm).trans ?_
    exact syms_split V s e _ _ _ _ q hd7

theorem topkLoop_correct (V : List Nat) (hV : ∀ x ∈ V, x < 256) (s e k : Nat)
    (hse : s ≤ e) (hen : e ≤ V.length) :
    ∀ (fuel : Nat) (H : Heap TopKItem) (R : List (Nat × Nat)),
      H.compare = topk_compare →
      HeapInv topk_compare H.heap →
      (∀ it ∈ H.heap, ItemOK V s e it) →
      (H.heap.map (fun it => 3 ^ (8 - it.d))).sum < fuel →
      List.Perm
        (((List.range 256).filter (fun v => decide (0 < symCount V s e v))).map
          (fun v => (v, symCount V s e v)))
        (R ++ (H.heap.flatMap (symsOf V s e)).map (fun u => (u, symCount V s e u))) →
      List.Pairwise topkRel R →
      (∀ p ∈ R, ∀ u ∈ H.heap.flatMap (symsOf V s e), topkRel p (u, symCount V s e u)) →
      R.length ≤ k →
      topkLoop ((List.range 8).map (fun d => from_bool_vec (wmBits V d))) k fuel H R =
        some (expectedTopk V s e k) := by
  intro fuel
  induction fuel with
  | zero =>
    intro H R hc hinv hItems hfuel hperm hsort hcross hlen
    exact absurd hfuel (Nat.not_lt_zero _)
  | succ fuel ih =>
    intro H R hc hinv hItems hfuel hperm hsort hcross hlen
    rw [topkLoop]
    obtain ⟨hpopnone, hpopsome⟩ := heap_pop_correct topk_compare tk_trans_notlt
      tk_trans_lt tk_dual H hc hinv
    cases hpop : H.pop with
    | none =>
      have hempty : H.heap = [] := hpopnone.mp hpop
      rw [hempty] at hperm
      rw [show (([] : List TopKItem).flatMap (symsOf V s e)) = [] from rfl,
        List.map_nil] at hperm
      have hassemble := sorted_prefix_sort _ R [] hperm hsort
        (fun p hp pr hpr => absurd hpr (List.not_mem_nil pr))
      show some R = some (expectedTopk V s e k)
      rw [expectedTopk, hassemble]
      rw [show (List.insertionSort topkRel ([] : List (Nat × Nat))) = [] from rfl,
        List.append_nil, List.take_of_length_le hlen]
    | some qh =>
      obtain ⟨q, H2⟩ := qh
      dsimp only
      obtain ⟨hmin, hpermPop, hinv2, hc2⟩ := hpopsome q H2 hpop
      have hqmem : q ∈ H.heap := hpermPop.mem_iff.mp (List.mem_cons_self q H2.heap)
      have hItems2 : ∀ it ∈ H2.heap, ItemOK V s e it := fun it hit =>
        hItems it (hpermPop.mem_iff.mp (List.mem_cons_of_mem q hit))
      have hflat : List.Perm (H.heap.flatMap (symsOf V s e))
          (symsOf V s e q ++ H2.heap.flatMap (symsOf V s e)) := by
        have h1 := (hpermPop.flatMap_right (symsOf V s e)).symm
        rw [List.flatMap_cons] at h1
        exact h1
      have hsumH := (hpermPop.map (fun it => 3 ^ (8 - it.d))).sum_eq
      rw [List.map_cons, List.sum_cons] at hsumH
      by_cases hkR : k ≤ R.length
      · rw [if_pos hkR]
        have hcrossP : ∀ p ∈ R, ∀ pr ∈ (H.heap.flatMap (symsOf V s e)).map
            (fun u => (u, symCount V s e u)), topkRel p pr := by
          intro p hp pr hpr
          obtain ⟨u, hu, hpr2⟩ := List.mem_map.mp hpr
          rw [← hpr2]
          exact hcross p hp u hu
        have hassemble := sorted_prefix_sort _ R _ hperm hsort hcrossP
        show some R = some (expectedTopk V s e k)
        rw [expectedTopk, hassemble, show k = R.length from by omega, List.take_left]
      · rw [if_neg hkR]
        rw [List.length_map, List.length_range]
        by_cases hqd : 8 ≤ q.d
        · rw [if_pos hqd]
          have hOKq := hItems q hqmem
          have hd8 : q.d = 8 := by
            obtain ⟨-, -, h3, -, -⟩ := hOKq
            omega
          have hcount : q.e - q.s = symCount V s e q.v := leaf_count V s e q hOKq hd8
          have hpos : 0 < q.e - q.s := by
            obtain ⟨-, -, -, h4, -⟩ := hOKq
            have := h4 (by omega)
            omega
          have hcntv : 0 < symCount V s e q.v := by omega
          have hv256 : q.v < 256 := by
            have hmemv : q.v ∈ seg V s e := by
              unfold symCount at hcntv
              exact List.count_pos_iff.mp hcntv
            exact hV q.v (List.mem_of_mem_drop (List.mem_of_mem_take hmemv))
          have hsymq : symsOf V s e q = [q.v] := leaf_syms V s e q hd8 hv256 hcntv
          have hfuel2 : (H2.heap.map (fun it => 3 ^ (8 - it.d))).sum < fuel := by
            have hp1 : 0 < 3 ^ (8 - q.d) := pow_pos (by omega) _
            omega
          have hpairs : List.Perm
              ((H.heap.flatMap (symsOf V s e)).map (fun u => (u, symCount V s e u)))
              ((q.v, q.e - q.s) :: (H2.heap.flatMap (symsOf V s e)).map
                (fun u => (u, symCount V s e u))) := by
            have h1 := hflat.map (fun u => (u, symCount V s e u))
            rw [List.map_append, hsymq] at h1
            rw [show ([q.v].map (fun u => (u, symCount V s e u))) =
              [(q.v, q.e - q.s)] from by rw [List.map_singleton, ← hcount]] at h1
            exact h1
          have hperm2 : List.Perm
              (((List.range 256).filter (fun v => decide (0 < symCount V s e v))).map
                (fun v => (v, symCount V s e v)))
              ((R ++ [(q.v, q.e - q.s)]) ++
                (H2.heap.flatMap (symsOf V s e)).map
                  (fun u => (u, symCount V s e u))) := by
            have h2 := hperm.trans (List.Perm.append_left R hpairs)
            rw [show ((q.v, q.e - q.s) :: (H2.heap.flatMap (symsOf V s e)).map
                (fun u => (u, symCount V s e u))) =
              [(q.v, q.e - q.s)] ++ (H2.heap.flatMap (symsOf V s e)).map
                (fun u => (u, symCount V s e u)) from rfl,
              ← List.append_assoc] at h2
            exact h2
          have hqvmem : q.v ∈ H.heap.flatMap (symsOf V s e) := by
            rw [List.mem_flatMap]
            exact ⟨q, hqmem, by rw [hsymq]; exact List.mem_singleton.mpr rfl⟩
          have hsort2 : List.Pairwise topkRel (R ++ [(q.v, q.e - q.s)]) := by
            rw [List.pairwise_append]
            refine ⟨hsort, List.pairwise_singleton _ _, ?_⟩
            intro p hp pr hpr
            rw [List.mem_singleton] at hpr
            subst hpr
            have h3 := hcross p hp q.v hqvmem
            rw [← hcount] at h3
            exact h3
          have hcross2 : ∀ p ∈ R ++ [(q.v, q.e - q.s)],
              ∀ u ∈ H2.heap.flatMap (symsOf V s e),
              topkRel p (u, symCount V s e u) := by
            intro p hp u hu
            rw [List.mem_append] at hp
            cases hp with
            | inl hpR =>
              exact hcross p hpR u (hflat.symm.mem_iff.mp (List.mem_append_right _ hu))
            | inr hpq =>
              rw [List.mem_singleton] at hpq
              subst hpq
              obtain ⟨it, hitmem, hu2⟩ := List.mem_flatMap.mp hu
              have hitH : it ∈ H.heap :=
                hpermPop.mem_iff.mp (List.mem_cons_of_mem q hitmem)
              have hming := hmin it hitH
              have hming2 : ¬(q.e - q.s < it.e - it.s ∨
                  (it.e - it.s = q.e - q.s ∧ it.v < q.v)) :=
                fun hcontra => hming ((topk_compare_gt q it).mpr hcontra)
              have hcule := syms_count_le V s e it (hItems it hitH) u hu2
              have hvu := syms_v_le V s e it u hu2
              unfold topkRel
              dsimp only
              omega
          have hlen2 : (R ++ [(q.v, q.e - q.s)]).length ≤ k := by
            rw [List.length_append, List.length_singleton]
            omega
          exact ih H2 (R ++ [(q.v, q.e - q.s)]) hc2 hinv2 hItems2 hfuel2 hperm2
            hsort2 hcross2 hlen2
        · rw [if_neg hqd]
          have hd7 : q.d ≤ 7 := by omega
          obtain ⟨hq1, hq2, hq3, hq4, hq5⟩ := hItems q hqmem
          have hfid : ((List.range 8).map
              (fun d => from_bool_vec (wmBits V d))).get? q.d =
              some (from_bool_vec (wmBits V q.d)) := by
            rw [List.get?_eq_getElem?, List.getElem?_map,
              List.getElem?_range (by omega)]
            rfl
          simp only [hfid]
          rw [layer_rank0 V q.d q.s (by omega), Option.some_bind,
            layer_rank0 V q.d q.e hq2, Option.some_bind, layer_rank0_full V q.d,
            Option.some_bind, layer_rank1 V q.d q.s (by omega), Option.some_bind,
            layer_rank1 V q.d q.e hq2, Option.some_bind]
          obtain ⟨hinvF, hcF, hItemsF, hsumF, hflatF⟩ := topk_step_facts V s e q hd7
            ⟨hq1, hq2, hq3, hq4, hq5⟩ H2 hc2 hinv2 hItems2 _ _ _ _ _ rfl rfl rfl
            rfl rfl _ rfl
          have hHFH : List.Perm
              ((if ((wmVec V q.d).filter (fun v => !planeBit q.d v)).length +
                    ((wmVec V q.d).take q.s).countP (fun v => planeBit q.d v) <
                  ((wmVec V q.d).filter (fun v => !planeBit q.d v)).length +
                    ((wmVec V q.d).take q.e).countP (fun v => planeBit q.d v) then
                  (if ((wmVec V q.d).take q.s).countP (fun v => !planeBit q.d v) <
                      ((wmVec V q.d).take q.e).countP (fun v => !planeBit q.d v) then
                    H2.push (TopKItem.new
                      (((wmVec V q.d).take q.s).countP (fun v => !planeBit q.d v))
                      (((wmVec V q.d).take q.e).countP (fun v => !planeBit q.d v))
                      (q.d + 1) (q.v <<< 1))
                    else H2).push
                    (TopKItem.new
                      (((wmVec V q.d).filter (fun v => !planeBit q.d v)).length +
                        ((wmVec V q.d).take q.s).countP (fun v => planeBit q.d v))
                      (((wmVec V q.d).filter (fun v => !planeBit q.d v)).length +
                        ((wmVec V q.d).take q.e).countP (fun v => planeBit q.d v))
                      (q.d + 1) (q.v <<< 1 ||| 1))
                else (if ((wmVec V q.d).take q.s).countP (fun v => !planeBit q.d v) <
                      ((wmVec V q.d).take q.e).countP (fun v => !planeBit q.d v) then
                    H2.push (TopKItem.new
                      (((wmVec V q.d).take q.s).countP (fun v => !planeBit q.d v))
                      (((wmVec V q.d).take q.e).countP (fun v => !planeBit q.d v))
                      (q.d + 1) (q.v <<< 1))
                    else H2)).heap.flatMap (symsOf V s e))
              (H.heap.flatMap (symsOf V s e)) := hflatF.trans hflat.symm
          apply ih _ R hcF hinvF hItemsF ?_ ?_ hsort ?_ hlen
          · have hp1 : 0 < 3 ^ (7 - q.d) := pow_pos (by omega) _
            omega
          · exact hperm.trans (List.Perm.append_left R
              ((hHFH.map (fun u => (u, symCount V s e u))).symm))
          · intro p hp u hu
            exact hcross p hp u (hHFH.mem_iff.mp hu)

/-- C3: for every byte sequence `V` and any `s ≤ e ≤ length` and `k`,
`topk(s, e, k)` returns exactly the list of `(symbol, count)` pairs for the
distinct symbols occurring in `V[s..e)`, with each count the true number of
occurrences of that symbol in the range, sorted by descending count with ties
broken by ascending symbol value, and truncated to the first `k` entries
(fewer when fewer than `k` distinct symbols occur). -/
theorem wavelet_topk_correct (V : List Nat) (hV : ∀ x ∈ V, x < 256)
    (s e k : Nat) (hse : s ≤ e) (hen : e ≤ V.length) :
    (U8WaveletMatrix.new V).topk s e k = some (expectedTopk V s e k) := by
  unfold U8WaveletMatrix.topk U8WaveletMatrix.new
  dsimp only
  obtain ⟨hinv0, hperm0, hc0⟩ := heap_push_inv topk_compare tk_trans_notlt
    tk_trans_lt tk_dual (Heap.with_compare topk_compare) rfl
    (heapInv_nil topk_compare) (TopKItem.new s e 0 0)
  rw [show (Heap.with_compare topk_compare).heap = ([] : List TopKItem) from rfl]
    at hperm0
  apply topkLoop_correct V hV s e k hse hen (3 ^ 9) _ [] hc0 hinv0 ?_ ?_ ?_
    List.Pairwise.nil ?_ (Nat.zero_le k)
  · intro it hit
    have hmem := hperm0.mem_iff.mp hit
    rw [List.mem_cons] at hmem
    cases hmem with
    | inl heq =>
      subst heq
      exact init_item_ok V hV s e hse hen
    | inr habs => exact absurd habs (List.not_mem_nil it)
  · have hsum := (hperm0.map (fun it => 3 ^ (8 - it.d))).sum_eq
    rw [List.map_cons, List.map_nil, List.sum_cons, List.sum_nil] at hsum
    rw [hsum]
    show 3 ^ (8 - 0) + 0 < 3 ^ 9
    decide
  · rw [List.nil_append]
    have hfl := hperm0.flatMap_right (symsOf V s e)
    rw [List.flatMap_cons, show (([] : List TopKItem).flatMap (symsOf V s e)) = []
      from rfl, List.append_nil, init_syms V s e] at hfl
    exact (hfl.map (fun u => (u, symCount V s e u))).symm
  · intro p hp pr hpr
    exact absurd hp (List.not_mem_nil p)

theorem wavelet_topk_correct_witness :
    (U8WaveletMatrix.new [5, 1, 3, 1, 2, 2, 1, 4]).topk 0 8 2 =
      some (expectedTopk [5, 1, 3, 1, 2, 2, 1, 4] 0 8 2) :=
  wavelet_topk_correct [5, 1, 3, 1, 2, 2, 1, 4] (by decide) 0 8 2 (by decide)
    (by decide)
